import Mathlib

/-!
# DataStructures_C: hash table, linked list, queue, priority queue, stack

A shallow embedding of the C sources `hash_table.c`, `linked_list.c`,
`queue.c`, `queue_p.c` and `stack.c`.

Conventions of the embedding

* A nullable pointer argument is an `Option`; `none` is `NULL`.
* A function whose C body can run into undefined behaviour (a `NULL`
  dereference, an access outside an array, a read of freed memory, a
  remainder by zero) or into a loop that never ends returns an outer
  `Option`, and `none` stands for exactly those runs.
* The outcome of every call of `malloc`, `calloc` and `strdup` is an explicit
  Boolean argument (`true`: the allocator returns storage).
* `uint32_t` counters (`size`, `position`, `capacity`, `currentsz`) are
  natural numbers; containers are taken to hold fewer than `2^32` nodes.
  The hash value is computed modulo `2^32` as in the source.
-/

namespace DataStructuresC

/-! ## Status codes -/

/-- The constant `SUCCESS` of `hash_table.h`. -/
def SUCCESS : Nat := 0

/-- The constant `FAILURE` of `hash_table.h`. -/
def FAILURE : Nat := 1

/-! ## hash_table.c -/

/-- A key: the bytes of a NUL-terminated C string before the terminator. -/
abbrev Key := List Nat

/-- The record `node_t`: one chain entry.  The `next` link is the tail of the Lean list
that holds the chain. -/
structure node_t where
  key : Key
  data : Nat
deriving DecidableEq, Repr

/-- The record `hash_table_t`.  `table` is the bucket array, each bucket a chain.  The
field `customfree` is never written nor read by `hash_table.c` and is left
out. -/
structure hash_table_t where
  size : Nat
  table : List (List node_t)
deriving DecidableEq, Repr

/-- The function `hash_table_init`.  `malloc_ok` and `calloc_ok` are the outcomes of the two
allocations; the source has no test of `size`, and the only use of
`customfree` is an assignment to the local parameter. -/
def hash_table_init (malloc_ok calloc_ok : Bool) (size : Nat) (_customfree : Option Nat) :
    Option hash_table_t :=
  if malloc_ok then
    if calloc_ok then
      some { size := size, table := List.replicate size [] }
    else
      none
  else
    none

/-- Value of a `char` (a byte `0..255`, signed as on x86) after conversion to
`uint32_t`. -/
def char_val (c : Nat) : Nat :=
  if c < 128 then c else c + (2 ^ 32 - 256)

/-- The `while` loop of `hash_function`: `hash = (hash * prime) + *key++` in
`uint32_t` arithmetic. -/
def hash_loop : Key → Nat → Nat
  | [], hash => hash
  | c :: rest, hash => hash_loop rest (((hash * 31) % 2 ^ 32 + char_val c) % 2 ^ 32)

/-- The function `hash_function`; `none` is the remainder by a zero `table_size`. -/
def hash_function (key : Key) (table_size : Nat) : Option Nat :=
  if table_size = 0 then none else some (hash_loop key 0 % table_size)

/-- The walk to the last node of a non-empty chain and the assignment
`current->next = new_node` (on the empty chain: `table[hashkey] = new_node`). -/
def link_at_end (new_node : node_t) : List node_t → List node_t
  | [] => [new_node]
  | current :: rest => current :: link_at_end new_node rest

/-- The function `hash_table_add`: returns the status and the table afterwards. -/
def hash_table_add (malloc_ok strdup_ok : Bool) (table : Option hash_table_t)
    (data : Option Nat) (key : Option Key) : Option (Nat × Option hash_table_t) :=
  match table, data, key with
  | some t, some d, some k =>
    if malloc_ok then
      match hash_function k t.size with
      | none => none
      | some hashkey =>
        if strdup_ok then
          match t.table[hashkey]? with
          | none => none
          | some chain =>
            some (SUCCESS,
              some { t with table := t.table.set hashkey (link_at_end ⟨k, d⟩ chain) })
        else
          some (FAILURE, some t)
    else
      some (FAILURE, some t)
  | _, _, _ => some (FAILURE, table)

/-- The scan loop of `hash_table_lookup` over one chain. -/
def lookup_scan (key : Key) : List node_t → Option Nat
  | [] => none
  | current :: rest =>
    if key = current.key then some current.data else lookup_scan key rest

/-- The function `hash_table_lookup`: the inner `Option` is the returned `void *`. -/
def hash_table_lookup (table : Option hash_table_t) (key : Option Key) :
    Option (Option Nat) :=
  match table with
  | none => some none
  | some t =>
    match key with
    | none => none
    | some k =>
      match hash_function k t.size with
      | none => none
      | some index =>
        match t.table[index]? with
        | none => none
        | some chain => some (lookup_scan k chain)

/-- The scan loop of `hash_table_remove` followed by the unlinking of
`current`.  When the scan leaves `current == NULL` the source reads
`current->next`: that run is `none`. -/
def remove_scan (key : Key) : List node_t → Option (List node_t)
  | [] => none
  | current :: rest =>
    if key = current.key then some rest
    else (remove_scan key rest).map (fun unlinked => current :: unlinked)

/-- The function `hash_table_remove`: returns the status and the table afterwards. -/
def hash_table_remove (table : Option hash_table_t) (key : Option Key) :
    Option (Nat × Option hash_table_t) :=
  match table with
  | none => some (FAILURE, none)
  | some t =>
    match key with
    | none => none
    | some k =>
      match hash_function k t.size with
      | none => none
      | some index =>
        match t.table[index]? with
        | none => none
        | some [] => some (FAILURE, some t)
        | some (first :: rest) =>
          match remove_scan k (first :: rest) with
          | none => none
          | some chain => some (SUCCESS, some { t with table := t.table.set index chain })

/-- A run of `hash_table_add` calls, all allocations succeeding, that stops at
the first call that does not return `SUCCESS`. -/
def hash_table_add_all : hash_table_t → List (Nat × Key) → Option hash_table_t
  | t, [] => some t
  | t, (d, k) :: rest =>
    match hash_table_add true true (some t) (some d) (some k) with
    | some (0, some t') => hash_table_add_all t' rest
    | _ => none

/-! ## linked_list.c -/

/-- Modelled from the spec: the shared enumeration of status codes returned by
`linked_list.c`, `queue.c`, `queue_p.c` and `stack.c`.  The headers that
declare `SUCCESS`, `NULL_POINTER`, `NULL_DATA`, `INVALID_ARGUMENT`,
`MEM_ALLOCATION_ERROR`, `OVERFLOW`, `UNDERFLOW`, `EMPTY` and `ITEM_NOT_FOUND`
are missing; the spec says the error codes are negative, pairwise distinct and
distinct from the zero success value.  A constructor other than `SUCCESS`
stands for the negated constant the source returns. -/
inductive status_t where
  | SUCCESS
  | NULL_POINTER
  | NULL_DATA
  | INVALID_ARGUMENT
  | MEM_ALLOCATION_ERROR
  | OVERFLOW
  | UNDERFLOW
  | EMPTY
  | ITEM_NOT_FOUND
deriving DecidableEq, Repr

/-- A function pointer kept in a container: the C library `free`, the
`default_compare` and `custom_free` of the sources, or a function of the
caller named by a number. -/
inductive fn_ptr where
  | libc_free
  | default_compare
  | custom_free
  | user (id : Nat)
deriving DecidableEq, Repr

/-- The record `list_node_t`: `data` is the payload pointer, `next` the address of the
next record. -/
structure list_node_t where
  position : Nat
  data : Nat
  next : Option Nat
deriving DecidableEq, Repr

/-- The record `list_t`. -/
structure list_t where
  size : Nat
  head : Option Nat
  tail : Option Nat
  customfree : fn_ptr
  compare_function : fn_ptr
deriving DecidableEq, Repr

/-- The storage of node records: the record at address `p` is entry `p`;
`none` is a record that has been freed.  `malloc` returns the first unused
address. -/
abbrev heap_t := List (Option list_node_t)

/-- Read of the record at address `p`; `none` when `p` is not an allocated
record. -/
def heap_read (h : heap_t) (p : Nat) : Option list_node_t :=
  match h[p]? with
  | some (some n) => some n
  | _ => none

/-- Store into the record at address `p`. -/
def heap_write (h : heap_t) (p : Nat) (n : list_node_t) : heap_t :=
  h.set p (some n)

/-- The effect of `free` on the record at address `p`. -/
def heap_free (h : heap_t) (p : Nat) : heap_t :=
  h.set p none

/-- Decrement of a `uint32_t`. -/
def dec32 (n : Nat) : Nat :=
  if n = 0 then 2 ^ 32 - 1 else n - 1

/-- The function `list_new`. -/
def list_new (malloc_ok : Bool) (customfree compare_function : Option fn_ptr) :
    Option list_t :=
  if malloc_ok then
    some { size := 0, head := none, tail := none,
           customfree := customfree.getD fn_ptr.libc_free,
           compare_function := compare_function.getD fn_ptr.default_compare }
  else
    none

/-- The position update loop of `list_push_head`, `list_pop_head` and
`list_remove`: `while (NULL != current) { current->position = pos++; current =
current->next; }`.  The first argument bounds the number of iterations. -/
def renumber : Nat → heap_t → Option Nat → Nat → Option heap_t
  | _, h, none, _ => some h
  | 0, _, some _, _ => none
  | fuel + 1, h, some current, pos =>
    match heap_read h current with
    | none => none
    | some n => renumber fuel (heap_write h current { n with position := pos }) n.next (pos + 1)

/-- The function `list_push_head`: returns the status, the storage and the list afterwards. -/
def list_push_head (malloc_ok : Bool) (h : heap_t) (list : Option list_t) (data : Nat) :
    Option (status_t × heap_t × Option list_t) :=
  match list with
  | none => some (status_t.NULL_POINTER, h, none)
  | some l =>
    if malloc_ok then
      let new_node := h.length
      let h1 := h ++ [some { position := 0, data := data, next := l.head }]
      let l1 := { l with head := some new_node, size := l.size + 1 }
      let l2 := if l1.tail = none then { l1 with tail := some new_node } else l1
      match renumber h1.length h1 l.head 1 with
      | none => none
      | some h2 => some (status_t.SUCCESS, h2, some l2)
    else
      some (status_t.MEM_ALLOCATION_ERROR, h, some l)

/-- The function `list_push_tail`: returns the status, the storage and the list afterwards. -/
def list_push_tail (malloc_ok : Bool) (h : heap_t) (list : Option list_t) (data : Nat) :
    Option (status_t × heap_t × Option list_t) :=
  match list with
  | none => some (status_t.NULL_POINTER, h, none)
  | some l =>
    if malloc_ok then
      let new_node := h.length
      let h1 := h ++ [some { position := l.size, data := data, next := none }]
      let l1 := { l with size := l.size + 1 }
      let linked : Option heap_t :=
        match l1.tail with
        | none => some h1
        | some t =>
          match heap_read h1 t with
          | none => none
          | some n => some (heap_write h1 t { n with next := some new_node })
      match linked with
      | none => none
      | some h2 =>
        let l2 := { l1 with tail := some new_node }
        let l3 := if l2.head = none then { l2 with head := some new_node } else l2
        some (status_t.SUCCESS, h2, some l3)
    else
      some (status_t.MEM_ALLOCATION_ERROR, h, some l)

/-- The function `list_pop_head`: returns the popped node pointer, the storage and the list
afterwards. -/
def list_pop_head (h : heap_t) (list : Option list_t) :
    Option (Option Nat × heap_t × Option list_t) :=
  match list with
  | none => some (none, h, none)
  | some l =>
    match l.head with
    | none => some (none, h, some l)
    | some popped_node =>
      match heap_read h popped_node with
      | none => none
      | some n =>
        let l1 := { l with head := n.next }
        match renumber h.length h l1.head 0 with
        | none => none
        | some h1 =>
          let l2 := { l1 with size := dec32 l1.size }
          let l3 := if l2.size = 0 then { l2 with head := none, tail := none } else l2
          some (some popped_node, h1, some l3)

/-- The scan loop of `list_pop_tail`: `while (NULL != current->next &&
current->next != list->tail) current = current->next;`.  Returns the final
`current`.  The first argument bounds the number of iterations. -/
def pop_tail_scan : Nat → heap_t → Nat → Option Nat → Option Nat
  | 0, _, _, _ => none
  | fuel + 1, h, current, tail =>
    match heap_read h current with
    | none => none
    | some cn =>
      match cn.next with
      | none => some current
      | some next =>
        if some next ≠ tail then pop_tail_scan fuel h next tail else some current

/-- The function `list_pop_tail`: returns the popped node pointer, the storage and the
list afterwards. -/
def list_pop_tail (h : heap_t) (list : Option list_t) :
    Option (Option Nat × heap_t × Option list_t) :=
  match list with
  | none => some (none, h, none)
  | some l =>
    match l.head with
    | none => some (none, h, some l)
    | some head =>
      let popped_node := l.tail
      let unlinked : Option (heap_t × list_t) :=
        if 1 = l.size then some (h, { l with head := none, tail := none })
        else
          match pop_tail_scan h.length h head l.tail with
          | none => none
          | some current =>
            match heap_read h current with
            | none => none
            | some cn =>
              some (heap_write h current { cn with next := none },
                { l with tail := some current })
      match unlinked with
      | none => none
      | some (h1, l1) =>
        let l2 := { l1 with size := dec32 l1.size }
        match popped_node with
        | none => some (none, h1, some l2)
        | some popped =>
          match heap_read h1 popped with
          | none => none
          | some pn => some (some popped, heap_write h1 popped { pn with next := none }, some l2)

/-- The function `list_peek_head`. -/
def list_peek_head (list : Option list_t) : Option Nat :=
  match list with
  | none => none
  | some l => l.head

/-- The function `list_peek_tail`. -/
def list_peek_tail (list : Option list_t) : Option Nat :=
  match list with
  | none => none
  | some l => l.tail

/-- The storage `item_to_remove` points to, under the two reads the source
performs: `*item_to_remove` (a pointer) and `*(int *)item_to_remove`. -/
structure ref_t where
  as_ptr : Option Nat
  as_int : Int
deriving DecidableEq, Repr

/-- The search loop of `list_remove`.  `deref d` is the `int` stored at the
payload address `d` (`none`: not readable).  The result is `none` inside when
the loop ends with `found == 0`, and `(current, previous)` otherwise. -/
def remove_find (deref : Nat → Option Int) (item : Int) :
    Nat → heap_t → Option Nat → Option Nat → Option (Option (Nat × Option Nat))
  | _, _, none, _ => some none
  | 0, _, some _, _ => none
  | fuel + 1, h, some current, previous =>
    match heap_read h current with
    | none => none
    | some n =>
      match deref n.data with
      | none => none
      | some v =>
        if item - v = 0 then some (some (current, previous))
        else remove_find deref item fuel h n.next (some current)

/-- The function `list_remove`: returns the status, the storage and the list afterwards. -/
def list_remove (deref : Nat → Option Int) (h : heap_t) (list : Option list_t)
    (item_to_remove : Option ref_t) : Option (status_t × heap_t × Option list_t) :=
  match list with
  | none => some (status_t.NULL_POINTER, h, none)
  | some l =>
    match l.head with
    | none => some (status_t.EMPTY, h, some l)
    | some first =>
      match item_to_remove with
      | none => some (status_t.NULL_DATA, h, some l)
      | some r =>
        if r.as_ptr = none then some (status_t.NULL_DATA, h, some l)
        else
          match remove_find deref r.as_int h.length h (some first) none with
          | none => none
          | some none => some (status_t.ITEM_NOT_FOUND, h, some l)
          | some (some (current, previous)) =>
            match heap_read h current with
            | none => none
            | some cn =>
              let unlinked : Option (heap_t × list_t) :=
                if some current = l.head ∧ some current = l.tail then
                  some (h, { l with head := none, tail := none })
                else if some current = l.head then
                  some (h, { l with head := cn.next })
                else if some current = l.tail then
                  some (h, { l with tail := previous })
                else
                  match previous with
                  | none => none
                  | some prev =>
                    match heap_read h prev with
                    | none => none
                    | some pn => some (heap_write h prev { pn with next := cn.next }, l)
              match unlinked with
              | none => none
              | some (h1, l1) =>
                match renumber h1.length h1 l1.head 0 with
                | none => none
                | some h2 =>
                  some (status_t.SUCCESS, heap_free h2 current,
                    some { l1 with size := dec32 l1.size })

/-- A run of `list_push_tail` calls, all allocations succeeding, that stops at
the first call that does not return `SUCCESS`. -/
def list_push_tail_all : heap_t → list_t → List Nat → Option (heap_t × list_t)
  | h, l, [] => some (h, l)
  | h, l, d :: rest =>
    match list_push_tail true h (some l) d with
    | some (status_t.SUCCESS, h', some l') => list_push_tail_all h' l' rest
    | _ => none

/-- The function `list_emptycheck`. -/
def list_emptycheck (list : Option list_t) : status_t :=
  match list with
  | none => status_t.NULL_POINTER
  | some _ => status_t.SUCCESS

/-- The `while` loop of `list_find_all_occurrences`: `while (current != NULL &&
0 == error)`.  `item` is `*(int *)search_data`, `malloc_ok k` the outcome of
the `k`-th `malloc` of the call, `pushes` the number of `list_push_head` calls
made so far.  The first argument bounds the number of iterations. -/
def find_all_loop (deref : Nat → Option Int) (item : Int) (malloc_ok : Nat → Bool) :
    Nat → heap_t → Option list_t → Option Nat → status_t → Nat →
      Option (heap_t × Option list_t × status_t)
  | _, h, new_list, none, error, _ => some (h, new_list, error)
  | 0, h, new_list, some _, error, _ =>
    if error = status_t.SUCCESS then none else some (h, new_list, error)
  | fuel + 1, h, new_list, some current, error, pushes =>
    if error = status_t.SUCCESS then
      match heap_read h current with
      | none => none
      | some n =>
        match deref n.data with
        | none => none
        | some v =>
          if v - item = 0 then
            match list_push_head (malloc_ok (pushes + 1)) h new_list n.data with
            | none => none
            | some (error', h1, new_list1) =>
              match heap_read h1 current with
              | none => none
              | some n1 =>
                find_all_loop deref item malloc_ok fuel h1 new_list1 n1.next error'
                  (pushes + 1)
          else
            find_all_loop deref item malloc_ok fuel h new_list n.next error pushes
    else some (h, new_list, error)

/-- The function `list_find_all_occurrences`: returns the new list and the
storage afterwards.  `malloc_ok 0` is the outcome of the `malloc` of
`list_new`. -/
def list_find_all_occurrences (deref : Nat → Option Int) (malloc_ok : Nat → Bool)
    (h : heap_t) (list : Option list_t) (search_data : Option ref_t) :
    Option (Option list_t × heap_t) :=
  match list, search_data with
  | some l, some r =>
    if r.as_ptr ≠ none ∧ l.size ≠ 0 then
      let new_list := list_new (malloc_ok 0) (some fn_ptr.custom_free)
        (some fn_ptr.default_compare)
      match find_all_loop deref r.as_int malloc_ok h.length h new_list l.head
          status_t.SUCCESS 0 with
      | none => none
      | some (h', new_list', error) =>
        if error ≠ status_t.SUCCESS then some (none, h') else some (new_list', h')
    else some (none, h)
  | _, _ => some (none, h)

/-- The inner `while` loop of `list_sort`: `while (current->next != last_sorted)`
with the swap of the payloads of `current` and `current->next`.  Returns the
storage, the final `current` and `swapped`.  The first argument bounds the
number of iterations. -/
def sort_sweep : Nat → heap_t → Nat → Option Nat → Bool → Option (heap_t × Nat × Bool)
  | 0, _, _, _, _ => none
  | fuel + 1, h, current, last_sorted, swapped =>
    match heap_read h current with
    | none => none
    | some cn =>
      if cn.next = last_sorted then some (h, current, swapped)
      else
        match cn.next with
        | none => none
        | some next =>
          match heap_read h next with
          | none => none
          | some nn =>
            if cn.data > nn.data then
              sort_sweep fuel
                (heap_write (heap_write h current { cn with data := nn.data }) next
                  { nn with data := cn.data })
                next last_sorted true
            else
              sort_sweep fuel h next last_sorted swapped

/-- The `do ... while (swapped)` loop of `list_sort`.  The first argument
bounds the number of sweeps. -/
def sort_outer : Nat → heap_t → Nat → Option Nat → Option heap_t
  | 0, _, _, _ => none
  | fuel + 1, h, head, last_sorted =>
    match sort_sweep h.length h head last_sorted false with
    | none => none
    | some (h1, current, swapped) =>
      if swapped then sort_outer fuel h1 head (some current) else some h1

/-- The function `list_sort`: returns the status, the storage and the list
afterwards. -/
def list_sort (h : heap_t) (list : Option list_t) :
    Option (status_t × heap_t × Option list_t) :=
  match list with
  | none => some (status_t.NULL_POINTER, h, none)
  | some l =>
    match l.head with
    | none => some (status_t.EMPTY, h, some l)
    | some head =>
      match sort_outer h.length h head none with
      | none => none
      | some h' => some (status_t.SUCCESS, h', some l)

/-! ### Well-formed lists -/

/-- Following `next` from the pointer `p` visits exactly the allocated records
at the addresses `addrs`, in this order, and then reaches `NULL`. -/
def is_chain (h : heap_t) : Option Nat → List Nat → Bool
  | p, [] => decide (p = none)
  | p, a :: rest =>
    match heap_read h a with
    | none => false
    | some n => decide (p = some a) && is_chain h n.next rest

/-- The records at `addrs` carry the positions `pos`, `pos + 1`, ... -/
def has_positions (h : heap_t) : List Nat → Nat → Bool
  | [], _ => true
  | a :: rest, pos =>
    match heap_read h a with
    | none => false
    | some n => decide (n.position = pos) && has_positions h rest (pos + 1)

/-- The payloads of the records at `addrs`. -/
def chain_data (h : heap_t) (addrs : List Nat) : List Nat :=
  addrs.filterMap (fun a => (heap_read h a).map (fun n => n.data))

/-- List well-formedness, with `addrs` the node addresses from head to tail:
the `next` links lead from `head` through `addrs` to `NULL` (so the last node
has no successor), `size` is the number of nodes, `tail` is the last node (so
`head` and `tail` are both `NULL` exactly when `size = 0`), and the position
fields are `0 .. size - 1`. -/
def list_wf (h : heap_t) (l : list_t) (addrs : List Nat) : Prop :=
  is_chain h l.head addrs = true ∧ l.size = addrs.length ∧
  l.tail = addrs.getLast? ∧ has_positions h addrs 0 = true

/-- The storage after the records at `addrs` have been given the positions
`pos`, `pos + 1`, ...: what the position update loop computes on a chain. -/
def set_positions (h : heap_t) : List Nat → Nat → heap_t
  | [], _ => h
  | a :: rest, pos =>
    match heap_read h a with
    | none => h
    | some n => set_positions (heap_write h a { n with position := pos }) rest (pos + 1)

/-- The storage `h'` has the same records as `h`, each with the same `position`
and `next` fields; only payloads may differ. -/
def same_links (h h' : heap_t) : Prop :=
  h'.length = h.length ∧
  ∀ a : Nat, (heap_read h' a).map (fun n => (n.position, n.next)) =
    (heap_read h a).map (fun n => (n.position, n.next))

/-! ## Deallocation calls -/

/-- One deallocation call made by a clear or destroy function: the callee and
what it is applied to. -/
inductive dealloc_t where
  /-- A call of `free` on a node record whose payload is `data`. -/
  | free_node (data : Nat)
  /-- A call of `free` on the key string of a hash table entry. -/
  | free_key (key : Key)
  /-- A call of `free` on the slot array or bucket array. -/
  | free_array
  /-- A call of `free` on the container record. -/
  | free_container
  /-- A call of the release hook `hook` kept by the container on the payload `data`. -/
  | release (hook : fn_ptr) (data : Nat)
deriving DecidableEq, Repr

/-- The deallocation calls of the inner `while` loop of `hash_table_clear` on
one chain. -/
def clear_chain : List node_t → List dealloc_t
  | [] => []
  | node_to_free :: rest =>
    dealloc_t.free_key node_to_free.key :: dealloc_t.free_node node_to_free.data ::
      clear_chain rest

/-- The `for` loop of `hash_table_clear` from bucket `x` on, `remaining`
buckets to go. -/
def clear_loop : Nat → Nat → List (List node_t) → Option (List (List node_t) × List dealloc_t)
  | 0, _, table => some (table, [])
  | remaining + 1, x, table =>
    match table[x]? with
    | none => none
    | some chain =>
      match clear_loop remaining (x + 1) (table.set x []) with
      | none => none
      | some (table', calls) => some (table', clear_chain chain ++ calls)

/-- The function `hash_table_clear`: returns the status, the table afterwards and the
deallocation calls made. -/
def hash_table_clear (table_addr : Option hash_table_t) :
    Option (Nat × Option hash_table_t × List dealloc_t) :=
  match table_addr with
  | none => some (FAILURE, none, [])
  | some t =>
    match clear_loop t.size 0 t.table with
    | none => none
    | some (table', calls) => some (SUCCESS, some { t with table := table' }, calls)

/-- The function `hash_table_destroy`: returns the status, the caller's handle afterwards
and the deallocation calls made. -/
def hash_table_destroy (table_addr : Option (Option hash_table_t)) :
    Option (Nat × Option (Option hash_table_t) × List dealloc_t) :=
  match table_addr with
  | some (some t) =>
    match hash_table_clear (some t) with
    | none => none
    | some (_, _, calls) =>
      some (SUCCESS, some none, calls ++ [dealloc_t.free_array, dealloc_t.free_container])
  | other => some (FAILURE, other, [])

/-- The `while` loop of `list_delete`: frees the records from `current` on.
The first argument bounds the number of iterations. -/
def delete_nodes : Nat → heap_t → Option Nat → Option (heap_t × List dealloc_t)
  | _, h, none => some (h, [])
  | 0, _, some _ => none
  | fuel + 1, h, some current =>
    match heap_read h current with
    | none => none
    | some n =>
      match delete_nodes fuel (heap_free h current) n.next with
      | none => none
      | some (h', calls) => some (h', dealloc_t.free_node n.data :: calls)

/-- The function `list_delete`: returns the status, the storage, the caller's handle
afterwards and the deallocation calls made. -/
def list_delete (h : heap_t) (list_address : Option (Option list_t)) :
    Option (status_t × heap_t × Option (Option list_t) × List dealloc_t) :=
  match list_address with
  | some (some l) =>
    match delete_nodes h.length h l.head with
    | none => none
    | some (h', calls) =>
      some (status_t.SUCCESS, h', some none, calls ++ [dealloc_t.free_container])
  | other => some (status_t.NULL_POINTER, h, other, [])

/-! ## queue.c -/

/-- Value returned by a `fullcheck` or `emptycheck` function: a negated error
constant, or the value of a C comparison (`true` is 1, `false` is 0). -/
inductive check_t where
  | error (e : status_t)
  | truth (b : Bool)
deriving DecidableEq, Repr

/-- The value of a check used as a C condition: non-zero or not. -/
def check_t.nonzero : check_t → Bool
  | check_t.error e => decide (e ≠ status_t.SUCCESS)
  | check_t.truth b => b

/-- The record `queue_node_t`. -/
structure queue_node_t where
  data : Nat
deriving DecidableEq, Repr

/-- The record `queue_t`: `arr` is the slot array (`none`: a `NULL` array pointer), each
slot a node pointer. -/
structure queue_t where
  capacity : Nat
  currentsz : Nat
  arr : Option (List (Option queue_node_t))
  customfree : fn_ptr
deriving DecidableEq, Repr

/-- The function `queue_init`; the Booleans are the outcomes of the two `calloc` calls. -/
def queue_init (calloc_queue_ok calloc_arr_ok : Bool) (capacity : Nat)
    (customfree : Option fn_ptr) : Option queue_t :=
  if capacity = 0 then none
  else if calloc_queue_ok then
    if calloc_arr_ok then
      some { capacity := capacity, currentsz := 0,
             arr := some (List.replicate capacity none),
             customfree := customfree.getD fn_ptr.libc_free }
    else none
  else none

/-- The function `queue_fullcheck`. -/
def queue_fullcheck (queue : Option queue_t) : check_t :=
  match queue with
  | none => check_t.error status_t.NULL_POINTER
  | some q => check_t.truth (decide (q.currentsz ≥ q.capacity))

/-- The function `queue_emptycheck`. -/
def queue_emptycheck (queue : Option queue_t) : check_t :=
  match queue with
  | none => check_t.error status_t.NULL_POINTER
  | some q => check_t.truth (decide (0 = q.currentsz))

/-- The function `queue_enqueue`: returns the status and the queue afterwards. -/
def queue_enqueue (malloc_ok : Bool) (queue : Option queue_t) (data : Option Nat) :
    Option (status_t × Option queue_t) :=
  match queue with
  | none => some (status_t.NULL_POINTER, none)
  | some q =>
    if (queue_fullcheck (some q)).nonzero then some (status_t.OVERFLOW, some q)
    else
      match data with
      | none => some (status_t.NULL_DATA, some q)
      | some d =>
        match q.arr with
        | none => some (status_t.NULL_DATA, some q)
        | some arr =>
          if malloc_ok then
            if q.currentsz < arr.length then
              some (status_t.SUCCESS,
                some { q with arr := some (arr.set q.currentsz (some ⟨d⟩)),
                              currentsz := q.currentsz + 1 })
            else none
          else some (status_t.MEM_ALLOCATION_ERROR, some q)

/-- The `for` loop of `queue_dequeue` and `queue_p_dequeue`:
`arr[idx - 1] = arr[idx]` from `idx` on, `remaining` iterations to go. -/
def shift_left {α : Type} : Nat → Nat → List (Option α) → Option (List (Option α))
  | 0, _, arr => some arr
  | remaining + 1, idx, arr =>
    match arr[idx]? with
    | none => none
    | some moved => shift_left remaining (idx + 1) (arr.set (idx - 1) moved)

/-- The function `queue_dequeue`: returns the dequeued node pointer and the queue
afterwards. -/
def queue_dequeue (queue : Option queue_t) : Option (Option queue_node_t × Option queue_t) :=
  match queue with
  | none => some (none, none)
  | some q =>
    if (queue_emptycheck (some q)).nonzero then some (none, some q)
    else
      match q.arr with
      | none => none
      | some arr =>
        match arr[0]? with
        | none => none
        | some dequeued_node =>
          match shift_left (q.currentsz - 1) 1 arr with
          | none => none
          | some arr1 =>
            if q.currentsz - 1 < arr1.length then
              some (dequeued_node,
                some { q with arr := some (arr1.set (q.currentsz - 1) none),
                              currentsz := q.currentsz - 1 })
            else none

/-- The loop `while (!queue_emptycheck(q)) { node = queue_dequeue(q); if (NULL
!= node) free(node); }` of `queue_clear` and `queue_destroy`.  The first
argument bounds the number of iterations. -/
def queue_drain : Nat → queue_t → Option (queue_t × List dealloc_t)
  | fuel, q =>
    if (queue_emptycheck (some q)).nonzero then some (q, [])
    else
      match fuel with
      | 0 => none
      | fuel' + 1 =>
        match queue_dequeue (some q) with
        | some (node, some q1) =>
          match queue_drain fuel' q1 with
          | none => none
          | some (q2, calls) =>
            match node with
            | none => some (q2, calls)
            | some n => some (q2, dealloc_t.free_node n.data :: calls)
        | _ => none

/-- The function `queue_peek`: the returned node pointer.  The source tests only
`!queue_emptycheck(queue)`, which is false for a `NULL` queue. -/
def queue_peek (queue : Option queue_t) : Option (Option queue_node_t) :=
  if (queue_emptycheck queue).nonzero then some none
  else
    match queue with
    | none => none
    | some q =>
      match q.arr with
      | none => none
      | some arr =>
        match arr[0]? with
        | none => none
        | some peeked_node => some peeked_node

/-- The function `queue_clear`: returns the status, the queue afterwards and the
deallocation calls made. -/
def queue_clear (queue : Option queue_t) :
    Option (status_t × Option queue_t × List dealloc_t) :=
  match queue with
  | none => some (status_t.NULL_POINTER, none, [])
  | some q =>
    if (queue_emptycheck (some q)).nonzero then some (status_t.UNDERFLOW, some q, [])
    else
      match queue_drain q.currentsz q with
      | none => none
      | some (q', calls) => some (status_t.SUCCESS, some q', calls)

/-- The function `queue_destroy`: returns the status, the caller's handle afterwards and
the deallocation calls made.  The drain loop is guarded by
`if (queue_emptycheck(*queue_addr))`. -/
def queue_destroy (queue_addr : Option (Option queue_t)) :
    Option (status_t × Option (Option queue_t) × List dealloc_t) :=
  match queue_addr with
  | some (some q) =>
    let drained :=
      if (queue_emptycheck (some q)).nonzero then queue_drain q.currentsz q
      else some (q, [])
    match drained with
    | none => none
    | some (_, calls) =>
      some (status_t.SUCCESS, some none,
        calls ++ [dealloc_t.free_array, dealloc_t.free_container])
  | other => some (status_t.NULL_POINTER, other, [])

/-! ## queue_p.c -/

/-- The record `queue_p_node_t`. -/
structure queue_p_node_t where
  data : Nat
  priority : Int
deriving DecidableEq, Repr

/-- The record `queue_p_t`. -/
structure queue_p_t where
  capacity : Nat
  currentsz : Nat
  arr : Option (List (Option queue_p_node_t))
  customfree : fn_ptr
deriving DecidableEq, Repr

/-- The function `queue_p_init`.  The slot array comes from `malloc`: `uninit i` is the
indeterminate content of slot `i`. -/
def queue_p_init (calloc_ok malloc_ok : Bool) (uninit : Nat → Option queue_p_node_t)
    (capacity : Nat) (customfree : Option fn_ptr) : Option queue_p_t :=
  if capacity = 0 then none
  else if calloc_ok then
    if malloc_ok then
      some { capacity := capacity, currentsz := 0,
             arr := some ((List.range capacity).map uninit),
             customfree := customfree.getD fn_ptr.libc_free }
    else none
  else none

/-- The function `queue_p_emptycheck`. -/
def queue_p_emptycheck (queue : Option queue_p_t) : check_t :=
  match queue with
  | none => check_t.error status_t.NULL_POINTER
  | some q => check_t.truth (decide (0 = q.currentsz))

/-- The function `queue_p_dequeue`: returns the dequeued node pointer and the queue
afterwards. -/
def queue_p_dequeue (queue : Option queue_p_t) :
    Option (Option queue_p_node_t × Option queue_p_t) :=
  match queue with
  | none => some (none, none)
  | some q =>
    if (queue_p_emptycheck (some q)).nonzero then some (none, some q)
    else
      match q.arr with
      | none => none
      | some arr =>
        match arr[0]? with
        | none => none
        | some dequeued_node =>
          match shift_left (q.currentsz - 1) 1 arr with
          | none => none
          | some arr1 =>
            if q.currentsz - 1 < arr1.length then
              some (dequeued_node,
                some { q with arr := some (arr1.set (q.currentsz - 1) none),
                              currentsz := q.currentsz - 1 })
            else none

/-- The drain loop of `queue_p_clear` and `queue_p_destroy`.  The first
argument bounds the number of iterations. -/
def queue_p_drain : Nat → queue_p_t → Option (queue_p_t × List dealloc_t)
  | fuel, q =>
    if (queue_p_emptycheck (some q)).nonzero then some (q, [])
    else
      match fuel with
      | 0 => none
      | fuel' + 1 =>
        match queue_p_dequeue (some q) with
        | some (node, some q1) =>
          match queue_p_drain fuel' q1 with
          | none => none
          | some (q2, calls) =>
            match node with
            | none => some (q2, calls)
            | some n => some (q2, dealloc_t.free_node n.data :: calls)
        | _ => none

/-- The function `queue_p_destroy`: returns the status, the caller's handle afterwards and
the deallocation calls made.  The drain loop is guarded by
`if (queue_p_emptycheck(*queue))`. -/
def queue_p_destroy (queue : Option (Option queue_p_t)) :
    Option (status_t × Option (Option queue_p_t) × List dealloc_t) :=
  match queue with
  | some (some q) =>
    let drained :=
      if (queue_p_emptycheck (some q)).nonzero then queue_p_drain q.currentsz q
      else some (q, [])
    match drained with
    | none => none
    | some (_, calls) =>
      some (status_t.SUCCESS, some none,
        calls ++ [dealloc_t.free_array, dealloc_t.free_container])
  | other => some (status_t.NULL_POINTER, other, [])

/-- The function `queue_p_fullcheck`. -/
def queue_p_fullcheck (queue : Option queue_p_t) : check_t :=
  match queue with
  | none => check_t.error status_t.NULL_POINTER
  | some q => check_t.truth (decide (q.currentsz ≥ q.capacity))

/-- The `for` loop of `queue_p_enqueue`, `idx` running down to 1: the nodes of
the slots `idx` and `idx - 1` are exchanged when the first has the strictly
greater priority. -/
def sort_pass : Nat → List (Option queue_p_node_t) → Option (List (Option queue_p_node_t))
  | 0, arr => some arr
  | idx + 1, arr =>
    match arr[idx + 1]?, arr[idx]? with
    | some (some upper), some (some lower) =>
      if upper.priority > lower.priority then
        sort_pass idx ((arr.set (idx + 1) (some lower)).set idx (some upper))
      else
        sort_pass idx arr
    | _, _ => none

/-- The function `queue_p_enqueue`: returns the status and the queue
afterwards. -/
def queue_p_enqueue (malloc_ok : Bool) (queue : Option queue_p_t) (data : Option Nat)
    (priority : Int) : Option (status_t × Option queue_p_t) :=
  match queue with
  | none => some (status_t.NULL_POINTER, none)
  | some q =>
    if (queue_p_fullcheck (some q)).nonzero then some (status_t.OVERFLOW, some q)
    else
      match data with
      | none => some (status_t.NULL_DATA, some q)
      | some d =>
        match q.arr with
        | none => some (status_t.NULL_DATA, some q)
        | some arr =>
          if malloc_ok then
            if q.currentsz < arr.length then
              match sort_pass q.currentsz (arr.set q.currentsz (some ⟨d, priority⟩)) with
              | none => none
              | some arr1 =>
                some (status_t.SUCCESS,
                  some { q with arr := some arr1, currentsz := q.currentsz + 1 })
            else none
          else some (status_t.MEM_ALLOCATION_ERROR, some q)

/-- The function `queue_p_clear`: returns the status, the queue afterwards and
the deallocation calls made. -/
def queue_p_clear (queue : Option queue_p_t) :
    Option (status_t × Option queue_p_t × List dealloc_t) :=
  match queue with
  | none => some (status_t.NULL_POINTER, none, [])
  | some q =>
    if (queue_p_emptycheck (some q)).nonzero then some (status_t.UNDERFLOW, some q, [])
    else
      match queue_p_drain q.currentsz q with
      | none => none
      | some (q', calls) => some (status_t.SUCCESS, some q', calls)

/-- The function `queue_p_peek`: the returned node pointer. -/
def queue_p_peek (queue : Option queue_p_t) : Option (Option queue_p_node_t) :=
  match queue with
  | none => some none
  | some q =>
    if (queue_p_emptycheck (some q)).nonzero then some none
    else
      match q.arr with
      | none => none
      | some arr =>
        match arr[0]? with
        | none => none
        | some node => some node

/-! ## stack.c -/

/-- The record `stack_node_t`. -/
structure stack_node_t where
  data : Nat
deriving DecidableEq, Repr

/-- The record `stack_t`: `arr` is the slot array, each slot a node pointer. -/
structure stack_t where
  capacity : Nat
  currentsz : Nat
  arr : List (Option stack_node_t)
  customfree : fn_ptr
deriving DecidableEq, Repr

/-- The function `stack_init`; the Booleans are the outcomes of the two `calloc` calls. -/
def stack_init (calloc_stack_ok calloc_arr_ok : Bool) (capacity : Nat)
    (customfree : Option fn_ptr) : Option stack_t :=
  match customfree with
  | none => none
  | some f =>
    if capacity = 0 then none
    else if calloc_stack_ok then
      if calloc_arr_ok then
        some { capacity := capacity, currentsz := 0,
               arr := List.replicate capacity none, customfree := f }
      else none
    else none

/-- The function `stack_fullcheck`. -/
def stack_fullcheck (stack : Option stack_t) : check_t :=
  match stack with
  | none => check_t.error status_t.NULL_POINTER
  | some s => check_t.truth (decide (s.currentsz ≥ s.capacity))

/-- The function `stack_emptycheck`. -/
def stack_emptycheck (stack : Option stack_t) : check_t :=
  match stack with
  | none => check_t.error status_t.NULL_POINTER
  | some s => check_t.truth (decide (0 = s.currentsz))

/-- The function `stack_push`: returns the status and the stack afterwards. -/
def stack_push (malloc_ok : Bool) (stack : Option stack_t) (data : Option Nat) :
    Option (status_t × Option stack_t) :=
  match stack with
  | none => some (status_t.NULL_POINTER, none)
  | some s =>
    match data with
    | none => some (status_t.NULL_DATA, some s)
    | some d =>
      if (stack_fullcheck (some s)).nonzero then some (status_t.OVERFLOW, some s)
      else if malloc_ok then
        if s.currentsz < s.arr.length then
          some (status_t.SUCCESS,
            some { s with arr := s.arr.set s.currentsz (some ⟨d⟩),
                          currentsz := s.currentsz + 1 })
        else none
      else some (status_t.MEM_ALLOCATION_ERROR, some s)

/-- The function `stack_pop`: returns the popped node pointer and the stack afterwards. -/
def stack_pop (stack : Option stack_t) : Option (Option stack_node_t × Option stack_t) :=
  match stack with
  | none => some (none, none)
  | some s =>
    if (stack_emptycheck (some s)).nonzero then some (none, some s)
    else
      match s.arr[s.currentsz - 1]? with
      | none => none
      | some popped_node => some (popped_node, some { s with currentsz := s.currentsz - 1 })

/-- The loop `while (!stack_emptycheck(s)) { node = stack_pop(s); if (NULL !=
node) free(node); }` of `stack_clear` and `stack_destroy`.  The first argument
bounds the number of iterations. -/
def stack_drain : Nat → stack_t → Option (stack_t × List dealloc_t)
  | fuel, s =>
    if (stack_emptycheck (some s)).nonzero then some (s, [])
    else
      match fuel with
      | 0 => none
      | fuel' + 1 =>
        match stack_pop (some s) with
        | some (node, some s1) =>
          match stack_drain fuel' s1 with
          | none => none
          | some (s2, calls) =>
            match node with
            | none => some (s2, calls)
            | some n => some (s2, dealloc_t.free_node n.data :: calls)
        | _ => none

/-- The function `stack_peek`: the returned node pointer. -/
def stack_peek (stack : Option stack_t) : Option (Option stack_node_t) :=
  match stack with
  | none => some none
  | some s =>
    if (stack_emptycheck (some s)).nonzero then some none
    else
      match s.arr[s.currentsz - 1]? with
      | none => none
      | some peeked_node => some peeked_node

/-- The function `stack_clear`: returns the status, the stack afterwards and the
deallocation calls made. -/
def stack_clear (stack : Option stack_t) :
    Option (status_t × Option stack_t × List dealloc_t) :=
  match stack with
  | none => some (status_t.NULL_POINTER, none, [])
  | some s =>
    if (stack_emptycheck (some s)).nonzero then some (status_t.UNDERFLOW, some s, [])
    else
      match stack_drain s.currentsz s with
      | none => none
      | some (s', calls) => some (status_t.SUCCESS, some s', calls)

/-- The function `stack_destroy`: returns the status, the caller's handle afterwards and
the deallocation calls made. -/
def stack_destroy (stack : Option (Option stack_t)) :
    Option (status_t × Option (Option stack_t) × List dealloc_t) :=
  match stack with
  | some (some s) =>
    match stack_drain s.currentsz s with
    | none => none
    | some (_, calls) =>
      some (status_t.SUCCESS, some none,
        calls ++ [dealloc_t.free_array, dealloc_t.free_container])
  | other => some (status_t.NULL_POINTER, other, [])

/-! ## Runs of calls -/

/-- A run of `queue_enqueue` calls, all allocations succeeding, that stops at
the first call that does not return `SUCCESS`. -/
def queue_enqueue_all : queue_t → List Nat → Option queue_t
  | q, [] => some q
  | q, d :: rest =>
    match queue_enqueue true (some q) (some d) with
    | some (status_t.SUCCESS, some q') => queue_enqueue_all q' rest
    | _ => none

/-- A run of `n` calls of `queue_dequeue`: the nodes returned, in order, and
the queue afterwards. -/
def queue_dequeue_n : Nat → queue_t → Option (List (Option queue_node_t) × queue_t)
  | 0, q => some ([], q)
  | n + 1, q =>
    match queue_dequeue (some q) with
    | some (node, some q') =>
      match queue_dequeue_n n q' with
      | none => none
      | some (nodes, q'') => some (node :: nodes, q'')
    | _ => none

/-- A run of `queue_p_enqueue` calls with the given payloads and priorities,
all allocations succeeding, that stops at the first call that does not return
`SUCCESS`. -/
def queue_p_enqueue_all : queue_p_t → List (Nat × Int) → Option queue_p_t
  | q, [] => some q
  | q, (d, priority) :: rest =>
    match queue_p_enqueue true (some q) (some d) priority with
    | some (status_t.SUCCESS, some q') => queue_p_enqueue_all q' rest
    | _ => none

/-- A run of `n` calls of `queue_p_dequeue`: the nodes returned, in order, and
the queue afterwards. -/
def queue_p_dequeue_n : Nat → queue_p_t → Option (List (Option queue_p_node_t) × queue_p_t)
  | 0, q => some ([], q)
  | n + 1, q =>
    match queue_p_dequeue (some q) with
    | some (node, some q') =>
      match queue_p_dequeue_n n q' with
      | none => none
      | some (nodes, q'') => some (node :: nodes, q'')
    | _ => none

/-- One call on a priority queue: `queue_p_enqueue` with the outcome of its
`malloc`, its payload and its priority, `queue_p_dequeue`, or `queue_p_clear`. -/
inductive pq_call where
  | enqueue (malloc_ok : Bool) (data : Option Nat) (priority : Int)
  | dequeue
  | clear
deriving DecidableEq, Repr

/-- The priority queue after one call, whatever the call returns; `none` when
the call does not return. -/
def pq_step (q : queue_p_t) : pq_call → Option queue_p_t
  | pq_call.enqueue malloc_ok data priority =>
    match queue_p_enqueue malloc_ok (some q) data priority with
    | some (_, some q') => some q'
    | _ => none
  | pq_call.dequeue =>
    match queue_p_dequeue (some q) with
    | some (_, some q') => some q'
    | _ => none
  | pq_call.clear =>
    match queue_p_clear (some q) with
    | some (_, some q', _) => some q'
    | _ => none

/-- The priority queue after a run of calls. -/
def pq_run : queue_p_t → List pq_call → Option queue_p_t
  | q, [] => some q
  | q, call :: rest =>
    match pq_step q call with
    | none => none
    | some q' => pq_run q' rest

/-- One call on a bounded container (queue, priority queue or stack): an insert
(`enqueue` or `push`) with the outcome of its `malloc`, its payload and, for
the priority queue, its priority; a removal (`dequeue` or `pop`); a `peek`; a
`clear`. -/
inductive bounded_call where
  | insert (malloc_ok : Bool) (data : Option Nat) (priority : Int)
  | remove
  | peek
  | clear
deriving DecidableEq, Repr

/-- The queue after one call, the number of nodes the call stored (1 when
`queue_enqueue` returns `SUCCESS`) and the number of nodes it took out (1 when
`queue_dequeue` returns a node; for `queue_clear` the number of nodes it
freed); `none` when the call does not return. -/
def queue_step (q : queue_t) : bounded_call → Option (queue_t × Nat × Nat)
  | bounded_call.insert malloc_ok data _ =>
    match queue_enqueue malloc_ok (some q) data with
    | some (status, some q') => some (q', if status = status_t.SUCCESS then 1 else 0, 0)
    | _ => none
  | bounded_call.remove =>
    match queue_dequeue (some q) with
    | some (node, some q') => some (q', 0, if node.isSome then 1 else 0)
    | _ => none
  | bounded_call.peek =>
    match queue_peek (some q) with
    | some _ => some (q, 0, 0)
    | none => none
  | bounded_call.clear =>
    match queue_clear (some q) with
    | some (_, some q', calls) => some (q', 0, calls.length)
    | _ => none

/-- The queue after a run of calls, with the numbers of nodes stored and taken
out over the run. -/
def queue_run : queue_t → List bounded_call → Option (queue_t × Nat × Nat)
  | q, [] => some (q, 0, 0)
  | q, call :: rest =>
    match queue_step q call with
    | none => none
    | some (q1, stored1, removed1) =>
      match queue_run q1 rest with
      | none => none
      | some (q2, stored2, removed2) => some (q2, stored1 + stored2, removed1 + removed2)

/-- The priority queue after one call, the number of nodes the call stored and
the number it took out; `none` when the call does not return. -/
def queue_p_step (q : queue_p_t) : bounded_call → Option (queue_p_t × Nat × Nat)
  | bounded_call.insert malloc_ok data priority =>
    match queue_p_enqueue malloc_ok (some q) data priority with
    | some (status, some q') => some (q', if status = status_t.SUCCESS then 1 else 0, 0)
    | _ => none
  | bounded_call.remove =>
    match queue_p_dequeue (some q) with
    | some (node, some q') => some (q', 0, if node.isSome then 1 else 0)
    | _ => none
  | bounded_call.peek =>
    match queue_p_peek (some q) with
    | some _ => some (q, 0, 0)
    | none => none
  | bounded_call.clear =>
    match queue_p_clear (some q) with
    | some (_, some q', calls) => some (q', 0, calls.length)
    | _ => none

/-- The priority queue after a run of calls, with the numbers of nodes stored
and taken out over the run. -/
def queue_p_run : queue_p_t → List bounded_call → Option (queue_p_t × Nat × Nat)
  | q, [] => some (q, 0, 0)
  | q, call :: rest =>
    match queue_p_step q call with
    | none => none
    | some (q1, stored1, removed1) =>
      match queue_p_run q1 rest with
      | none => none
      | some (q2, stored2, removed2) => some (q2, stored1 + stored2, removed1 + removed2)

/-- The stack after one call, the number of nodes the call stored and the
number it took out; `none` when the call does not return. -/
def stack_step (s : stack_t) : bounded_call → Option (stack_t × Nat × Nat)
  | bounded_call.insert malloc_ok data _ =>
    match stack_push malloc_ok (some s) data with
    | some (status, some s') => some (s', if status = status_t.SUCCESS then 1 else 0, 0)
    | _ => none
  | bounded_call.remove =>
    match stack_pop (some s) with
    | some (node, some s') => some (s', 0, if node.isSome then 1 else 0)
    | _ => none
  | bounded_call.peek =>
    match stack_peek (some s) with
    | some _ => some (s, 0, 0)
    | none => none
  | bounded_call.clear =>
    match stack_clear (some s) with
    | some (_, some s', calls) => some (s', 0, calls.length)
    | _ => none

/-- The stack after a run of calls, with the numbers of nodes stored and taken
out over the run. -/
def stack_run : stack_t → List bounded_call → Option (stack_t × Nat × Nat)
  | s, [] => some (s, 0, 0)
  | s, call :: rest =>
    match stack_step s call with
    | none => none
    | some (s1, stored1, removed1) =>
      match stack_run s1 rest with
      | none => none
      | some (s2, stored2, removed2) => some (s2, stored1 + stored2, removed1 + removed2)

/-- One call on a hash table: `hash_table_add` with the outcomes of its `malloc`
and `strdup`, its payload and its key; `hash_table_remove` with its key;
`hash_table_clear`. -/
inductive ht_call where
  | add (malloc_ok strdup_ok : Bool) (data : Option Nat) (key : Option Key)
  | remove (key : Option Key)
  | clear
deriving DecidableEq, Repr

/-- The hash table after one call, whatever status the call returns; `none`
when the call does not return. -/
def ht_step (t : hash_table_t) : ht_call → Option hash_table_t
  | ht_call.add malloc_ok strdup_ok data key =>
    match hash_table_add malloc_ok strdup_ok (some t) data key with
    | some (_, some t') => some t'
    | _ => none
  | ht_call.remove key =>
    match hash_table_remove (some t) key with
    | some (_, some t') => some t'
    | _ => none
  | ht_call.clear =>
    match hash_table_clear (some t) with
    | some (_, some t', _) => some t'
    | _ => none

/-- The hash table after a run of calls. -/
def ht_run : hash_table_t → List ht_call → Option hash_table_t
  | t, [] => some t
  | t, call :: rest =>
    match ht_step t call with
    | none => none
    | some t' => ht_run t' rest

/-! ## The hash value in the words of the spec -/

/-- The spec's hash value before the final remainder: from `h`, the step
`h := (h * 31 + byte) mod 2^32` applied to each key byte in order. -/
def spec_hash (key : Key) (h : Nat) : Nat :=
  key.foldl (fun h byte => (h * 31 + byte) % 2 ^ 32) h

/-- The spec's exact polynomial sum over the key bytes: from `h`, the step
`h := h * 31 + byte` applied to each key byte in order, with no reduction. -/
def spec_poly (key : Key) (h : Nat) : Nat :=
  key.foldl (fun h byte => h * 31 + byte) h

/-! ## Sequences of payloads -/

/-- What one sweep of `list_sort` with `m` comparisons computes on the payload
sequence: the sequence afterwards and whether a swap was made. -/
def bubble : Nat → List Nat → List Nat × Bool
  | m + 1, x :: y :: rest =>
    if x > y then (y :: (bubble m (x :: rest)).1, true)
    else (x :: (bubble m (y :: rest)).1, (bubble m (y :: rest)).2)
  | _, ds => (ds, false)

/-- The place a node takes in a priority queue whose resident nodes are
`resident`: behind every node of greater or equal priority at the front. -/
def pq_insert (x : queue_p_node_t) (resident : List queue_p_node_t) : List queue_p_node_t :=
  resident.takeWhile (fun y => decide (y.priority ≥ x.priority)) ++
    x :: resident.dropWhile (fun y => decide (y.priority ≥ x.priority))

/-- The ordering invariant of a priority queue with slot array `slots` and
resident nodes `res` front to back: the array has `capacity` slots, the first
`currentsz` of them hold the nodes `res`, and the priorities of `res` are
non-increasing. -/
def pq_ordered (q : queue_p_t) (slots : List (Option queue_p_node_t))
    (res : List queue_p_node_t) : Prop :=
  q.arr = some slots ∧ slots.length = q.capacity ∧ q.currentsz ≤ q.capacity ∧
  slots.take q.currentsz = res.map some ∧
  res.Pairwise (fun a b => a.priority ≥ b.priority)

/-- The bound invariant of a queue with slot array `slots` and resident nodes
`res` front to back: the array has `capacity` slots, `currentsz` is at most
`capacity`, and the first `currentsz` slots hold the nodes `res`. -/
def queue_bounded (q : queue_t) (slots : List (Option queue_node_t))
    (res : List queue_node_t) : Prop :=
  q.arr = some slots ∧ slots.length = q.capacity ∧ q.currentsz ≤ q.capacity ∧
  slots.take q.currentsz = res.map some

/-- The bound invariant of a stack with resident nodes `res` bottom to top:
the array has `capacity` slots, `currentsz` is at most `capacity`, and the
first `currentsz` slots hold the nodes `res`. -/
def stack_bounded (s : stack_t) (res : List stack_node_t) : Prop :=
  s.arr.length = s.capacity ∧ s.currentsz ≤ s.capacity ∧
  s.arr.take s.currentsz = res.map some

/-- The bucket invariant of a hash table: the bucket array has `size` entries
and every entry in the chain of bucket `i` has a key that `hash_function`
maps to `i`. -/
def bucket_inv (t : hash_table_t) : Prop :=
  t.table.length = t.size ∧
  ∀ (i : Nat) (chain : List node_t), t.table[i]? = some chain →
    ∀ e ∈ chain, hash_function e.key t.size = some i

/-! ## Lemmas: hash table -/

theorem link_at_end_eq (n : node_t) (c : List node_t) : link_at_end n c = c ++ [n] := by
  induction c with
  | nil => rfl
  | cons x xs ih => simp [link_at_end, ih]

theorem lookup_scan_append (k : Key) (a b : List node_t) :
    lookup_scan k (a ++ b) =
      match lookup_scan k a with
      | some v => some v
      | none => lookup_scan k b := by
  induction a with
  | nil => simp [lookup_scan]
  | cons y ys ih =>
    by_cases h : k = y.key
    · simp [lookup_scan, h]
    · simp [lookup_scan, h, ih]

theorem lookup_scan_eq_none (k : Key) (c : List node_t) :
    lookup_scan k c = none ↔ ∀ e ∈ c, e.key ≠ k := by
  induction c with
  | nil => simp [lookup_scan]
  | cons y ys ih =>
    by_cases h : k = y.key
    · simp [lookup_scan, h]
    · simp [lookup_scan, h, ih]
      exact fun _ => fun hh => h hh.symm

theorem hash_function_lt (k : Key) (n i : Nat) (h : hash_function k n = some i) : i < n := by
  unfold hash_function at h
  split at h
  · simp at h
  · simp at h
    subst h
    exact Nat.mod_lt _ (by omega)

theorem hash_table_add_success (mo so : Bool) (t t' : hash_table_t) (d : Nat) (k : Key)
    (h : hash_table_add mo so (some t) (some d) (some k) = some (SUCCESS, some t')) :
    ∃ i chain, hash_function k t.size = some i ∧ t.table[i]? = some chain ∧
      t' = { t with table := t.table.set i (chain ++ [⟨k, d⟩]) } := by
  unfold hash_table_add at h
  simp only at h
  split at h
  · split at h
    · simp at h
    · rename_i i hi
      split at h
      · split at h
        · simp at h
        · rename_i chain hc
          simp only [Option.some.injEq, Prod.mk.injEq, true_and] at h
          exact ⟨i, chain, hi, hc, by rw [← h, link_at_end_eq]⟩
      · simp [SUCCESS, FAILURE] at h
  · simp [SUCCESS, FAILURE] at h

theorem hash_table_lookup_eq (t : hash_table_t) (k : Key) (i : Nat) (chain : List node_t)
    (hi : hash_function k t.size = some i) (hc : t.table[i]? = some chain) :
    hash_table_lookup (some t) (some k) = some (lookup_scan k chain) := by
  simp [hash_table_lookup, hi, hc]

theorem lookup_scan_stable (k : Key) (a b : List node_t) (e : Nat)
    (h : lookup_scan k a = some e) : lookup_scan k (a ++ b) = some e := by
  rw [lookup_scan_append, h]

theorem hash_table_add_all_frame (ops : List (Nat × Key)) :
    ∀ (t t' : hash_table_t), hash_table_add_all t ops = some t' →
      t'.size = t.size ∧
      ∀ (i : Nat) (c : List node_t), t.table[i]? = some c →
        ∃ ext : List node_t, t'.table[i]? = some (c ++ ext) := by
  induction ops with
  | nil =>
    intro t t' h
    simp [hash_table_add_all] at h
    subst h
    exact ⟨rfl, fun i c hc => ⟨[], by simpa using hc⟩⟩
  | cons op rest ih =>
    intro t t' h
    obtain ⟨d, k⟩ := op
    simp only [hash_table_add_all] at h
    split at h
    · rename_i t1 hadd
      obtain ⟨j, chain, _, hc, ht1⟩ := hash_table_add_success true true t t1 d k hadd
      obtain ⟨hsz, hfr⟩ := ih t1 t' h
      refine ⟨by rw [hsz, ht1], ?_⟩
      intro i c hic
      by_cases hij : j = i
      · subst hij
        rw [hc] at hic
        simp only [Option.some.injEq] at hic
        subst hic
        have hlt : j < t.table.length := by
          rcases Nat.lt_or_ge j t.table.length with hl | hl
          · exact hl
          · rw [List.getElem?_eq_none hl] at hc
            simp at hc
        have h1 : t1.table[j]? = some (chain ++ [⟨k, d⟩]) := by
          rw [ht1]
          simp [List.getElem?_set, hlt]
        obtain ⟨ext, hext⟩ := hfr j _ h1
        exact ⟨[⟨k, d⟩] ++ ext, by rw [hext]; simp⟩
      · have h1 : t1.table[i]? = some c := by
          rw [ht1]
          simp [List.getElem?_set, hij, hic]
        exact hfr i c h1
    · simp at h

theorem remove_scan_first (k : Key) (c : List node_t) (h : ∃ e ∈ c, e.key = k) :
    ∃ pre e post, c = pre ++ e :: post ∧ e.key = k ∧ (∀ x ∈ pre, x.key ≠ k) ∧
      remove_scan k c = some (pre ++ post) := by
  induction c with
  | nil => simp at h
  | cons y ys ih =>
    by_cases hk : k = y.key
    · exact ⟨[], y, ys, rfl, hk.symm, by simp, by simp [remove_scan, hk]⟩
    · have h' : ∃ e ∈ ys, e.key = k := by
        obtain ⟨e, he, hek⟩ := h
        rcases List.mem_cons.mp he with rfl | hmem
        · exact absurd hek.symm hk
        · exact ⟨e, hmem, hek⟩
      obtain ⟨pre, e, post, hc, hek, hpre, hrs⟩ := ih h'
      refine ⟨y :: pre, e, post, by simp [hc], hek, ?_, by simp [remove_scan, hk, hrs]⟩
      intro x hx
      rcases List.mem_cons.mp hx with rfl | hmem
      · exact fun hh => hk hh.symm
      · exact hpre x hmem

theorem lookup_scan_unlink (k' : Key) (pre post : List node_t) (e : node_t)
    (h : k' ≠ e.key) : lookup_scan k' (pre ++ post) = lookup_scan k' (pre ++ e :: post) := by
  rw [lookup_scan_append, lookup_scan_append]
  simp [lookup_scan, h]

/-! ## Theorems: hash table -/

/-- C1, as stated, is false: on a table that already holds the key, lookup
after a successful add returns the older payload. -/
theorem hash_table_add_lookup_refuted :
    ¬ ∀ (t t' : hash_table_t) (d : Nat) (k : Key), 0 < t.size →
        hash_table_add true true (some t) (some d) (some k) = some (SUCCESS, some t') →
        hash_table_lookup (some t') (some k) = some (some d) := by
  intro h
  have h' := h ⟨1, [[⟨[97], 1⟩]]⟩ ⟨1, [[⟨[97], 1⟩, ⟨[97], 2⟩]]⟩ 2 [97] (by decide) (by decide)
  revert h'
  decide

/-- C1 (amended): after a successful `hash_table_add(t, d, k)` the lookup of
`k` returns `d` when the lookup of `k` found nothing before the call, and
otherwise returns the payload it returned before the call. -/
theorem hash_table_add_lookup (mo so : Bool) (t t' : hash_table_t) (d : Nat) (k : Key)
    (h : hash_table_add mo so (some t) (some d) (some k) = some (SUCCESS, some t')) :
    0 < t.size ∧
    ∃ before, hash_table_lookup (some t) (some k) = some before ∧
      hash_table_lookup (some t') (some k) = some (some (before.getD d)) := by
  obtain ⟨i, chain, hi, hc, ht'⟩ := hash_table_add_success mo so t t' d k h
  have hlt : i < t.table.length := by
    rcases Nat.lt_or_ge i t.table.length with hl | hl
    · exact hl
    · rw [List.getElem?_eq_none hl] at hc
      simp at hc
  have hpos : 0 < t.size := by
    have := hash_function_lt k t.size i hi
    omega
  refine ⟨hpos, lookup_scan k chain, hash_table_lookup_eq t k i chain hi hc, ?_⟩
  have hc' : t'.table[i]? = some (chain ++ [⟨k, d⟩]) := by
    rw [ht']
    simp [List.getElem?_set, hlt]
  have hi' : hash_function k t'.size = some i := by rw [ht']; exact hi
  rw [hash_table_lookup_eq t' k i _ hi' hc', lookup_scan_append]
  cases hls : lookup_scan k chain <;> simp [lookup_scan]

theorem hash_table_add_lookup_witness :
    0 < (hash_table_t.mk 2 [[], []]).size ∧
    ∃ before, hash_table_lookup (some ⟨2, [[], []]⟩) (some [97]) = some before ∧
      hash_table_lookup (some ⟨2, [[], [⟨[97], 5⟩]]⟩) (some [97]) =
        some (some (before.getD 5)) :=
  hash_table_add_lookup true true ⟨2, [[], []]⟩ ⟨2, [[], [⟨[97], 5⟩]]⟩ 5 [97] (by decide)

/-- C2: when `hash_table_add(t, d1, k)` succeeds and, after any run of further
successful adds and no removal, `hash_table_add(t, d2, k)` succeeds, the chain
of the bucket of `k` is the chain before the second call with the entry
`(k, d2)` appended at its end, that older chain holds the entry `(k, d1)`, and
the lookup of `k` still returns the payload `e` of the first entry for `k`,
the one it returned after the first add (`d1` when `t` had no entry for `k`). -/
theorem hash_table_add_same_key_twice (mo1 so1 mo2 so2 : Bool)
    (t t1 t1' t2 : hash_table_t) (d1 d2 : Nat) (k : Key) (between : List (Nat × Key))
    (h1 : hash_table_add mo1 so1 (some t) (some d1) (some k) = some (SUCCESS, some t1))
    (hb : hash_table_add_all t1 between = some t1')
    (h2 : hash_table_add mo2 so2 (some t1') (some d2) (some k) = some (SUCCESS, some t2)) :
    ∃ (i : Nat) (chain : List node_t) (e : Nat),
      hash_function k t2.size = some i ∧
      t1'.table[i]? = some chain ∧
      t2.table[i]? = some (chain ++ [⟨k, d2⟩]) ∧
      ⟨k, d1⟩ ∈ chain ∧
      lookup_scan k chain = some e ∧
      hash_table_lookup (some t1) (some k) = some (some e) ∧
      hash_table_lookup (some t2) (some k) = some (some e) ∧
      (hash_table_lookup (some t) (some k) = some none → e = d1) := by
  obtain ⟨i, c0, hi, hc0, ht1⟩ := hash_table_add_success mo1 so1 t t1 d1 k h1
  obtain ⟨i', chain, hi', hchain, ht2⟩ := hash_table_add_success mo2 so2 t1' t2 d2 k h2
  obtain ⟨hsz, hfr⟩ := hash_table_add_all_frame between t1 t1' hb
  have hsz1 : t1.size = t.size := by rw [ht1]
  have hsz2 : t2.size = t1'.size := by rw [ht2]
  have hii : i' = i := by
    rw [hsz, hsz1, hi] at hi'
    simpa using hi'.symm
  subst hii
  have hlt0 : i' < t.table.length := by
    rcases Nat.lt_or_ge i' t.table.length with hl | hl
    · exact hl
    · rw [List.getElem?_eq_none hl] at hc0
      simp at hc0
  have hlt1 : i' < t1'.table.length := by
    rcases Nat.lt_or_ge i' t1'.table.length with hl | hl
    · exact hl
    · rw [List.getElem?_eq_none hl] at hchain
      simp at hchain
  have hc1 : t1.table[i']? = some (c0 ++ [⟨k, d1⟩]) := by
    rw [ht1]
    simp [List.getElem?_set, hlt0]
  obtain ⟨ext, hext⟩ := hfr i' _ hc1
  have hch : chain = c0 ++ [⟨k, d1⟩] ++ ext := by
    rw [hchain] at hext
    simpa using hext
  have hc2 : t2.table[i']? = some (chain ++ [⟨k, d2⟩]) := by
    rw [ht2]
    simp [List.getElem?_set, hlt1]
  have hl1 : lookup_scan k (c0 ++ [⟨k, d1⟩]) = some ((lookup_scan k c0).getD d1) := by
    rw [lookup_scan_append]
    cases lookup_scan k c0 <;> simp [lookup_scan]
  have hi1 : hash_function k t1.size = some i' := by rw [hsz1]; exact hi
  have hi2 : hash_function k t2.size = some i' := by rw [hsz2]; exact hi'
  refine ⟨i', chain, (lookup_scan k c0).getD d1, hi2, hchain, hc2, ?_, ?_, ?_, ?_, ?_⟩
  · rw [hch]
    simp
  · rw [hch]
    exact lookup_scan_stable k _ ext _ hl1
  · rw [hash_table_lookup_eq t1 k i' _ hi1 hc1, hl1]
  · rw [hash_table_lookup_eq t2 k i' _ hi2 hc2, hch]
    rw [List.append_assoc]
    exact congrArg some (lookup_scan_stable k _ _ _ hl1)
  · intro hnone
    rw [hash_table_lookup_eq t k i' c0 hi hc0] at hnone
    simp only [Option.some.injEq] at hnone
    rw [hnone]
    rfl

theorem hash_table_add_same_key_twice_witness :
    ∃ (i : Nat) (chain : List node_t) (e : Nat),
      hash_function [97] (hash_table_t.mk 1 [[⟨[97], 1⟩, ⟨[98], 2⟩, ⟨[97], 3⟩]]).size = some i ∧
      (hash_table_t.mk 1 [[⟨[97], 1⟩, ⟨[98], 2⟩]]).table[i]? = some chain ∧
      (hash_table_t.mk 1 [[⟨[97], 1⟩, ⟨[98], 2⟩, ⟨[97], 3⟩]]).table[i]? =
        some (chain ++ [⟨[97], 3⟩]) ∧
      ⟨[97], 1⟩ ∈ chain ∧
      lookup_scan [97] chain = some e ∧
      hash_table_lookup (some ⟨1, [[⟨[97], 1⟩]]⟩) (some [97]) = some (some e) ∧
      hash_table_lookup (some ⟨1, [[⟨[97], 1⟩, ⟨[98], 2⟩, ⟨[97], 3⟩]]⟩) (some [97]) =
        some (some e) ∧
      (hash_table_lookup (some ⟨1, [[]]⟩) (some [97]) = some none → e = 1) :=
  hash_table_add_same_key_twice true true true true ⟨1, [[]]⟩ ⟨1, [[⟨[97], 1⟩]]⟩
    ⟨1, [[⟨[97], 1⟩, ⟨[98], 2⟩]]⟩ ⟨1, [[⟨[97], 1⟩, ⟨[98], 2⟩, ⟨[97], 3⟩]]⟩ 1 3 [97] [(2, [98])]
    (by decide) (by decide) (by decide)

/-- C3: when the chain of the bucket of `k` holds an entry with key `k`,
`hash_table_remove(t, k)` returns `SUCCESS`; that chain splits as
`pre ++ e :: post` with `e` its first entry with key `k` and becomes
`pre ++ post`; the bucket count and every other bucket are unchanged; the
lookup of every other key is unchanged. -/
theorem hash_table_remove_present (t : hash_table_t) (k : Key) (i : Nat)
    (chain : List node_t)
    (hi : hash_function k t.size = some i) (hc : t.table[i]? = some chain)
    (hk : ∃ e ∈ chain, e.key = k) :
    ∃ (t' : hash_table_t) (pre post : List node_t) (e : node_t),
      hash_table_remove (some t) (some k) = some (SUCCESS, some t') ∧
      chain = pre ++ e :: post ∧ e.key = k ∧ (∀ x ∈ pre, x.key ≠ k) ∧
      t'.table[i]? = some (pre ++ post) ∧
      t'.size = t.size ∧ t'.table.length = t.table.length ∧
      (∀ j : Nat, j ≠ i → t'.table[j]? = t.table[j]?) ∧
      (∀ k' : Key, k' ≠ k →
        hash_table_lookup (some t') (some k') = hash_table_lookup (some t) (some k')) := by
  obtain ⟨pre, e, post, hsplit, hek, hpre, hrs⟩ := remove_scan_first k chain hk
  have hlt : i < t.table.length := by
    rcases Nat.lt_or_ge i t.table.length with hl | hl
    · exact hl
    · rw [List.getElem?_eq_none hl] at hc
      simp at hc
  have hne : chain ≠ [] := by
    rw [hsplit]
    simp
  obtain ⟨first, rest, hfr⟩ := List.exists_cons_of_ne_nil hne
  have hrem : hash_table_remove (some t) (some k) =
      some (SUCCESS, some { t with table := t.table.set i (pre ++ post) }) := by
    rw [hfr] at hc hrs
    simp only [hash_table_remove, hi, hc, hrs]
  refine ⟨{ t with table := t.table.set i (pre ++ post) }, pre, post, e, hrem, hsplit, hek,
    hpre, by simp [List.getElem?_set, hlt], rfl, by simp, ?_, ?_⟩
  · intro j hj
    simp [List.getElem?_set, Ne.symm hj]
  · intro k' hk'
    simp only [hash_table_lookup]
    cases hj : hash_function k' t.size with
    | none => rfl
    | some j =>
      simp only
      by_cases hji : i = j
      · subst hji
        simp only [List.getElem?_set, hlt, if_true, hc, hsplit]
        rw [lookup_scan_unlink k' pre post e (by rw [hek]; exact hk')]
      · simp [List.getElem?_set, hji]

theorem hash_table_remove_present_witness :
    ∃ (t' : hash_table_t) (pre post : List node_t) (e : node_t),
      hash_table_remove (some ⟨1, [[⟨[98], 2⟩, ⟨[97], 1⟩, ⟨[97], 3⟩]]⟩) (some [97]) =
        some (SUCCESS, some t') ∧
      [⟨[98], 2⟩, ⟨[97], 1⟩, ⟨[97], 3⟩] = pre ++ e :: post ∧ e.key = [97] ∧
      (∀ x ∈ pre, x.key ≠ [97]) ∧
      t'.table[0]? = some (pre ++ post) ∧
      t'.size = (hash_table_t.mk 1 [[⟨[98], 2⟩, ⟨[97], 1⟩, ⟨[97], 3⟩]]).size ∧
      t'.table.length = (hash_table_t.mk 1 [[⟨[98], 2⟩, ⟨[97], 1⟩, ⟨[97], 3⟩]]).table.length ∧
      (∀ j : Nat, j ≠ 0 →
        t'.table[j]? = (hash_table_t.mk 1 [[⟨[98], 2⟩, ⟨[97], 1⟩, ⟨[97], 3⟩]]).table[j]?) ∧
      (∀ k' : Key, k' ≠ [97] →
        hash_table_lookup (some t') (some k') =
          hash_table_lookup (some ⟨1, [[⟨[98], 2⟩, ⟨[97], 1⟩, ⟨[97], 3⟩]]⟩) (some k')) :=
  hash_table_remove_present ⟨1, [[⟨[98], 2⟩, ⟨[97], 1⟩, ⟨[97], 3⟩]]⟩ [97] 0
    [⟨[98], 2⟩, ⟨[97], 1⟩, ⟨[97], 3⟩] (by decide) (by decide) ⟨⟨[97], 1⟩, by decide, rfl⟩

/-- C4: on the table with the single bucket chain `[("a", 1)]`, built by
`hash_table_init(1, NULL)` and `hash_table_add(t, 1, "a")`, the call
`hash_table_remove(t, "b")` does not return: the scan ends with
`current == NULL` and the source reads `current->next`. -/
theorem hash_table_remove_absent_key_undefined :
    hash_table_init true true 1 none = some ⟨1, [[]]⟩ ∧
    hash_table_add true true (some ⟨1, [[]]⟩) (some 1) (some [97]) =
      some (SUCCESS, some ⟨1, [[⟨[97], 1⟩]]⟩) ∧
    hash_table_remove (some ⟨1, [[⟨[97], 1⟩]]⟩) (some [98]) = none := by
  decide

/-- C5: with both allocations returning storage, `hash_table_init(0, f)`
returns a table of size 0 with no bucket for every `f`, and
`hash_table_init(n + 1, f)` returns a table of size `n + 1` with `n + 1`
empty chains. -/
theorem hash_table_init_zero_buckets (f : Option Nat) (n : Nat) :
    hash_table_init true true 0 f = some ⟨0, []⟩ ∧
    hash_table_init true true (n + 1) f = some ⟨n + 1, List.replicate (n + 1) []⟩ := by
  simp [hash_table_init]

/-! ## Lemmas: node storage -/

theorem heap_read_eq_some (h : heap_t) (a : Nat) (n : list_node_t) :
    heap_read h a = some n ↔ h[a]? = some (some n) := by
  unfold heap_read
  split
  · rename_i m hm
    rw [hm]
    simp
  · rename_i hno
    constructor
    · intro hh
      simp at hh
    · intro hh
      exact absurd hh (hno n)

theorem heap_read_lt (h : heap_t) (a : Nat) (n : list_node_t)
    (hr : heap_read h a = some n) : a < h.length := by
  rw [heap_read_eq_some] at hr
  rcases Nat.lt_or_ge a h.length with hl | hl
  · exact hl
  · rw [List.getElem?_eq_none hl] at hr
    simp at hr

theorem heap_read_congr (h h' : heap_t) (a : Nat) (hc : h'[a]? = h[a]?) :
    heap_read h' a = heap_read h a := by
  unfold heap_read
  rw [hc]

theorem heap_read_append (h ext : heap_t) (a : Nat) (hl : a < h.length) :
    heap_read (h ++ ext) a = heap_read h a :=
  heap_read_congr _ _ _ (List.getElem?_append_left hl)

theorem heap_read_append_new (h : heap_t) (n : list_node_t) :
    heap_read (h ++ [some n]) h.length = some n := by
  rw [heap_read_eq_some]
  simp

theorem heap_read_write_same (h : heap_t) (a : Nat) (n : list_node_t) (hl : a < h.length) :
    heap_read (heap_write h a n) a = some n := by
  rw [heap_read_eq_some]
  simp [heap_write, List.getElem?_set, hl]

theorem heap_read_write_ne (h : heap_t) (a b : Nat) (n : list_node_t) (hne : a ≠ b) :
    heap_read (heap_write h a n) b = heap_read h b :=
  heap_read_congr _ _ _ (by simp [heap_write, List.getElem?_set, hne])

theorem heap_write_length (h : heap_t) (a : Nat) (n : list_node_t) :
    (heap_write h a n).length = h.length := by
  simp [heap_write]

theorem heap_write_read_self (h : heap_t) (a : Nat) (n : list_node_t)
    (hr : heap_read h a = some n) : heap_write h a n = h := by
  rw [heap_read_eq_some] at hr
  unfold heap_write
  apply List.ext_getElem?
  intro i
  by_cases hia : a = i
  · subst hia
    have hl : a < h.length := by
      rcases Nat.lt_or_ge a h.length with hl | hl
      · exact hl
      · rw [List.getElem?_eq_none hl] at hr
        simp at hr
    simp [List.getElem?_set, hl, hr]
  · simp [List.getElem?_set, hia]

theorem heap_write_write (h : heap_t) (a : Nat) (n m : list_node_t) :
    heap_write (heap_write h a n) a m = heap_write h a m := by
  simp [heap_write]

theorem heap_write_comm (h : heap_t) (a b : Nat) (n m : list_node_t) (hne : a ≠ b) :
    heap_write (heap_write h a n) b m = heap_write (heap_write h b m) a n := by
  unfold heap_write
  exact List.set_comm _ _ _ hne

/-! ## Lemmas: chains -/

theorem is_chain_cons (h : heap_t) (p : Option Nat) (a : Nat) (rest : List Nat) :
    is_chain h p (a :: rest) = true ↔
      p = some a ∧ ∃ n, heap_read h a = some n ∧ is_chain h n.next rest = true := by
  simp only [is_chain]
  cases hr : heap_read h a with
  | none => simp
  | some n => simp

theorem is_chain_nil (h : heap_t) (p : Option Nat) :
    is_chain h p [] = true ↔ p = none := by
  simp [is_chain]

theorem is_chain_det (h : heap_t) (xs : List Nat) :
    ∀ (p : Option Nat) (ys : List Nat), is_chain h p xs = true → is_chain h p ys = true →
      xs = ys := by
  induction xs with
  | nil =>
    intro p ys hx hy
    rw [is_chain_nil] at hx
    subst hx
    cases ys with
    | nil => rfl
    | cons b bs =>
      rw [is_chain_cons] at hy
      simp at hy
  | cons a as ih =>
    intro p ys hx hy
    rw [is_chain_cons] at hx
    obtain ⟨hp, n, hn, hrest⟩ := hx
    subst hp
    cases ys with
    | nil =>
      rw [is_chain_nil] at hy
      simp at hy
    | cons b bs =>
      rw [is_chain_cons] at hy
      obtain ⟨hb, m, hm, hrest'⟩ := hy
      simp only [Option.some.injEq] at hb
      subst hb
      rw [hn] at hm
      simp only [Option.some.injEq] at hm
      subst hm
      rw [ih _ _ hrest hrest']

theorem is_chain_suffix (h : heap_t) (pre : List Nat) :
    ∀ (p : Option Nat) (a : Nat) (suf : List Nat), is_chain h p (pre ++ a :: suf) = true →
      is_chain h (some a) (a :: suf) = true := by
  induction pre with
  | nil =>
    intro p a suf hc
    have hc' := hc
    simp only [List.nil_append] at hc'
    rw [is_chain_cons] at hc' ⊢
    exact ⟨rfl, hc'.2⟩
  | cons b bs ih =>
    intro p a suf hc
    simp only [List.cons_append] at hc
    rw [is_chain_cons] at hc
    obtain ⟨_, n, _, hrest⟩ := hc
    exact ih _ a suf hrest

theorem is_chain_nodup (h : heap_t) (xs : List Nat) :
    ∀ (p : Option Nat), is_chain h p xs = true → xs.Nodup := by
  induction xs with
  | nil => intro _ _; exact List.nodup_nil
  | cons a as ih =>
    intro p hc
    have hc' := hc
    rw [is_chain_cons] at hc'
    obtain ⟨hp, n, hn, hrest⟩ := hc'
    subst hp
    refine List.nodup_cons.mpr ⟨?_, ih _ hrest⟩
    intro hmem
    obtain ⟨pre, suf, hsplit⟩ := List.append_of_mem hmem
    rw [hsplit] at hrest
    have hsuf := is_chain_suffix h pre _ a suf hrest
    have heq := is_chain_det h _ _ _ hsuf hc
    have hlen := congrArg List.length heq
    rw [hsplit] at hlen
    simp at hlen
    omega

theorem is_chain_valid (h : heap_t) (xs : List Nat) :
    ∀ (p : Option Nat), is_chain h p xs = true →
      ∀ a ∈ xs, ∃ n, heap_read h a = some n := by
  induction xs with
  | nil => intro _ _ a ha; simp at ha
  | cons b bs ih =>
    intro p hc a ha
    rw [is_chain_cons] at hc
    obtain ⟨_, n, hn, hrest⟩ := hc
    rcases List.mem_cons.mp ha with rfl | hmem
    · exact ⟨n, hn⟩
    · exact ih _ hrest a hmem

theorem is_chain_lt (h : heap_t) (xs : List Nat) (p : Option Nat)
    (hc : is_chain h p xs = true) : ∀ a ∈ xs, a < h.length := by
  intro a ha
  obtain ⟨n, hn⟩ := is_chain_valid h xs p hc a ha
  exact heap_read_lt h a n hn

theorem is_chain_length_le (h : heap_t) (xs : List Nat) (p : Option Nat)
    (hc : is_chain h p xs = true) : xs.length ≤ h.length := by
  have hnd := is_chain_nodup h xs p hc
  have hlt := is_chain_lt h xs p hc
  have hsub : xs ⊆ List.range h.length := by
    intro a ha
    exact List.mem_range.mpr (hlt a ha)
  have := (List.subperm_of_subset hnd hsub).length_le
  simpa using this

/-- Two storages that agree on the `next` field of every record of `xs`
carry the same chain. -/
theorem is_chain_congr (h h' : heap_t) (xs : List Nat) :
    ∀ (p : Option Nat),
      (∀ a ∈ xs, ∀ n, heap_read h a = some n →
        ∃ n', heap_read h' a = some n' ∧ n'.next = n.next) →
      is_chain h p xs = true → is_chain h' p xs = true := by
  induction xs with
  | nil => intro p _ hc; simpa [is_chain] using hc
  | cons a as ih =>
    intro p hag hc
    rw [is_chain_cons] at hc ⊢
    obtain ⟨hp, n, hn, hrest⟩ := hc
    obtain ⟨n', hn', hnext⟩ := hag a (List.mem_cons_self a as) n hn
    refine ⟨hp, n', hn', ?_⟩
    rw [hnext]
    exact ih _ (fun b hb => hag b (List.mem_cons_of_mem a hb)) hrest

theorem has_positions_congr (h h' : heap_t) (xs : List Nat) :
    ∀ (pos : Nat),
      (∀ a ∈ xs, ∀ n, heap_read h a = some n →
        ∃ n', heap_read h' a = some n' ∧ n'.position = n.position) →
      has_positions h xs pos = true → has_positions h' xs pos = true := by
  induction xs with
  | nil => intro _ _ _; rfl
  | cons a as ih =>
    intro pos hag hp
    simp only [has_positions] at hp ⊢
    cases hr : heap_read h a with
    | none => simp [hr] at hp
    | some n =>
      simp only [hr, Bool.and_eq_true, decide_eq_true_eq] at hp
      obtain ⟨n', hn', hpos⟩ := hag a (List.mem_cons_self a as) n hr
      simp only [hn', Bool.and_eq_true, decide_eq_true_eq]
      exact ⟨by rw [hpos]; exact hp.1, ih _ (fun b hb => hag b (List.mem_cons_of_mem a hb)) hp.2⟩

theorem chain_data_congr (h h' : heap_t) (xs : List Nat)
    (hag : ∀ a ∈ xs, (heap_read h' a).map (fun n => n.data) =
      (heap_read h a).map (fun n => n.data)) :
    chain_data h' xs = chain_data h xs := by
  unfold chain_data
  induction xs with
  | nil => rfl
  | cons a as ih =>
    simp only [List.filterMap_cons]
    rw [hag a (List.mem_cons_self a as), ih (fun b hb => hag b (List.mem_cons_of_mem a hb))]

/-! ## Lemmas: the position update loop -/

theorem set_positions_length (xs : List Nat) :
    ∀ (h : heap_t) (pos : Nat), (set_positions h xs pos).length = h.length := by
  induction xs with
  | nil => intro h pos; rfl
  | cons x rest ih =>
    intro h pos
    simp only [set_positions]
    cases hr : heap_read h x with
    | none => rfl
    | some n =>
      simp only
      rw [ih, heap_write_length]

theorem set_positions_getElem_of_not_mem (xs : List Nat) :
    ∀ (h : heap_t) (pos a : Nat), a ∉ xs → (set_positions h xs pos)[a]? = h[a]? := by
  induction xs with
  | nil => intro h pos a _; rfl
  | cons x rest ih =>
    intro h pos a ha
    simp only [List.mem_cons, not_or] at ha
    simp only [set_positions]
    cases hr : heap_read h x with
    | none => rfl
    | some n =>
      simp only
      rw [ih _ _ _ ha.2]
      simp [heap_write, List.getElem?_set, Ne.symm ha.1]

theorem set_positions_read_of_not_mem (xs : List Nat) (h : heap_t) (pos a : Nat)
    (ha : a ∉ xs) : heap_read (set_positions h xs pos) a = heap_read h a :=
  heap_read_congr _ _ _ (set_positions_getElem_of_not_mem xs h pos a ha)

theorem heap_write_set_positions (xs : List Nat) :
    ∀ (h : heap_t) (pos a : Nat) (v : list_node_t), a ∉ xs →
      heap_write (set_positions h xs pos) a v = set_positions (heap_write h a v) xs pos := by
  induction xs with
  | nil => intro h pos a v _; rfl
  | cons x rest ih =>
    intro h pos a v ha
    simp only [List.mem_cons, not_or] at ha
    have hxa : a ≠ x := ha.1
    simp only [set_positions]
    rw [heap_read_write_ne h a x v hxa]
    cases hr : heap_read h x with
    | none => rfl
    | some n =>
      simp only
      rw [ih _ _ _ _ ha.2, heap_write_comm _ _ _ _ _ (Ne.symm hxa)]

theorem set_positions_idem (xs : List Nat) :
    ∀ (h : heap_t) (p1 p2 : Nat), xs.Nodup →
      set_positions (set_positions h xs p1) xs p2 = set_positions h xs p2 := by
  induction xs with
  | nil => intro h p1 p2 _; rfl
  | cons x rest ih =>
    intro h p1 p2 hnd
    obtain ⟨hx, hnd'⟩ := List.nodup_cons.mp hnd
    cases hr : heap_read h x with
    | none => simp only [set_positions, hr]
    | some n =>
      have hl := heap_read_lt h x n hr
      have e1 : set_positions h (x :: rest) p1 =
          set_positions (heap_write h x { n with position := p1 }) rest (p1 + 1) := by
        simp only [set_positions, hr]
      have e2 : set_positions h (x :: rest) p2 =
          set_positions (heap_write h x { n with position := p2 }) rest (p2 + 1) := by
        simp only [set_positions, hr]
      have hr1 : heap_read (set_positions (heap_write h x { n with position := p1 }) rest
          (p1 + 1)) x = some { n with position := p1 } := by
        rw [set_positions_read_of_not_mem rest _ _ _ hx, heap_read_write_same _ _ _ hl]
      rw [e1, e2]
      simp only [set_positions, hr1]
      rw [heap_write_set_positions rest _ _ _ _ hx, heap_write_write, ih _ _ _ hnd']

theorem set_positions_of_has_positions (xs : List Nat) :
    ∀ (h : heap_t) (pos : Nat), has_positions h xs pos = true → set_positions h xs pos = h := by
  induction xs with
  | nil => intro h pos _; rfl
  | cons x rest ih =>
    intro h pos hp
    simp only [has_positions] at hp
    cases hr : heap_read h x with
    | none => simp [hr] at hp
    | some n =>
      simp only [hr, Bool.and_eq_true, decide_eq_true_eq] at hp
      simp only [set_positions, hr]
      have hn : ({ n with position := pos } : list_node_t) = n := by
        cases n
        simp only [list_node_t.mk.injEq, and_true] at hp ⊢
        exact hp.1.symm
      rw [hn, heap_write_read_self h x n hr]
      exact ih _ _ hp.2

theorem set_positions_shape (xs : List Nat) :
    ∀ (h : heap_t) (pos a : Nat),
      (heap_read (set_positions h xs pos) a).map (fun n => (n.data, n.next)) =
        (heap_read h a).map (fun n => (n.data, n.next)) := by
  induction xs with
  | nil => intro h pos a; rfl
  | cons x rest ih =>
    intro h pos a
    simp only [set_positions]
    cases hr : heap_read h x with
    | none => rfl
    | some n =>
      simp only
      rw [ih]
      by_cases hxa : x = a
      · subst hxa
        rw [heap_read_write_same _ _ _ (heap_read_lt h x n hr), hr]
        rfl
      · rw [heap_read_write_ne _ _ _ _ hxa]

theorem set_positions_read (xs : List Nat) (h : heap_t) (pos a : Nat) (n : list_node_t)
    (hr : heap_read h a = some n) :
    ∃ n', heap_read (set_positions h xs pos) a = some n' ∧ n'.next = n.next ∧
      n'.data = n.data := by
  have hs := set_positions_shape xs h pos a
  rw [hr] at hs
  cases hr' : heap_read (set_positions h xs pos) a with
  | none => simp [hr'] at hs
  | some n' =>
    simp only [hr', Option.map_some', Option.some.injEq, Prod.mk.injEq] at hs
    exact ⟨n', rfl, hs.2, hs.1⟩

theorem set_positions_is_chain (xs ys : List Nat) (h : heap_t) (pos : Nat) (p : Option Nat)
    (hc : is_chain h p ys = true) : is_chain (set_positions h xs pos) p ys = true := by
  apply is_chain_congr h _ ys p _ hc
  intro a _ n hn
  obtain ⟨n', hn', hnext, _⟩ := set_positions_read xs h pos a n hn
  exact ⟨n', hn', hnext⟩

theorem set_positions_chain_data (xs ys : List Nat) (h : heap_t) (pos : Nat) :
    chain_data (set_positions h xs pos) ys = chain_data h ys := by
  apply chain_data_congr
  intro a _
  have hs := congrArg (Option.map Prod.fst) (set_positions_shape xs h pos a)
  simpa [Option.map_map, Function.comp] using hs

theorem set_positions_has_positions (xs : List Nat) :
    ∀ (h : heap_t) (pos : Nat), xs.Nodup → (∀ a ∈ xs, ∃ n, heap_read h a = some n) →
      has_positions (set_positions h xs pos) xs pos = true := by
  induction xs with
  | nil => intro h pos _ _; rfl
  | cons x rest ih =>
    intro h pos hnd hv
    obtain ⟨hx, hnd'⟩ := List.nodup_cons.mp hnd
    obtain ⟨n, hr⟩ := hv x (List.mem_cons_self x rest)
    have hl := heap_read_lt h x n hr
    have hv' : ∀ a ∈ rest, ∃ m, heap_read (heap_write h x { n with position := pos }) a
        = some m := by
      intro a ha
      have hne : x ≠ a := fun hh => hx (hh ▸ ha)
      rw [heap_read_write_ne _ _ _ _ hne]
      exact hv a (List.mem_cons_of_mem x ha)
    have hrx : heap_read (set_positions (heap_write h x { n with position := pos }) rest
        (pos + 1)) x = some { n with position := pos } := by
      rw [set_positions_read_of_not_mem rest _ _ _ hx, heap_read_write_same _ _ _ hl]
    simp only [set_positions, hr, has_positions, hrx, Bool.and_eq_true, decide_eq_true_eq,
      true_and]
    exact ih _ _ hnd' hv'

theorem renumber_eq (xs : List Nat) :
    ∀ (fuel : Nat) (h : heap_t) (p : Option Nat) (pos : Nat),
      is_chain h p xs = true → xs.length ≤ fuel →
      renumber fuel h p pos = some (set_positions h xs pos) := by
  induction xs with
  | nil =>
    intro fuel h p pos hc _
    rw [is_chain_nil] at hc
    subst hc
    cases fuel <;> simp [renumber, set_positions]
  | cons x rest ih =>
    intro fuel h p pos hc hf
    have hnd := is_chain_nodup h _ p hc
    obtain ⟨hx, _⟩ := List.nodup_cons.mp hnd
    rw [is_chain_cons] at hc
    obtain ⟨hp, n, hn, hrest⟩ := hc
    subst hp
    cases fuel with
    | zero => simp at hf
    | succ f =>
      simp only [List.length_cons, Nat.add_le_add_iff_right] at hf
      simp only [renumber, hn, set_positions]
      apply ih _ _ _ _ _ hf
      apply is_chain_congr h _ rest _ _ hrest
      intro a ha m hm
      have hne : x ≠ a := fun hh => hx (hh ▸ ha)
      exact ⟨m, by rw [heap_read_write_ne _ _ _ _ hne]; exact hm, rfl⟩

/-! ## Lemmas: allocation of a new record -/

theorem is_chain_append (h ext : heap_t) (xs : List Nat) (p : Option Nat)
    (hc : is_chain h p xs = true) : is_chain (h ++ ext) p xs = true := by
  apply is_chain_congr h _ xs p _ hc
  intro a _ n hn
  exact ⟨n, by rw [heap_read_append h ext a (heap_read_lt h a n hn)]; exact hn, rfl⟩

theorem has_positions_append (h ext : heap_t) (xs : List Nat) (pos : Nat)
    (hp : has_positions h xs pos = true) : has_positions (h ++ ext) xs pos = true := by
  apply has_positions_congr h _ xs pos _ hp
  intro a _ n hn
  exact ⟨n, by rw [heap_read_append h ext a (heap_read_lt h a n hn)]; exact hn, rfl⟩

theorem chain_data_append (h ext : heap_t) (xs : List Nat) (hlt : ∀ a ∈ xs, a < h.length) :
    chain_data (h ++ ext) xs = chain_data h xs := by
  apply chain_data_congr
  intro a ha
  rw [heap_read_append h ext a (hlt a ha)]

theorem list_wf_size_zero (h : heap_t) (l : list_t) (addrs : List Nat)
    (wf : list_wf h l addrs) (hz : l.size = 0) :
    addrs = [] ∧ l.head = none ∧ l.tail = none := by
  obtain ⟨hc, hs, ht, _⟩ := wf
  have hnil : addrs = [] := by
    rw [hz] at hs
    exact List.length_eq_zero.mp hs.symm
  subst hnil
  rw [is_chain_nil] at hc
  exact ⟨rfl, hc, by simpa using ht⟩

theorem list_wf_size_pos (h : heap_t) (l : list_t) (addrs : List Nat)
    (wf : list_wf h l addrs) (hz : l.size ≠ 0) :
    addrs ≠ [] ∧ l.head ≠ none ∧ l.tail ≠ none := by
  obtain ⟨hc, hs, ht, _⟩ := wf
  cases addrs with
  | nil => simp at hs; exact absurd hs hz
  | cons a rest =>
    rw [is_chain_cons] at hc
    refine ⟨by simp, by rw [hc.1]; simp, ?_⟩
    rw [ht, List.getLast?_eq_getLast _ (by simp)]
    simp

theorem has_positions_concat (h : heap_t) (xs ys : List Nat) :
    ∀ (pos : Nat), has_positions h (xs ++ ys) pos =
      (has_positions h xs pos && has_positions h ys (pos + xs.length)) := by
  induction xs with
  | nil => intro pos; simp [has_positions]
  | cons x rest ih =>
    intro pos
    have e : pos + (rest.length + 1) = pos + 1 + rest.length := by omega
    show has_positions h (x :: (rest ++ ys)) pos = _
    simp only [has_positions, List.length_cons, e]
    cases heap_read h x with
    | none => simp
    | some n => simp only [ih, Bool.and_assoc]

theorem chain_data_concat (h : heap_t) (xs ys : List Nat) :
    chain_data h (xs ++ ys) = chain_data h xs ++ chain_data h ys := by
  simp [chain_data, List.filterMap_append]

/-- Linking a new last record behind the last record `t` of a chain. -/
theorem is_chain_link (h : heap_t) (t nw : Nat) (tn nwn : list_node_t) (xs : List Nat) :
    ∀ (p : Option Nat), is_chain h p (xs ++ [t]) = true →
      heap_read h t = some tn → heap_read h nw = some nwn → nwn.next = none →
      nw ∉ xs ++ [t] →
      is_chain (heap_write h t { tn with next := some nw }) p (xs ++ [t] ++ [nw]) = true := by
  induction xs with
  | nil =>
    intro p hc ht hnw hnone hfresh
    simp only [List.nil_append, List.mem_singleton] at hc hfresh ⊢
    rw [is_chain_cons] at hc
    simp only [List.singleton_append]
    rw [is_chain_cons]
    refine ⟨hc.1, _, heap_read_write_same h t _ (heap_read_lt h t tn ht), ?_⟩
    rw [is_chain_cons]
    refine ⟨rfl, nwn, ?_, ?_⟩
    · rw [heap_read_write_ne _ _ _ _ (Ne.symm hfresh)]
      exact hnw
    · rw [hnone]
      rfl
  | cons x rest ih =>
    intro p hc ht hnw hnone hfresh
    have hnd := is_chain_nodup h _ p hc
    simp only [List.cons_append] at hc hnd hfresh ⊢
    rw [is_chain_cons] at hc
    obtain ⟨hp, n, hn, hrest⟩ := hc
    have hxt : t ≠ x := by
      intro hh
      have := (List.nodup_cons.mp hnd).1
      apply this
      rw [← hh]
      simp
    rw [is_chain_cons]
    refine ⟨hp, n, by rw [heap_read_write_ne _ _ _ _ hxt]; exact hn, ?_⟩
    have hfresh' : nw ∉ rest ++ [t] := fun hm => hfresh (List.mem_cons_of_mem x hm)
    exact ih _ hrest ht hnw hnone hfresh'

/-- One `list_push_tail` on a well-formed list. -/
theorem list_push_tail_wf (h : heap_t) (l : list_t) (addrs : List Nat) (d : Nat)
    (wf : list_wf h l addrs) :
    ∃ (h' : heap_t) (l' : list_t),
      list_push_tail true h (some l) d = some (status_t.SUCCESS, h', some l') ∧
      list_wf h' l' (addrs ++ [h.length]) ∧
      chain_data h' (addrs ++ [h.length]) = chain_data h addrs ++ [d] := by
  have wf' := wf
  obtain ⟨hc, hs, ht, hp⟩ := wf'
  have hlt := is_chain_lt h addrs l.head hc
  have hvalid := is_chain_valid h addrs l.head hc
  have hfresh : h.length ∉ addrs := fun hm => Nat.lt_irrefl _ (hlt _ hm)
  have hrnew : heap_read (h ++ [some ⟨l.size, d, none⟩]) h.length = some ⟨l.size, d, none⟩ :=
    heap_read_append_new h _
  rcases List.eq_nil_or_concat addrs with hnil | ⟨pre, t, hcat⟩
  · subst hnil
    rw [is_chain_nil] at hc
    simp only [List.getLast?_nil] at ht
    simp only [List.length_nil] at hs
    refine ⟨h ++ [some ⟨l.size, d, none⟩],
      { l with size := l.size + 1, tail := some h.length, head := some h.length }, ?_, ?_, ?_⟩
    · simp [list_push_tail, ht, hc]
    · refine ⟨?_, by simp [hs], by simp, ?_⟩
      · simp only [List.nil_append]
        rw [is_chain_cons]
        exact ⟨rfl, _, hrnew, rfl⟩
      · simp only [List.nil_append, has_positions, hrnew]
        simp [hs]
    · simp [chain_data, hrnew]
  · rw [List.concat_eq_append] at hcat
    subst hcat
    have htl : l.tail = some t := by simpa using ht
    obtain ⟨tn, htn⟩ := hvalid t (by simp)
    have htl' : t < h.length := hlt t (by simp)
    have htn1 : heap_read (h ++ [some ⟨l.size, d, none⟩]) t = some tn := by
      rw [heap_read_append h _ t htl']
      exact htn
    have hhd : l.head ≠ none := by
      cases pre with
      | nil =>
        simp only [List.nil_append] at hc
        rw [is_chain_cons] at hc
        rw [hc.1]
        simp
      | cons a rest =>
        simp only [List.cons_append] at hc
        rw [is_chain_cons] at hc
        rw [hc.1]
        simp
    have hc1 := is_chain_append h [some ⟨l.size, d, none⟩] _ _ hc
    have hag : ∀ a ∈ pre ++ [t], ∀ n, heap_read h a = some n →
        ∃ n', heap_read (heap_write (h ++ [some ⟨l.size, d, none⟩]) t
          { tn with next := some h.length }) a = some n' ∧
          n'.position = n.position ∧ n'.data = n.data := by
      intro a ha n hn
      by_cases hat : t = a
      · subst hat
        rw [htn] at hn
        simp only [Option.some.injEq] at hn
        subst hn
        exact ⟨_, heap_read_write_same _ _ _ (by simp; omega), rfl, rfl⟩
      · refine ⟨n, ?_, rfl, rfl⟩
        rw [heap_read_write_ne _ _ _ _ hat, heap_read_append h _ a (hlt a ha)]
        exact hn
    have hrnew2 : heap_read (heap_write (h ++ [some ⟨l.size, d, none⟩]) t
        { tn with next := some h.length }) h.length = some ⟨l.size, d, none⟩ := by
      rw [heap_read_write_ne _ _ _ _ (by omega)]
      exact hrnew
    refine ⟨heap_write (h ++ [some ⟨l.size, d, none⟩]) t { tn with next := some h.length },
      { l with size := l.size + 1, tail := some h.length }, ?_, ?_, ?_⟩
    · simp [list_push_tail, htl, htn1, hhd]
    · refine ⟨?_, by simp [hs], by simp, ?_⟩
      · exact is_chain_link _ t h.length tn _ pre _ hc1 htn1 hrnew rfl hfresh
      · rw [has_positions_concat]
        simp only [Bool.and_eq_true]
        refine ⟨?_, ?_⟩
        · apply has_positions_congr h _ _ 0 _ hp
          intro a ha n hn
          obtain ⟨n', hn', hpos, _⟩ := hag a ha n hn
          exact ⟨n', hn', hpos⟩
        · simp only [has_positions, hrnew2]
          simp [hs]
    · rw [chain_data_concat, chain_data_concat]
      congr 1
      · rw [← chain_data_concat]
        apply chain_data_congr
        intro a ha
        obtain ⟨n, hn⟩ := hvalid a ha
        obtain ⟨n', hn', _, hdata⟩ := hag a ha n hn
        rw [hn', hn]
        simp [hdata]
      · simp [chain_data, hrnew2]

theorem list_push_tail_all_wf (ps : List Nat) :
    ∀ (h : heap_t) (l : list_t) (addrs : List Nat), list_wf h l addrs →
      ∃ (h' : heap_t) (l' : list_t) (more : List Nat),
        list_push_tail_all h l ps = some (h', l') ∧
        list_wf h' l' (addrs ++ more) ∧ more.length = ps.length ∧
        chain_data h' (addrs ++ more) = chain_data h addrs ++ ps := by
  induction ps with
  | nil =>
    intro h l addrs wf
    exact ⟨h, l, [], rfl, by simpa using wf, rfl, by simp⟩
  | cons d rest ih =>
    intro h l addrs wf
    obtain ⟨h1, l1, hpush, wf1, hd1⟩ := list_push_tail_wf h l addrs d wf
    obtain ⟨h', l', more, hall, wf', hlen, hd'⟩ := ih h1 l1 _ wf1
    refine ⟨h', l', h.length :: more, ?_, by simpa using wf', by simp [hlen], ?_⟩
    · simp only [list_push_tail_all, hpush]
      exact hall
    · have : addrs ++ h.length :: more = addrs ++ [h.length] ++ more := by simp
      rw [this, hd', hd1]
      simp

/-- On a well-formed chain the `i`-th record holds position `pos + i` and the
`i`-th payload. -/
theorem chain_nth (h : heap_t) (xs : List Nat) :
    ∀ (pos i : Nat), has_positions h xs pos = true → i < xs.length →
      ∃ (a : Nat) (n : list_node_t), xs[i]? = some a ∧ heap_read h a = some n ∧
        n.position = pos + i ∧ (chain_data h xs)[i]? = some n.data := by
  induction xs with
  | nil => intro pos i _ hi; simp at hi
  | cons x rest ih =>
    intro pos i hp hi
    simp only [has_positions] at hp
    cases hr : heap_read h x with
    | none => simp [hr] at hp
    | some n =>
      simp only [hr, Bool.and_eq_true, decide_eq_true_eq] at hp
      cases i with
      | zero => exact ⟨x, n, by simp, hr, by simp [hp.1], by simp [chain_data, hr]⟩
      | succ j =>
        simp only [List.length_cons, Nat.add_lt_add_iff_right] at hi
        obtain ⟨a, m, ha, hm, hpos, hdat⟩ := ih (pos + 1) j hp.2 hi
        refine ⟨a, m, by simpa using ha, hm, by omega, ?_⟩
        simp only [chain_data, List.filterMap_cons, hr, Option.map_some',
          List.getElem?_cons_succ]
        simpa [chain_data] using hdat

/-! ## Lemmas: destroy -/

theorem clear_chain_no_release (c : List node_t) (f : fn_ptr) (d : Nat) :
    dealloc_t.release f d ∉ clear_chain c := by
  induction c with
  | nil => simp [clear_chain]
  | cons x xs ih => simp [clear_chain, ih]

theorem clear_loop_eq (r : Nat) :
    ∀ (x : Nat) (table : List (List node_t)), x + r ≤ table.length →
      ∃ table', clear_loop r x table =
        some (table', ((table.drop x).take r).flatMap clear_chain) := by
  induction r with
  | zero => intro x table _; exact ⟨table, by simp [clear_loop]⟩
  | succ r ih =>
    intro x table hle
    have hx : x < table.length := by omega
    obtain ⟨table', h'⟩ := ih (x + 1) (table.set x []) (by simp; omega)
    refine ⟨table', ?_⟩
    rw [List.drop_set_of_lt _ _ (by omega)] at h'
    simp only [clear_loop, List.getElem?_eq_getElem hx, h']
    rw [List.drop_eq_getElem_cons hx]
    simp only [List.take_succ_cons, List.flatMap, List.map_cons, List.flatten_cons]

theorem heap_read_free_ne (h : heap_t) (a b : Nat) (hne : a ≠ b) :
    heap_read (heap_free h a) b = heap_read h b :=
  heap_read_congr _ _ _ (by simp [heap_free, List.getElem?_set, hne])

theorem delete_nodes_eq (xs : List Nat) :
    ∀ (fuel : Nat) (h : heap_t) (p : Option Nat),
      is_chain h p xs = true → xs.length ≤ fuel →
      ∃ h', delete_nodes fuel h p =
        some (h', (chain_data h xs).map dealloc_t.free_node) := by
  induction xs with
  | nil =>
    intro fuel h p hc _
    rw [is_chain_nil] at hc
    subst hc
    exact ⟨h, by cases fuel <;> simp [delete_nodes, chain_data]⟩
  | cons x rest ih =>
    intro fuel h p hc hf
    have hnd := is_chain_nodup h _ p hc
    obtain ⟨hx, _⟩ := List.nodup_cons.mp hnd
    rw [is_chain_cons] at hc
    obtain ⟨hp, n, hn, hrest⟩ := hc
    subst hp
    cases fuel with
    | zero => simp at hf
    | succ f =>
      simp only [List.length_cons, Nat.add_le_add_iff_right] at hf
      have hc' : is_chain (heap_free h x) n.next rest = true := by
        apply is_chain_congr h _ rest _ _ hrest
        intro a ha m hm
        have hne : x ≠ a := fun hh => hx (hh ▸ ha)
        exact ⟨m, by rw [heap_read_free_ne _ _ _ hne]; exact hm, rfl⟩
      obtain ⟨h', hd⟩ := ih f (heap_free h x) n.next hc' hf
      have hcd : chain_data (heap_free h x) rest = chain_data h rest := by
        apply chain_data_congr
        intro a ha
        have hne : x ≠ a := fun hh => hx (hh ▸ ha)
        rw [heap_read_free_ne _ _ _ hne]
      refine ⟨h', ?_⟩
      simp only [delete_nodes, hn, hd, hcd]
      simp [chain_data, hn]

/-- The calls of the drain loop of the stack on the resident slots, top
first. -/
theorem stack_drain_eq (n : Nat) :
    ∀ (fuel : Nat) (s : stack_t), s.currentsz = n → n ≤ fuel → n ≤ s.arr.length →
      ∃ s', stack_drain fuel s = some (s',
        ((s.arr.take n).reverse.filterMap id).map (fun nd => dealloc_t.free_node nd.data)) := by
  induction n with
  | zero =>
    intro fuel s hz _ _
    refine ⟨s, ?_⟩
    cases fuel <;> simp [stack_drain, stack_emptycheck, check_t.nonzero, hz]
  | succ n ih =>
    intro fuel s hsz hf hlen
    cases fuel with
    | zero => omega
    | succ f =>
      have hn : n < s.arr.length := by omega
      obtain ⟨s', hs'⟩ := ih f { s with currentsz := n } rfl (by omega) (by simp; omega)
      simp only at hs'
      refine ⟨s', ?_⟩
      have hget : s.arr[n]? = some s.arr[n] := List.getElem?_eq_getElem hn
      rw [List.take_succ, hget]
      cases hv : s.arr[n] with
      | none =>
        rw [hv] at hget
        simp [stack_drain, stack_emptycheck, check_t.nonzero, stack_pop, hsz, hget, hs',
          List.filterMap_reverse]
      | some nd =>
        rw [hv] at hget
        simp [stack_drain, stack_emptycheck, check_t.nonzero, stack_pop, hsz, hget, hs',
          List.filterMap_reverse]

theorem drain_calls_no_release (l : List Nat) (f : fn_ptr) (d : Nat) :
    dealloc_t.release f d ∉ l.map dealloc_t.free_node := by
  simp

/-! ## Theorems: linked list -/

/-- C10: on a well-formed list (node addresses `addrs`, possibly none)
`list_push_head(L, d)` succeeds and yields the well-formed list whose payloads
are `d` followed by the old ones; the following `list_pop_head` returns the
new node, which holds `d`; the list has again the size, head and tail it had,
and every record that existed before the push is unchanged, so the payload
sequence and the position numbering are those before the push. -/
theorem list_push_head_pop_head (h : heap_t) (l : list_t) (addrs : List Nat) (d : Nat)
    (wf : list_wf h l addrs) :
    ∃ (h1 : heap_t) (l1 : list_t),
      list_push_head true h (some l) d = some (status_t.SUCCESS, h1, some l1) ∧
      list_wf h1 l1 (h.length :: addrs) ∧
      chain_data h1 (h.length :: addrs) = d :: chain_data h addrs ∧
      list_pop_head h1 (some l1) =
        some (some h.length, h ++ [some ⟨0, d, l.head⟩], some l) ∧
      heap_read (h ++ [some ⟨0, d, l.head⟩]) h.length = some ⟨0, d, l.head⟩ ∧
      (∀ a : Nat, a < h.length → (h ++ [some ⟨0, d, l.head⟩])[a]? = h[a]?) ∧
      list_wf (h ++ [some ⟨0, d, l.head⟩]) l addrs ∧
      chain_data (h ++ [some ⟨0, d, l.head⟩]) addrs = chain_data h addrs := by
  have wf' := wf
  obtain ⟨hc, hs, ht, hp⟩ := wf'
  have hlt := is_chain_lt h addrs l.head hc
  have hlen := is_chain_length_le h addrs l.head hc
  have hnd := is_chain_nodup h addrs l.head hc
  have hnew : h.length ∉ addrs := fun hm => Nat.lt_irrefl _ (hlt _ hm)
  have hc1 : is_chain (h ++ [some ⟨0, d, l.head⟩]) l.head addrs = true :=
    is_chain_append h _ addrs l.head hc
  have hp1 : has_positions (h ++ [some ⟨0, d, l.head⟩]) addrs 0 = true :=
    has_positions_append h _ addrs 0 hp
  have hren : renumber (h.length + 1) (h ++ [some ⟨0, d, l.head⟩])
      l.head 1 = some (set_positions (h ++ [some ⟨0, d, l.head⟩]) addrs 1) :=
    renumber_eq addrs _ _ _ _ hc1 (by omega)
  have hrnew : heap_read (set_positions (h ++ [some ⟨0, d, l.head⟩]) addrs 1) h.length =
      some ⟨0, d, l.head⟩ := by
    rw [set_positions_read_of_not_mem addrs _ _ _ hnew, heap_read_append_new]
  have hc2 : is_chain (set_positions (h ++ [some ⟨0, d, l.head⟩]) addrs 1) l.head addrs
      = true := set_positions_is_chain addrs addrs _ 1 _ hc1
  have hvalid : ∀ a ∈ addrs, ∃ n, heap_read (h ++ [some ⟨0, d, l.head⟩]) a = some n :=
    is_chain_valid _ addrs l.head hc1
  have hren2 : renumber (set_positions (h ++ [some ⟨0, d, l.head⟩]) addrs 1).length
      (set_positions (h ++ [some ⟨0, d, l.head⟩]) addrs 1) l.head 0 =
      some (h ++ [some ⟨0, d, l.head⟩]) := by
    rw [renumber_eq addrs _ _ _ _ hc2 (by rw [set_positions_length]; simp; omega),
      set_positions_idem addrs _ _ _ hnd, set_positions_of_has_positions addrs _ _ hp1]
  refine ⟨set_positions (h ++ [some ⟨0, d, l.head⟩]) addrs 1,
    { l with head := some h.length, size := l.size + 1,
             tail := if l.tail = none then some h.length else l.tail }, ?_, ?_, ?_, ?_,
    heap_read_append_new h _, fun a ha => List.getElem?_append_left ha, ?_, ?_⟩
  · simp only [list_push_head, if_true]
    by_cases htl : l.tail = none <;> simp [htl, hren]
  · refine ⟨?_, by simp [hs], ?_, ?_⟩
    · rw [is_chain_cons]
      exact ⟨rfl, _, hrnew, hc2⟩
    · cases addrs with
      | nil => simp [ht]
      | cons a rest =>
        have : l.tail ≠ none := by
          rw [ht, List.getLast?_eq_getLast _ (by simp)]
          simp
        simp only [this, if_false]
        rw [ht]
        simp [List.getLast?_cons_cons]
    · simp only [has_positions, hrnew, decide_True, Bool.true_and]
      exact set_positions_has_positions addrs _ 1 hnd hvalid
  · simp only [chain_data, List.filterMap_cons, hrnew, Option.map_some']
    have := set_positions_chain_data addrs addrs (h ++ [some ⟨0, d, l.head⟩]) 1
    simp only [chain_data] at this
    rw [this]
    have h2 := chain_data_append h [some ⟨0, d, l.head⟩] addrs hlt
    simp only [chain_data] at h2
    rw [h2]
  · simp only [list_pop_head, hrnew, hren2]
    have hd : dec32 (l.size + 1) = l.size := by simp [dec32]
    rw [hd]
    by_cases hz : l.size = 0
    · obtain ⟨_, hh, htl⟩ := list_wf_size_zero h l addrs wf hz
      obtain ⟨size, head, tail, cf, cmp⟩ := l
      simp only at hz hh htl
      subst hz hh htl
      simp
    · obtain ⟨_, _, htl⟩ := list_wf_size_pos h l addrs wf hz
      obtain ⟨size, head, tail, cf, cmp⟩ := l
      simp only at hz htl
      simp [hz, htl]
  · exact ⟨hc1, hs, ht, hp1⟩
  · exact chain_data_append h _ addrs hlt

theorem list_push_head_pop_head_witness :
    ∃ (h1 : heap_t) (l1 : list_t),
      list_push_head true [some ⟨0, 7, none⟩] (some ⟨1, some 0, some 0, .libc_free, .default_compare⟩) 9
        = some (status_t.SUCCESS, h1, some l1) ∧
      list_wf h1 l1 ([some (list_node_t.mk 0 7 none)].length :: [0]) ∧
      chain_data h1 ([some (list_node_t.mk 0 7 none)].length :: [0]) =
        9 :: chain_data [some ⟨0, 7, none⟩] [0] ∧
      list_pop_head h1 (some l1) =
        some (some [some (list_node_t.mk 0 7 none)].length,
          [some ⟨0, 7, none⟩] ++ [some ⟨0, 9, some 0⟩],
          some ⟨1, some 0, some 0, .libc_free, .default_compare⟩) ∧
      heap_read ([some ⟨0, 7, none⟩] ++ [some ⟨0, 9, some 0⟩])
        [some (list_node_t.mk 0 7 none)].length = some ⟨0, 9, some 0⟩ ∧
      (∀ a : Nat, a < [some (list_node_t.mk 0 7 none)].length →
        ([some (list_node_t.mk 0 7 none)] ++ [some ⟨0, 9, some 0⟩])[a]? =
          [some (list_node_t.mk 0 7 none)][a]?) ∧
      list_wf ([some ⟨0, 7, none⟩] ++ [some ⟨0, 9, some 0⟩])
        ⟨1, some 0, some 0, .libc_free, .default_compare⟩ [0] ∧
      chain_data ([some ⟨0, 7, none⟩] ++ [some ⟨0, 9, some 0⟩]) [0] =
        chain_data [some ⟨0, 7, none⟩] [0] :=
  list_push_head_pop_head [some ⟨0, 7, none⟩] ⟨1, some 0, some 0, .libc_free, .default_compare⟩
    [0] 9 ⟨by decide, by decide, by decide, by decide⟩

/-- C9: starting from `list_new` and calling `list_push_tail` with the
payloads `ps` (at least one) in order, all calls succeed; the list is
well-formed over node addresses `addrs` with `size = n`; `list_peek_head`
returns the node `addrs[0]`, `list_peek_tail` the node `addrs[n - 1]`; and for
every `i < n` the `i`-th node from the head holds the payload `ps[i]` and the
position `i`. -/
theorem list_push_tail_n (h0 : heap_t) (cf cmp : Option fn_ptr) (ps : List Nat)
    (hn : 1 ≤ ps.length) :
    ∃ (l0 : list_t) (h : heap_t) (l : list_t) (addrs : List Nat),
      list_new true cf cmp = some l0 ∧
      list_push_tail_all h0 l0 ps = some (h, l) ∧
      list_wf h l addrs ∧ l.size = ps.length ∧ addrs.length = ps.length ∧
      list_peek_head (some l) = addrs[0]? ∧
      list_peek_tail (some l) = addrs[ps.length - 1]? ∧
      ∀ i : Nat, i < ps.length →
        ∃ (a : Nat) (n : list_node_t), addrs[i]? = some a ∧ heap_read h a = some n ∧
          n.position = i ∧ ps[i]? = some n.data := by
  have wf0 : list_wf h0 ⟨0, none, none, cf.getD fn_ptr.libc_free,
      cmp.getD fn_ptr.default_compare⟩ [] := ⟨rfl, rfl, rfl, rfl⟩
  obtain ⟨h, l, more, hall, wf, hlen, hdata⟩ := list_push_tail_all_wf ps h0 _ [] wf0
  simp only [List.nil_append, chain_data, List.filterMap_nil] at wf hdata
  have wf' := wf
  obtain ⟨hc, hs, ht, hp⟩ := wf'
  refine ⟨_, h, l, more, by simp [list_new], hall, wf, by rw [hs, hlen], hlen, ?_, ?_, ?_⟩
  · cases more with
    | nil => simp at hlen; omega
    | cons a rest =>
      rw [is_chain_cons] at hc
      simp [list_peek_head, hc.1]
  · simp only [list_peek_tail, ht]
    rw [List.getLast?_eq_getElem?, hlen]
  · intro i hi
    obtain ⟨a, n, ha, hr, hpos, hd⟩ := chain_nth h more 0 i hp (by omega)
    refine ⟨a, n, ha, hr, by omega, ?_⟩
    rw [← hd]
    simp only [chain_data]
    rw [hdata]

theorem list_push_tail_n_witness :
    ∃ (l0 : list_t) (h : heap_t) (l : list_t) (addrs : List Nat),
      list_new true none none = some l0 ∧
      list_push_tail_all [] l0 [10, 20] = some (h, l) ∧
      list_wf h l addrs ∧ l.size = [10, 20].length ∧ addrs.length = [10, 20].length ∧
      list_peek_head (some l) = addrs[0]? ∧
      list_peek_tail (some l) = addrs[[10, 20].length - 1]? ∧
      ∀ i : Nat, i < [10, 20].length →
        ∃ (a : Nat) (n : list_node_t), addrs[i]? = some a ∧ heap_read h a = some n ∧
          n.position = i ∧ [10, 20][i]? = some n.data :=
  list_push_tail_n [] none none [10, 20] (by decide)

/-- C7: on the two-node list built by `list_push_tail` with the payloads at
addresses 10 and 20 (holding the integers 1 and 2), `list_remove` with the
reference value 2 matches the tail node, returns `SUCCESS` and sets `tail` to
the former first node, but that node keeps its `next` link to the removed
record, which has been freed.  On the three-node list with payloads 10, 20, 30
(integers 1, 2, 3) the removal of the interior node and of the head node, and
on a one-node list the removal of the only node, leave a chain that ends at
`NULL`. -/
theorem list_remove_tail_keeps_link :
    list_push_tail_all [] ⟨0, none, none, .libc_free, .default_compare⟩ [10, 20] =
      some ([some ⟨0, 10, some 1⟩, some ⟨1, 20, none⟩],
        ⟨2, some 0, some 1, .libc_free, .default_compare⟩) ∧
    list_remove (fun d => if d = 10 then some 1 else if d = 20 then some 2 else none)
      [some ⟨0, 10, some 1⟩, some ⟨1, 20, none⟩]
      (some ⟨2, some 0, some 1, .libc_free, .default_compare⟩) (some ⟨some 20, 2⟩) =
      some (status_t.SUCCESS, [some ⟨0, 10, some 1⟩, none],
        some ⟨1, some 0, some 0, .libc_free, .default_compare⟩) ∧
    (heap_read [some ⟨0, 10, some 1⟩, none] 0).map (fun n => n.next) = some (some 1) ∧
    heap_read [some ⟨0, 10, some 1⟩, none] 1 = none ∧
    list_remove
      (fun d => if d = 10 then some 1 else if d = 20 then some 2 else
        if d = 30 then some 3 else none)
      [some ⟨0, 10, some 1⟩, some ⟨1, 20, some 2⟩, some ⟨2, 30, none⟩]
      (some ⟨3, some 0, some 2, .libc_free, .default_compare⟩) (some ⟨some 20, 2⟩) =
      some (status_t.SUCCESS, [some ⟨0, 10, some 2⟩, none, some ⟨1, 30, none⟩],
        some ⟨2, some 0, some 2, .libc_free, .default_compare⟩) ∧
    list_remove
      (fun d => if d = 10 then some 1 else if d = 20 then some 2 else
        if d = 30 then some 3 else none)
      [some ⟨0, 10, some 1⟩, some ⟨1, 20, some 2⟩, some ⟨2, 30, none⟩]
      (some ⟨3, some 0, some 2, .libc_free, .default_compare⟩) (some ⟨some 20, 1⟩) =
      some (status_t.SUCCESS, [none, some ⟨0, 20, some 2⟩, some ⟨1, 30, none⟩],
        some ⟨2, some 1, some 2, .libc_free, .default_compare⟩) ∧
    list_remove (fun d => if d = 10 then some 1 else none)
      [some ⟨0, 10, none⟩]
      (some ⟨1, some 0, some 0, .libc_free, .default_compare⟩) (some ⟨some 20, 1⟩) =
      some (status_t.SUCCESS, [none],
        some ⟨0, none, none, .libc_free, .default_compare⟩) := by
  refine ⟨?_, ?_, ?_, ?_, ?_, ?_, ?_⟩ <;> decide

/-- C8: the two-node list built by `list_push_tail` is well-formed, and after
`list_remove` of its tail node the list is well-formed over no sequence of
node addresses: the new tail still links to the freed record. -/
theorem list_remove_tail_breaks_wf :
    list_wf [some ⟨0, 10, some 1⟩, some ⟨1, 20, none⟩]
      ⟨2, some 0, some 1, .libc_free, .default_compare⟩ [0, 1] ∧
    list_remove (fun d => if d = 10 then some 1 else if d = 20 then some 2 else none)
      [some ⟨0, 10, some 1⟩, some ⟨1, 20, none⟩]
      (some ⟨2, some 0, some 1, .libc_free, .default_compare⟩) (some ⟨some 20, 2⟩) =
      some (status_t.SUCCESS, [some ⟨0, 10, some 1⟩, none],
        some ⟨1, some 0, some 0, .libc_free, .default_compare⟩) ∧
    ¬ ∃ addrs : List Nat, list_wf [some ⟨0, 10, some 1⟩, none]
      ⟨1, some 0, some 0, .libc_free, .default_compare⟩ addrs := by
  refine ⟨⟨by decide, by decide, by decide, by decide⟩, by decide, ?_⟩
  rintro ⟨addrs, hc, hs, _, _⟩
  simp only at hc hs
  match addrs, hs, hc with
  | [a], _, hc =>
    rw [is_chain_cons] at hc
    obtain ⟨ha, n, hn, hrest⟩ := hc
    simp only [Option.some.injEq] at ha
    subst ha
    have : n = ⟨0, 10, some 1⟩ := by
      have h0 : heap_read [some ⟨0, 10, some 1⟩, none] 0 = some ⟨0, 10, some 1⟩ := by decide
      rw [h0] at hn
      exact (Option.some.inj hn).symm
    subst this
    simp [is_chain] at hrest

/-! ## Theorems: destroy -/

/-- C6: destroy never calls the release hook.  Each container is created with
the hook `user 1` (the hash table with hook argument 1) and given the one
payload 7; the calls of its destroy function are then `free` calls only: the
stack frees the node record, the array and the stack; the list the node record
and the list; the hash table the key, the node record, the bucket array and the
table; the queue and the priority queue the array and the container, their
drain loop being guarded by `if (emptycheck)`.  Every handle is set to `NULL`,
and the hook is called on the resident payload by none of them. -/
theorem destroy_skips_release_hook :
    (stack_init true true 1 (some (fn_ptr.user 1)) = some ⟨1, 0, [none], fn_ptr.user 1⟩ ∧
      stack_push true (some ⟨1, 0, [none], fn_ptr.user 1⟩) (some 7) =
        some (status_t.SUCCESS, some ⟨1, 1, [some ⟨7⟩], fn_ptr.user 1⟩) ∧
      stack_destroy (some (some ⟨1, 1, [some ⟨7⟩], fn_ptr.user 1⟩)) =
        some (status_t.SUCCESS, some none,
          [dealloc_t.free_node 7, dealloc_t.free_array, dealloc_t.free_container]) ∧
      List.count (dealloc_t.release (fn_ptr.user 1) 7)
        [dealloc_t.free_node 7, dealloc_t.free_array, dealloc_t.free_container] = 0) ∧
    (list_new true (some (fn_ptr.user 1)) none =
        some ⟨0, none, none, fn_ptr.user 1, fn_ptr.default_compare⟩ ∧
      list_push_tail true [] (some ⟨0, none, none, fn_ptr.user 1, fn_ptr.default_compare⟩) 7 =
        some (status_t.SUCCESS, [some ⟨0, 7, none⟩],
          some ⟨1, some 0, some 0, fn_ptr.user 1, fn_ptr.default_compare⟩) ∧
      list_delete [some ⟨0, 7, none⟩]
          (some (some ⟨1, some 0, some 0, fn_ptr.user 1, fn_ptr.default_compare⟩)) =
        some (status_t.SUCCESS, [none], some none,
          [dealloc_t.free_node 7, dealloc_t.free_container]) ∧
      List.count (dealloc_t.release (fn_ptr.user 1) 7)
        [dealloc_t.free_node 7, dealloc_t.free_container] = 0) ∧
    (hash_table_init true true 1 (some 1) = some ⟨1, [[]]⟩ ∧
      hash_table_add true true (some ⟨1, [[]]⟩) (some 7) (some [97]) =
        some (SUCCESS, some ⟨1, [[⟨[97], 7⟩]]⟩) ∧
      hash_table_destroy (some (some ⟨1, [[⟨[97], 7⟩]]⟩)) =
        some (SUCCESS, some none,
          [dealloc_t.free_key [97], dealloc_t.free_node 7, dealloc_t.free_array,
            dealloc_t.free_container]) ∧
      List.count (dealloc_t.release (fn_ptr.user 1) 7)
        [dealloc_t.free_key [97], dealloc_t.free_node 7, dealloc_t.free_array,
          dealloc_t.free_container] = 0) ∧
    (queue_init true true 1 (some (fn_ptr.user 1)) =
        some ⟨1, 0, some [none], fn_ptr.user 1⟩ ∧
      queue_enqueue true (some ⟨1, 0, some [none], fn_ptr.user 1⟩) (some 7) =
        some (status_t.SUCCESS, some ⟨1, 1, some [some ⟨7⟩], fn_ptr.user 1⟩) ∧
      queue_destroy (some (some ⟨1, 1, some [some ⟨7⟩], fn_ptr.user 1⟩)) =
        some (status_t.SUCCESS, some none,
          [dealloc_t.free_array, dealloc_t.free_container]) ∧
      List.count (dealloc_t.release (fn_ptr.user 1) 7)
        [dealloc_t.free_array, dealloc_t.free_container] = 0) ∧
    (queue_p_init true true (fun _ => none) 1 (some (fn_ptr.user 1)) =
        some ⟨1, 0, some [none], fn_ptr.user 1⟩ ∧
      queue_p_enqueue true (some ⟨1, 0, some [none], fn_ptr.user 1⟩) (some 7) 3 =
        some (status_t.SUCCESS, some ⟨1, 1, some [some ⟨7, 3⟩], fn_ptr.user 1⟩) ∧
      queue_p_destroy (some (some ⟨1, 1, some [some ⟨7, 3⟩], fn_ptr.user 1⟩)) =
        some (status_t.SUCCESS, some none,
          [dealloc_t.free_array, dealloc_t.free_container]) ∧
      List.count (dealloc_t.release (fn_ptr.user 1) 7)
        [dealloc_t.free_array, dealloc_t.free_container] = 0) := by
  refine ⟨⟨?_, ?_, ?_, ?_⟩, ⟨?_, ?_, ?_, ?_⟩, ⟨?_, ?_, ?_, ?_⟩, ⟨?_, ?_, ?_, ?_⟩,
    ⟨?_, ?_, ?_, ?_⟩⟩ <;> decide

/-- The deallocation calls of the five destroy functions on any present
container: none of them is a call of the release hook, whatever the container
holds and whatever hook it was created with.  The hash table frees the key and
the node record of every entry, the list the record of every node from head to
tail, the stack the node record of every resident slot from the top down, each
followed by the array (hash table, stack) and the container record. -/
theorem destroy_calls_no_release_hook
    (t : hash_table_t) (ht : t.size ≤ t.table.length)
    (h : heap_t) (l : list_t) (addrs : List Nat) (wf : list_wf h l addrs)
    (q : queue_t) (pq : queue_p_t)
    (s : stack_t) (hs : s.currentsz ≤ s.arr.length) :
    (∃ calls : List dealloc_t,
      hash_table_destroy (some (some t)) = some (SUCCESS, some none, calls) ∧
      calls = (t.table.take t.size).flatMap clear_chain ++
        [dealloc_t.free_array, dealloc_t.free_container] ∧
      ∀ (f : fn_ptr) (d : Nat), dealloc_t.release f d ∉ calls) ∧
    (∃ (h' : heap_t) (calls : List dealloc_t),
      list_delete h (some (some l)) = some (status_t.SUCCESS, h', some none, calls) ∧
      calls = (chain_data h addrs).map dealloc_t.free_node ++ [dealloc_t.free_container] ∧
      ∀ (f : fn_ptr) (d : Nat), dealloc_t.release f d ∉ calls) ∧
    (∃ calls : List dealloc_t,
      queue_destroy (some (some q)) = some (status_t.SUCCESS, some none, calls) ∧
      ∀ (f : fn_ptr) (d : Nat), dealloc_t.release f d ∉ calls) ∧
    (∃ calls : List dealloc_t,
      queue_p_destroy (some (some pq)) = some (status_t.SUCCESS, some none, calls) ∧
      ∀ (f : fn_ptr) (d : Nat), dealloc_t.release f d ∉ calls) ∧
    (∃ calls : List dealloc_t,
      stack_destroy (some (some s)) = some (status_t.SUCCESS, some none, calls) ∧
      calls = ((s.arr.take s.currentsz).reverse.filterMap id).map
          (fun nd => dealloc_t.free_node nd.data) ++
        [dealloc_t.free_array, dealloc_t.free_container] ∧
      ∀ (f : fn_ptr) (d : Nat), dealloc_t.release f d ∉ calls) := by
  refine ⟨?_, ?_, ?_, ?_, ?_⟩
  · obtain ⟨table', hcl⟩ := clear_loop_eq t.size 0 t.table (by omega)
    refine ⟨_, ?_, rfl, ?_⟩
    · simp only [hash_table_destroy, hash_table_clear, hcl, List.drop_zero]
    · intro f d hmem
      simp only [List.mem_append, List.mem_flatMap, List.mem_cons, List.mem_singleton,
        List.not_mem_nil, or_false] at hmem
      rcases hmem with ⟨c, _, hc⟩ | hh | hh
      · exact clear_chain_no_release c f d hc
      · cases hh
      · cases hh
  · obtain ⟨hc, _, _, _⟩ := wf
    obtain ⟨h', hd⟩ := delete_nodes_eq addrs h.length h l.head hc
      (is_chain_length_le h addrs l.head hc)
    refine ⟨h', _, ?_, rfl, ?_⟩
    · simp only [list_delete, hd]
    · intro f d hmem
      simp at hmem
  · by_cases hz : 0 = q.currentsz
    · refine ⟨[dealloc_t.free_array, dealloc_t.free_container], ?_, by simp⟩
      cases hq : q.currentsz with
      | zero => simp [queue_destroy, queue_emptycheck, check_t.nonzero, queue_drain, hq]
      | succ n => omega
    · refine ⟨[dealloc_t.free_array, dealloc_t.free_container], ?_, by simp⟩
      simp [queue_destroy, queue_emptycheck, check_t.nonzero, hz]
  · by_cases hz : 0 = pq.currentsz
    · refine ⟨[dealloc_t.free_array, dealloc_t.free_container], ?_, by simp⟩
      cases hq : pq.currentsz with
      | zero => simp [queue_p_destroy, queue_p_emptycheck, check_t.nonzero, queue_p_drain, hq]
      | succ n => omega
    · refine ⟨[dealloc_t.free_array, dealloc_t.free_container], ?_, by simp⟩
      simp [queue_p_destroy, queue_p_emptycheck, check_t.nonzero, hz]
  · obtain ⟨s', hdr⟩ := stack_drain_eq s.currentsz s.currentsz s rfl (Nat.le_refl _) hs
    refine ⟨_, ?_, rfl, ?_⟩
    · simp only [stack_destroy, hdr]
    · intro f d hmem
      simp at hmem

theorem destroy_calls_no_release_hook_witness :
    (∃ calls : List dealloc_t,
      hash_table_destroy (some (some ⟨1, [[⟨[97], 1⟩]]⟩)) = some (SUCCESS, some none, calls) ∧
      calls = ((hash_table_t.mk 1 [[⟨[97], 1⟩]]).table.take
          (hash_table_t.mk 1 [[⟨[97], 1⟩]]).size).flatMap clear_chain ++
        [dealloc_t.free_array, dealloc_t.free_container] ∧
      ∀ (f : fn_ptr) (d : Nat), dealloc_t.release f d ∉ calls) ∧
    (∃ (h' : heap_t) (calls : List dealloc_t),
      list_delete [some ⟨0, 7, none⟩]
          (some (some ⟨1, some 0, some 0, .libc_free, .default_compare⟩)) =
        some (status_t.SUCCESS, h', some none, calls) ∧
      calls = (chain_data [some ⟨0, 7, none⟩] [0]).map dealloc_t.free_node ++
        [dealloc_t.free_container] ∧
      ∀ (f : fn_ptr) (d : Nat), dealloc_t.release f d ∉ calls) ∧
    (∃ calls : List dealloc_t,
      queue_destroy (some (some ⟨1, 1, some [some ⟨7⟩], fn_ptr.user 1⟩)) =
        some (status_t.SUCCESS, some none, calls) ∧
      ∀ (f : fn_ptr) (d : Nat), dealloc_t.release f d ∉ calls) ∧
    (∃ calls : List dealloc_t,
      queue_p_destroy (some (some ⟨1, 1, some [some ⟨7, 3⟩], fn_ptr.user 1⟩)) =
        some (status_t.SUCCESS, some none, calls) ∧
      ∀ (f : fn_ptr) (d : Nat), dealloc_t.release f d ∉ calls) ∧
    (∃ calls : List dealloc_t,
      stack_destroy (some (some ⟨1, 1, [some ⟨7⟩], fn_ptr.user 1⟩)) =
        some (status_t.SUCCESS, some none, calls) ∧
      calls = (((stack_t.mk 1 1 [some ⟨7⟩] (fn_ptr.user 1)).arr.take
          (stack_t.mk 1 1 [some ⟨7⟩] (fn_ptr.user 1)).currentsz).reverse.filterMap id).map
          (fun nd => dealloc_t.free_node nd.data) ++
        [dealloc_t.free_array, dealloc_t.free_container] ∧
      ∀ (f : fn_ptr) (d : Nat), dealloc_t.release f d ∉ calls) :=
  destroy_calls_no_release_hook ⟨1, [[⟨[97], 1⟩]]⟩ (by decide)
    [some ⟨0, 7, none⟩] ⟨1, some 0, some 0, .libc_free, .default_compare⟩ [0]
    ⟨by decide, by decide, by decide, by decide⟩
    ⟨1, 1, some [some ⟨7⟩], fn_ptr.user 1⟩ ⟨1, 1, some [some ⟨7, 3⟩], fn_ptr.user 1⟩
    ⟨1, 1, [some ⟨7⟩], fn_ptr.user 1⟩ (by decide)

/-! ## Lemmas: slot arrays -/

theorem take_set_of_le {α : Type} (l : List α) (n m : Nat) (a : α) (h : m ≤ n) :
    (l.set n a).take m = l.take m := by
  apply List.ext_getElem?
  intro i
  rw [List.getElem?_take, List.getElem?_take]
  split
  · rw [List.getElem?_set_ne (by omega)]
  · rfl

/-! ## Lemmas: the shift of dequeue -/

theorem shift_left_get {α : Type} (r : Nat) :
    ∀ (idx : Nat) (arr : List (Option α)), 1 ≤ idx → idx + r ≤ arr.length →
      ∃ arr', shift_left r idx arr = some arr' ∧ arr'.length = arr.length ∧
        ∀ i : Nat, arr'[i]? = if idx - 1 ≤ i ∧ i < idx - 1 + r then arr[i + 1]? else arr[i]? := by
  induction r with
  | zero =>
    intro idx arr _ _
    refine ⟨arr, rfl, rfl, ?_⟩
    intro i
    have : ¬ (idx - 1 ≤ i ∧ i < idx - 1 + 0) := by omega
    rw [if_neg this]
  | succ r ih =>
    intro idx arr h1 h2
    have hidx : idx < arr.length := by omega
    obtain ⟨arr', he, hl, hg⟩ := ih (idx + 1) (arr.set (idx - 1) arr[idx]) (by omega)
      (by simp; omega)
    refine ⟨arr', ?_, by simpa using hl, ?_⟩
    · simp only [shift_left, List.getElem?_eq_getElem hidx]
      exact he
    · intro i
      rw [hg i]
      by_cases c1 : idx + 1 - 1 ≤ i ∧ i < idx + 1 - 1 + r
      · have c2 : idx - 1 ≤ i ∧ i < idx - 1 + (r + 1) := by omega
        rw [if_pos c1, if_pos c2, List.getElem?_set_ne (by omega)]
      · rw [if_neg c1]
        by_cases c3 : i = idx - 1
        · have c2 : idx - 1 ≤ i ∧ i < idx - 1 + (r + 1) := by omega
          rw [if_pos c2, c3, List.getElem?_set_self (by omega)]
          have : idx - 1 + 1 = idx := by omega
          rw [this, List.getElem?_eq_getElem hidx]
        · have c2 : ¬ (idx - 1 ≤ i ∧ i < idx - 1 + (r + 1)) := by omega
          rw [if_neg c2, List.getElem?_set_ne (by omega)]

/-- The slot array after the shift and the clearing of the last resident slot
of a dequeue with `n` resident slots. -/
theorem dequeue_slots {α : Type} (n : Nat) (arr : List (Option α)) (x : Option α)
    (rest : List (Option α)) (hn : n ≤ arr.length) (hres : arr.take n = x :: rest) :
    arr[0]? = some x ∧
    ∃ arr1, shift_left (n - 1) 1 arr = some arr1 ∧ n - 1 < arr1.length ∧
      arr1.set (n - 1) none = rest ++ none :: arr.drop n := by
  have hlen : (arr.take n).length = rest.length + 1 := by rw [hres]; rfl
  rw [List.length_take, Nat.min_eq_left hn] at hlen
  have h0 : arr[0]? = some x := by
    have := congrArg (fun l => l[0]?) hres
    simpa [List.getElem?_take, show 0 < n by omega] using this
  obtain ⟨arr1, he, hl, hg⟩ := shift_left_get (n - 1) 1 arr (Nat.le_refl 1) (by omega)
  refine ⟨h0, arr1, he, by omega, ?_⟩
  apply List.ext_getElem?
  intro i
  have hrest : ∀ j : Nat, j < n - 1 → rest[j]? = arr[j + 1]? := by
    intro j hj
    have := congrArg (fun l => l[j + 1]?) hres
    simp only [List.getElem?_take, List.getElem?_cons_succ] at this
    rw [← this, if_pos (by omega)]
  by_cases c1 : i < n - 1
  · rw [List.getElem?_set_ne (by omega), hg i, if_pos (by omega),
      List.getElem?_append_left (by omega), hrest i c1]
  · by_cases c2 : i = n - 1
    · subst c2
      rw [List.getElem?_set_self (by omega), List.getElem?_append_right (by omega)]
      have : n - 1 - rest.length = 0 := by omega
      rw [this]
      simp
    · rw [List.getElem?_set_ne (by omega), hg i, if_neg (by omega),
        List.getElem?_append_right (by omega)]
      have : i - rest.length = (i - n) + 1 := by omega
      rw [this, List.getElem?_cons_succ, List.getElem?_drop]
      congr 1
      omega

/-! ## Lemmas: queue -/

/-- One `queue_dequeue` on a queue whose resident slots are `x :: rest`. -/
theorem queue_dequeue_eq (q : queue_t) (slots : List (Option queue_node_t))
    (x : Option queue_node_t) (rest : List (Option queue_node_t))
    (hq : q.arr = some slots) (hle : q.currentsz ≤ slots.length)
    (hres : slots.take q.currentsz = x :: rest) :
    queue_dequeue (some q) =
      some (x, some { q with arr := some (rest ++ none :: slots.drop q.currentsz),
                             currentsz := q.currentsz - 1 }) := by
  obtain ⟨h0, arr1, he, hlt, hset⟩ := dequeue_slots q.currentsz slots x rest hle hres
  have hne : ¬ (0 = q.currentsz) := by
    intro hz
    rw [← hz] at hres
    simp at hres
  simp [queue_dequeue, queue_emptycheck, check_t.nonzero, hne, hq, h0, he, hlt, hset]

/-- One `queue_enqueue` on a queue that is not full. -/
theorem queue_enqueue_eq (q : queue_t) (slots : List (Option queue_node_t)) (d : Nat)
    (hq : q.arr = some slots) (hlen : slots.length = q.capacity)
    (hnf : q.currentsz < q.capacity) :
    queue_enqueue true (some q) (some d) =
      some (status_t.SUCCESS,
        some { q with arr := some (slots.set q.currentsz (some ⟨d⟩)),
                      currentsz := q.currentsz + 1 }) ∧
    (slots.set q.currentsz (some ⟨d⟩)).take (q.currentsz + 1) =
      slots.take q.currentsz ++ [some ⟨d⟩] := by
  have hnf' : ¬ (q.currentsz ≥ q.capacity) := by omega
  have hlt : q.currentsz < slots.length := by omega
  refine ⟨by simp [queue_enqueue, queue_fullcheck, check_t.nonzero, hnf', hq, hlt], ?_⟩
  rw [List.take_succ, take_set_of_le _ _ _ _ (Nat.le_refl _), List.getElem?_set_self hlt]
  rfl

theorem queue_enqueue_all_eq (ps : List Nat) :
    ∀ (q : queue_t) (slots : List (Option queue_node_t)),
      q.arr = some slots → slots.length = q.capacity →
      q.currentsz + ps.length ≤ q.capacity →
      ∃ slots' : List (Option queue_node_t),
        queue_enqueue_all q ps =
          some { q with arr := some slots', currentsz := q.currentsz + ps.length } ∧
        slots'.length = q.capacity ∧
        slots'.take (q.currentsz + ps.length) =
          slots.take q.currentsz ++ ps.map (fun d => some ⟨d⟩) := by
  induction ps with
  | nil =>
    intro q slots hq hlen _
    refine ⟨slots, ?_, hlen, by simp⟩
    simp only [queue_enqueue_all, List.length_nil, Nat.add_zero]
    rw [← hq]
  | cons d rest ih =>
    intro q slots hq hlen hroom
    simp only [List.length_cons] at hroom
    obtain ⟨he, htake⟩ := queue_enqueue_eq q slots d hq hlen (by omega)
    obtain ⟨slots', hall, hlen', htake'⟩ := ih
      { q with arr := some (slots.set q.currentsz (some ⟨d⟩)), currentsz := q.currentsz + 1 }
      (slots.set q.currentsz (some ⟨d⟩)) rfl (by simpa using hlen) (by simp; omega)
    refine ⟨slots', ?_, hlen', ?_⟩
    · simp only [queue_enqueue_all, he, hall, List.length_cons]
      simp only [Nat.add_assoc, Nat.add_comm 1]
    · simp only at htake'
      simp only [List.length_cons, List.map_cons]
      rw [show q.currentsz + (rest.length + 1) = q.currentsz + 1 + rest.length by omega,
        htake', htake]
      simp

theorem queue_dequeue_n_eq (xs : List Nat) :
    ∀ (q : queue_t) (slots : List (Option queue_node_t)),
      q.arr = some slots → q.currentsz ≤ slots.length →
      slots.take q.currentsz = xs.map (fun d => some ⟨d⟩) →
      ∃ slots' : List (Option queue_node_t),
        queue_dequeue_n xs.length q =
          some (xs.map (fun d => some ⟨d⟩), { q with arr := some slots', currentsz := 0 }) ∧
        slots'.length = slots.length := by
  induction xs with
  | nil =>
    intro q slots hq hle hres
    have hz : q.currentsz = 0 := by
      have := congrArg List.length hres
      simp only [List.length_take, List.map_nil, List.length_nil] at this
      omega
    refine ⟨slots, ?_, rfl⟩
    simp only [queue_dequeue_n, List.length_nil, List.map_nil]
    rw [← hq, ← hz]
  | cons x rest ih =>
    intro q slots hq hle hres
    have hn : q.currentsz = rest.length + 1 := by
      have := congrArg List.length hres
      simp only [List.length_take, List.map_cons, List.length_cons, List.length_map] at this
      omega
    have hd := queue_dequeue_eq q slots (some ⟨x⟩) (rest.map (fun d => some ⟨d⟩)) hq hle
      (by simpa using hres)
    obtain ⟨slots', hall, hlen'⟩ := ih
      { q with arr := some (rest.map (fun d => some ⟨d⟩) ++ none :: slots.drop q.currentsz),
               currentsz := q.currentsz - 1 }
      (rest.map (fun d => some ⟨d⟩) ++ none :: slots.drop q.currentsz) rfl
      (by simp; omega) (by simp [hn])
    refine ⟨slots', ?_, ?_⟩
    · simp only [queue_dequeue_n, List.length_cons, hd, hall, List.map_cons]
    · rw [hlen']
      simp
      omega

/-! ## Lemmas: priority queue -/

theorem pq_insert_cons (x y : queue_p_node_t) (l : List queue_p_node_t) :
    pq_insert x (y :: l) =
      if y.priority ≥ x.priority then y :: pq_insert x l else x :: y :: l := by
  unfold pq_insert
  by_cases h : y.priority ≥ x.priority
  · simp [h]
  · simp [h]

theorem pq_insert_of_all_ge (x : queue_p_node_t) (l : List queue_p_node_t)
    (h : ∀ y ∈ l, y.priority ≥ x.priority) : pq_insert x l = l ++ [x] := by
  induction l with
  | nil => rfl
  | cons y ys ih =>
    rw [pq_insert_cons, if_pos (h y (List.mem_cons_self y ys)),
      ih (fun z hz => h z (List.mem_cons_of_mem y hz))]
    rfl

theorem pq_insert_concat_lt (x b : queue_p_node_t) (l : List queue_p_node_t)
    (h : ¬ b.priority ≥ x.priority) : pq_insert x (l ++ [b]) = pq_insert x l ++ [b] := by
  induction l with
  | nil =>
    show pq_insert x [b] = pq_insert x [] ++ [b]
    rw [pq_insert_cons, if_neg h]
    rfl
  | cons y ys ih =>
    show pq_insert x (y :: (ys ++ [b])) = pq_insert x (y :: ys) ++ [b]
    rw [pq_insert_cons, pq_insert_cons]
    by_cases hy : y.priority ≥ x.priority
    · rw [if_pos hy, if_pos hy, ih]
      rfl
    · rw [if_neg hy, if_neg hy]
      rfl

theorem pq_insert_descending (x : queue_p_node_t) (l : List queue_p_node_t)
    (hs : l.Pairwise (fun a b => a.priority ≥ b.priority)) :
    (pq_insert x l).Pairwise (fun a b => a.priority ≥ b.priority) ∧
    ∀ z ∈ pq_insert x l, z = x ∨ z ∈ l := by
  induction l with
  | nil =>
    refine ⟨by simp [pq_insert], ?_⟩
    intro z hz
    simp [pq_insert] at hz
    exact Or.inl hz
  | cons y ys ih =>
    obtain ⟨hy, hys⟩ := List.pairwise_cons.mp hs
    obtain ⟨ih1, ih2⟩ := ih hys
    rw [pq_insert_cons]
    by_cases h : y.priority ≥ x.priority
    · rw [if_pos h]
      refine ⟨List.pairwise_cons.mpr ⟨?_, ih1⟩, ?_⟩
      · intro z hz
        rcases ih2 z hz with rfl | hm
        · exact h
        · exact hy z hm
      · intro z hz
        rcases List.mem_cons.mp hz with rfl | hm
        · exact Or.inr (List.mem_cons_self _ _)
        · rcases ih2 z hm with rfl | hm'
          · exact Or.inl rfl
          · exact Or.inr (List.mem_cons_of_mem _ hm')
    · rw [if_neg h]
      refine ⟨List.pairwise_cons.mpr ⟨?_, hs⟩, ?_⟩
      · intro z hz
        rcases List.mem_cons.mp hz with rfl | hm
        · omega
        · have := hy z hm
          omega
      · intro z hz
        rcases List.mem_cons.mp hz with rfl | hm
        · exact Or.inl rfl
        · exact Or.inr hm

theorem pq_insert_filter (x : queue_p_node_t) (l : List queue_p_node_t) (p : Int)
    (hs : l.Pairwise (fun a b => a.priority ≥ b.priority)) :
    (pq_insert x l).filter (fun a => decide (a.priority = p)) =
      l.filter (fun a => decide (a.priority = p)) ++
        [x].filter (fun a => decide (a.priority = p)) := by
  induction l with
  | nil => rfl
  | cons y ys ih =>
    obtain ⟨hy, hys⟩ := List.pairwise_cons.mp hs
    rw [pq_insert_cons]
    by_cases h : y.priority ≥ x.priority
    · rw [if_pos h, List.filter_cons, ih hys]
      by_cases hyp : y.priority = p
      · simp [List.filter_cons, hyp]
      · simp [List.filter_cons, hyp]
    · rw [if_neg h]
      by_cases hx : x.priority = p
      · have hnone : (y :: ys).filter (fun a => decide (a.priority = p)) = [] := by
          rw [List.filter_eq_nil_iff]
          intro z hz
          have hzle : z.priority ≤ y.priority := by
            rcases List.mem_cons.mp hz with rfl | hm
            · exact Int.le_refl _
            · exact hy z hm
          simp only [decide_eq_true_eq]
          omega
        rw [hnone, List.filter_cons, hnone]
        simp [hx]
      · simp [List.filter_cons, hx]

/-- The `for` loop of `queue_p_enqueue` on resident nodes `pre` in
non-increasing priority order followed by the new node `x`. -/
theorem sort_pass_insert (pre : List queue_p_node_t) :
    ∀ (x : queue_p_node_t) (rest : List (Option queue_p_node_t)),
      pre.Pairwise (fun a b => a.priority ≥ b.priority) →
      sort_pass pre.length ((pre ++ [x]).map some ++ rest) =
        some ((pq_insert x pre).map some ++ rest) := by
  induction pre using List.reverseRecOn with
  | nil =>
    intro x rest _
    rfl
  | append_singleton pre' b ih =>
    intro x rest hs
    obtain ⟨hs', _, hb⟩ := List.pairwise_append.mp hs
    have hge : ∀ y ∈ pre', y.priority ≥ b.priority :=
      fun y hy => hb y hy b (List.mem_singleton_self b)
    have harr : ((pre' ++ [b]) ++ [x]).map some ++ rest =
        pre'.map some ++ (some b :: some x :: rest) := by simp
    have hlen : (pre' ++ [b]).length = (pre'.map some).length + 1 := by simp
    have hup : (pre'.map some ++ (some b :: some x :: rest))[(pre'.map some).length + 1]? =
        some (some x) := by
      rw [List.getElem?_append_right (by omega)]
      simp
    have hlo : (pre'.map some ++ (some b :: some x :: rest))[(pre'.map some).length]? =
        some (some b) := by
      rw [List.getElem?_append_right (by omega)]
      simp
    rw [harr, hlen]
    simp only [sort_pass, hup, hlo]
    by_cases hx : x.priority > b.priority
    · rw [if_pos hx, List.set_append_right _ _ (by omega), List.set_append_right _ _ (by omega)]
      have e1 : (pre'.map some).length + 1 - (pre'.map some).length = 1 := by omega
      have e2 : (pre'.map some).length - (pre'.map some).length = 0 := by omega
      rw [e1, e2]
      simp only [List.set_cons_succ, List.set_cons_zero]
      have h1 := ih x (some b :: rest) hs'
      have e3 : (pre' ++ [x]).map some ++ some b :: rest =
          pre'.map some ++ some x :: some b :: rest := by simp
      rw [e3] at h1
      rw [List.length_map, h1, pq_insert_concat_lt x b pre' (by omega)]
      simp
    · rw [if_neg hx]
      have h1 := ih b (some x :: rest) hs'
      have e3 : (pre' ++ [b]).map some ++ some x :: rest =
          pre'.map some ++ some b :: some x :: rest := by simp
      rw [e3] at h1
      rw [List.length_map, h1, pq_insert_of_all_ge b pre' hge,
        pq_insert_of_all_ge x (pre' ++ [b])]
      · simp
      · intro y hy
        rcases List.mem_append.mp hy with hm | hm
        · have := hge y hm
          omega
        · rw [List.mem_singleton.mp hm]
          omega

/-! ## Lemmas: search in the list -/

/-- One `list_push_head` on a well-formed list. -/
theorem list_push_head_wf (h : heap_t) (l : list_t) (addrs : List Nat) (d : Nat)
    (wf : list_wf h l addrs) :
    ∃ (h1 : heap_t) (l1 : list_t),
      list_push_head true h (some l) d = some (status_t.SUCCESS, h1, some l1) ∧
      list_wf h1 l1 (h.length :: addrs) ∧
      chain_data h1 (h.length :: addrs) = d :: chain_data h addrs ∧
      h1.length = h.length + 1 ∧
      (∀ a : Nat, a ∉ addrs → a < h.length → h1[a]? = h[a]?) := by
  have wf' := wf
  obtain ⟨hc, hs, ht, hp⟩ := wf'
  have hlt := is_chain_lt h addrs l.head hc
  have hlen := is_chain_length_le h addrs l.head hc
  have hnd := is_chain_nodup h addrs l.head hc
  have hnew : h.length ∉ addrs := fun hm => Nat.lt_irrefl _ (hlt _ hm)
  have hc1 : is_chain (h ++ [some ⟨0, d, l.head⟩]) l.head addrs = true :=
    is_chain_append h _ addrs l.head hc
  have hren : renumber (h.length + 1) (h ++ [some ⟨0, d, l.head⟩])
      l.head 1 = some (set_positions (h ++ [some ⟨0, d, l.head⟩]) addrs 1) :=
    renumber_eq addrs _ _ _ _ hc1 (by omega)
  have hrnew : heap_read (set_positions (h ++ [some ⟨0, d, l.head⟩]) addrs 1) h.length =
      some ⟨0, d, l.head⟩ := by
    rw [set_positions_read_of_not_mem addrs _ _ _ hnew, heap_read_append_new]
  have hc2 : is_chain (set_positions (h ++ [some ⟨0, d, l.head⟩]) addrs 1) l.head addrs
      = true := set_positions_is_chain addrs addrs _ 1 _ hc1
  have hvalid : ∀ a ∈ addrs, ∃ n, heap_read (h ++ [some ⟨0, d, l.head⟩]) a = some n :=
    is_chain_valid _ addrs l.head hc1
  refine ⟨set_positions (h ++ [some ⟨0, d, l.head⟩]) addrs 1,
    { l with head := some h.length, size := l.size + 1,
             tail := if l.tail = none then some h.length else l.tail }, ?_, ?_, ?_, ?_, ?_⟩
  · simp only [list_push_head, if_true]
    by_cases htl : l.tail = none <;> simp [htl, hren]
  · refine ⟨?_, by simp [hs], ?_, ?_⟩
    · rw [is_chain_cons]
      exact ⟨rfl, _, hrnew, hc2⟩
    · cases addrs with
      | nil => simp [ht]
      | cons a rest =>
        have : l.tail ≠ none := by
          rw [ht, List.getLast?_eq_getLast _ (by simp)]
          simp
        simp only [this, if_false]
        rw [ht]
        simp [List.getLast?_cons_cons]
    · simp only [has_positions, hrnew, decide_True, Bool.true_and]
      exact set_positions_has_positions addrs _ 1 hnd hvalid
  · simp only [chain_data, List.filterMap_cons, hrnew, Option.map_some']
    have := set_positions_chain_data addrs addrs (h ++ [some ⟨0, d, l.head⟩]) 1
    simp only [chain_data] at this
    rw [this]
    have h2 := chain_data_append h [some ⟨0, d, l.head⟩] addrs hlt
    simp only [chain_data] at h2
    rw [h2]
  · rw [set_positions_length]
    simp
  · intro a ha hal
    rw [set_positions_getElem_of_not_mem addrs _ _ _ ha]
    exact List.getElem?_append_left hal

/-- The loop of `list_find_all_occurrences` over the source chain `src`, with
the result list well-formed over `naddrs` and apart from the source. -/
theorem find_all_loop_eq (deref : Nat → Option Int) (item : Int) (malloc_ok : Nat → Bool)
    (hmem : ∀ k, malloc_ok k = true) (src : List Nat) :
    ∀ (fuel : Nat) (h : heap_t) (nl : list_t) (naddrs : List Nat) (p : Option Nat)
      (k : Nat),
      is_chain h p src = true →
      (∀ d ∈ chain_data h src, ∃ v, deref d = some v) →
      list_wf h nl naddrs → (∀ a ∈ src, a ∉ naddrs) → src.length ≤ fuel →
      ∃ (h' : heap_t) (nl' : list_t) (naddrs' : List Nat),
        find_all_loop deref item malloc_ok fuel h (some nl) p status_t.SUCCESS k =
          some (h', some nl', status_t.SUCCESS) ∧
        list_wf h' nl' naddrs' ∧
        chain_data h' naddrs' =
          ((chain_data h src).filter (fun d => decide (deref d = some item))).reverse ++
            chain_data h naddrs ∧
        (∀ a : Nat, a ∉ naddrs → a < h.length → h'[a]? = h[a]?) ∧
        h.length ≤ h'.length ∧
        (∀ a ∈ naddrs', a ∈ naddrs ∨ h.length ≤ a) := by
  induction src with
  | nil =>
    intro fuel h nl naddrs p k hc _ wf _ _
    rw [is_chain_nil] at hc
    subst hc
    refine ⟨h, nl, naddrs, ?_, wf, by simp [chain_data], fun _ _ _ => rfl, Nat.le_refl _,
      fun a ha => Or.inl ha⟩
    cases fuel <;> simp [find_all_loop]
  | cons a rest ih =>
    intro fuel h nl naddrs p k hc hd wf hdis hf
    have hnd := is_chain_nodup h _ p hc
    obtain ⟨ha_rest, _⟩ := List.nodup_cons.mp hnd
    have hlt := is_chain_lt h _ p hc
    rw [is_chain_cons] at hc
    obtain ⟨hp, n, hn, hrest⟩ := hc
    subst hp
    have hcd : chain_data h (a :: rest) = n.data :: chain_data h rest := by
      simp [chain_data, hn]
    rw [hcd] at hd
    obtain ⟨v, hv⟩ := hd n.data (List.mem_cons_self _ _)
    cases fuel with
    | zero => simp at hf
    | succ f =>
      simp only [List.length_cons, Nat.add_le_add_iff_right] at hf
      have hdis' : ∀ x ∈ rest, x ∉ naddrs := fun x hx => hdis x (List.mem_cons_of_mem a hx)
      by_cases hm : v - item = 0
      · have hveq : v = item := by omega
        obtain ⟨h1, nl1, hpush, wf1, hcd1, hlen1, hfr1⟩ :=
          list_push_head_wf h nl naddrs n.data wf
        have ha1 : heap_read h1 a = some n := by
          rw [heap_read_congr h h1 a (hfr1 a (hdis a (List.mem_cons_self _ _))
            (hlt a (List.mem_cons_self _ _)))]
          exact hn
        have hag : ∀ x ∈ rest, heap_read h1 x = heap_read h x := fun x hx =>
          heap_read_congr h h1 x (hfr1 x (hdis' x hx) (hlt x (List.mem_cons_of_mem a hx)))
        have hrest1 : is_chain h1 n.next rest = true := by
          apply is_chain_congr h h1 rest _ _ hrest
          intro x hx m hm'
          exact ⟨m, by rw [hag x hx]; exact hm', rfl⟩
        have hcdr : chain_data h1 rest = chain_data h rest := by
          apply chain_data_congr
          intro x hx
          rw [hag x hx]
        have hdis1 : ∀ x ∈ rest, x ∉ h.length :: naddrs := by
          intro x hx hmem'
          rcases List.mem_cons.mp hmem' with he | hm'
          · have := hlt x (List.mem_cons_of_mem a hx)
            omega
          · exact hdis' x hx hm'
        obtain ⟨h', nl', naddrs', hloop, wf', hcd', hfr', hle', hnew'⟩ :=
          ih f h1 nl1 (h.length :: naddrs) n.next (k + 1) hrest1
            (by rw [hcdr]; exact fun d hd' => hd d (List.mem_cons_of_mem _ hd'))
            wf1 hdis1 hf
        refine ⟨h', nl', naddrs', ?_, wf', ?_, ?_, by omega, ?_⟩
        · simp only [find_all_loop, if_true, hn, hv, hm, hmem, hpush, ha1]
          exact hloop
        · rw [hcd', hcdr, hcd1, hcd]
          simp [List.filter_cons, hv, hveq]
        · intro x hx hxl
          rw [hfr' x (by
            intro hmem'
            rcases List.mem_cons.mp hmem' with he | hm'
            · omega
            · exact hx hm') (by omega)]
          exact hfr1 x hx hxl
        · intro x hx
          rcases hnew' x hx with hm' | hge
          · rcases List.mem_cons.mp hm' with he | hm''
            · exact Or.inr (by omega)
            · exact Or.inl hm''
          · exact Or.inr (by omega)
      · have hvne : v ≠ item := by omega
        obtain ⟨h', nl', naddrs', hloop, wf', hcd', hfr', hle', hnew'⟩ :=
          ih f h nl naddrs n.next k hrest
            (fun d hd' => hd d (List.mem_cons_of_mem _ hd')) wf hdis' hf
        refine ⟨h', nl', naddrs', ?_, wf', ?_, hfr', hle', hnew'⟩
        · simp only [find_all_loop, if_true, hn, hv, hm, if_false]
          exact hloop
        · rw [hcd', hcd]
          simp [List.filter_cons, hv, hvne]

/-! ## Lemmas: one sweep of the sort on the payload sequence -/

theorem bubble_zero (ds : List Nat) : bubble 0 ds = (ds, false) := by
  unfold bubble
  rfl

theorem bubble_succ_cons (m x y : Nat) (rest : List Nat) :
    bubble (m + 1) (x :: y :: rest) =
      if x > y then (y :: (bubble m (x :: rest)).1, true)
      else (x :: (bubble m (y :: rest)).1, (bubble m (y :: rest)).2) := by
  rw [bubble]

theorem bubble_short (m : Nat) (ds : List Nat) (h : ds.length < 2) :
    bubble m ds = (ds, false) := by
  match ds, h with
  | [], _ => cases m <;> simp [bubble]
  | [x], _ => cases m <;> simp [bubble]

/-- After a sweep with `m` comparisons the greatest of the first `m + 1`
payloads stands at index `m`; the payloads behind it are untouched. -/
theorem bubble_max (m : Nat) :
    ∀ ds : List Nat, m < ds.length →
      ∃ (pre : List Nat) (mx : Nat),
        (bubble m ds).1 = pre ++ mx :: ds.drop (m + 1) ∧ pre.length = m ∧
        (pre ++ [mx]).Perm (ds.take (m + 1)) ∧ ∀ x ∈ pre, x ≤ mx := by
  induction m with
  | zero =>
    intro ds hlen
    match ds, hlen with
    | x :: tl, _ =>
      exact ⟨[], x, by simp [bubble_zero], rfl, by simp, by simp⟩
  | succ m ih =>
    intro ds hlen
    match ds, hlen with
    | [x], hl => simp at hl
    | x :: y :: rest, hl =>
      simp only [List.length_cons] at hl
      rw [bubble_succ_cons]
      by_cases hxy : x > y
      · obtain ⟨pre, mx, he, hpl, hperm, hle⟩ := ih (x :: rest) (by simp; omega)
        refine ⟨y :: pre, mx, ?_, by simp [hpl], ?_, ?_⟩
        · simp only [if_pos hxy, he]
          simp
        · have h1 : (y :: pre ++ [mx]).Perm (y :: (x :: rest).take (m + 1)) :=
            List.Perm.cons y hperm
          refine h1.trans ?_
          simp only [List.take_succ_cons]
          exact List.Perm.swap x y _
        · intro z hz
          have hxmem : x ∈ pre ++ [mx] := by
            apply hperm.symm.subset
            simp [List.take_succ_cons]
          have hxle : x ≤ mx := by
            rcases List.mem_append.mp hxmem with hm | hm
            · exact hle x hm
            · rw [List.mem_singleton.mp hm]
          rcases List.mem_cons.mp hz with rfl | hm
          · omega
          · exact hle z hm
      · obtain ⟨pre, mx, he, hpl, hperm, hle⟩ := ih (y :: rest) (by simp; omega)
        refine ⟨x :: pre, mx, ?_, by simp [hpl], ?_, ?_⟩
        · simp only [if_neg hxy, he]
          simp
        · have h1 : (x :: pre ++ [mx]).Perm (x :: (y :: rest).take (m + 1)) :=
            List.Perm.cons x hperm
          refine h1.trans ?_
          simp only [List.take_succ_cons]
          exact List.Perm.refl _
        · intro z hz
          have hymem : y ∈ pre ++ [mx] := by
            apply hperm.symm.subset
            simp [List.take_succ_cons]
          have hyle : y ≤ mx := by
            rcases List.mem_append.mp hymem with hm | hm
            · exact hle y hm
            · rw [List.mem_singleton.mp hm]
          rcases List.mem_cons.mp hz with rfl | hm
          · omega
          · exact hle z hm

/-- A sweep that makes no swap leaves the payloads as they are, and the
payloads it has compared are in non-decreasing order. -/
theorem bubble_no_swap (m : Nat) :
    ∀ ds : List Nat, (bubble m ds).2 = false →
      (bubble m ds).1 = ds ∧ (ds.take (m + 1)).Pairwise (fun a b => a ≤ b) := by
  induction m with
  | zero =>
    intro ds _
    refine ⟨by rw [bubble_zero], ?_⟩
    cases ds with
    | nil => simp
    | cons x tl => simp
  | succ m ih =>
    intro ds hf
    match ds with
    | [] => exact ⟨by rw [bubble_short _ _ (by simp)], by simp⟩
    | [x] => exact ⟨by rw [bubble_short _ _ (by simp)], by simp⟩
    | x :: y :: rest =>
      rw [bubble_succ_cons] at hf ⊢
      by_cases hxy : x > y
      · simp [if_pos hxy] at hf
      · simp only [if_neg hxy] at hf ⊢
        obtain ⟨he, hp⟩ := ih (y :: rest) hf
        refine ⟨by rw [he], ?_⟩
        simp only [List.take_succ_cons] at hp ⊢
        refine List.pairwise_cons.mpr ⟨?_, hp⟩
        intro z hz
        rcases List.mem_cons.mp hz with rfl | hm
        · omega
        · have := (List.pairwise_cons.mp hp).1 z hm
          omega

theorem bubble_flag_zero (ds : List Nat) : (bubble 0 ds).2 = false := by
  rw [bubble_zero]

/-! ## Lemmas: the sort on the node storage -/

theorem same_links_refl (h : heap_t) : same_links h h := ⟨rfl, fun _ => rfl⟩

theorem same_links_trans (h1 h2 h3 : heap_t) (h12 : same_links h1 h2)
    (h23 : same_links h2 h3) : same_links h1 h3 :=
  ⟨h23.1.trans h12.1, fun a => (h23.2 a).trans (h12.2 a)⟩

theorem same_links_write_data (h : heap_t) (a : Nat) (n : list_node_t) (d : Nat)
    (hn : heap_read h a = some n) : same_links h (heap_write h a { n with data := d }) := by
  refine ⟨heap_write_length _ _ _, ?_⟩
  intro b
  by_cases hab : a = b
  · subst hab
    rw [heap_read_write_same _ _ _ (heap_read_lt h a n hn), hn]
    rfl
  · rw [heap_read_write_ne _ _ _ _ hab]

theorem same_links_read (h h' : heap_t) (hl : same_links h h') (a : Nat) (n : list_node_t)
    (hn : heap_read h a = some n) :
    ∃ n', heap_read h' a = some n' ∧ n'.position = n.position ∧ n'.next = n.next := by
  have hs := hl.2 a
  rw [hn] at hs
  cases hr' : heap_read h' a with
  | none => simp [hr'] at hs
  | some n' =>
    simp only [hr', Option.map_some', Option.some.injEq, Prod.mk.injEq] at hs
    exact ⟨n', rfl, hs.1, hs.2⟩

theorem same_links_is_chain (h h' : heap_t) (hl : same_links h h') (xs : List Nat)
    (p : Option Nat) (hc : is_chain h p xs = true) : is_chain h' p xs = true := by
  apply is_chain_congr h h' xs p _ hc
  intro a _ n hn
  obtain ⟨n', hn', _, hnext⟩ := same_links_read h h' hl a n hn
  exact ⟨n', hn', hnext⟩

theorem same_links_has_positions (h h' : heap_t) (hl : same_links h h') (xs : List Nat)
    (pos : Nat) (hp : has_positions h xs pos = true) : has_positions h' xs pos = true := by
  apply has_positions_congr h h' xs pos _ hp
  intro a _ n hn
  obtain ⟨n', hn', hpos, _⟩ := same_links_read h h' hl a n hn
  exact ⟨n', hn', hpos⟩

theorem is_chain_head (h : heap_t) (xs : List Nat) (p : Option Nat)
    (hc : is_chain h p xs = true) : p = xs[0]? := by
  cases xs with
  | nil => rw [is_chain_nil] at hc; simp [hc]
  | cons a rest => rw [is_chain_cons] at hc; simp [hc.1]

/-- One sweep of `list_sort` with `m` comparisons from the node `c`, whose
chain is `c :: rest`, up to the node behind which `last_sorted` stands. -/
theorem sort_sweep_eq (m : Nat) :
    ∀ (fuel : Nat) (h : heap_t) (c : Nat) (rest : List Nat) (sw : Bool),
      is_chain h (some c) (c :: rest) = true → m ≤ rest.length → m + 1 ≤ fuel →
      ∃ (h' : heap_t) (cur : Nat),
        sort_sweep fuel h c ((c :: rest)[m + 1]?) sw =
          some (h', cur, sw || (bubble m (chain_data h (c :: rest))).2) ∧
        (c :: rest)[m]? = some cur ∧
        chain_data h' (c :: rest) = (bubble m (chain_data h (c :: rest))).1 ∧
        same_links h h' ∧ ∀ a : Nat, a ∉ c :: rest → h'[a]? = h[a]? := by
  induction m with
  | zero =>
    intro fuel h c rest sw hc _ hf
    have hc' := hc
    rw [is_chain_cons] at hc'
    obtain ⟨_, cn, hcn, hrest⟩ := hc'
    have hnext : cn.next = (c :: rest)[0 + 1]? := by
      rw [is_chain_head h rest cn.next hrest]
      simp
    cases fuel with
    | zero => omega
    | succ f =>
      refine ⟨h, c, ?_, by simp, by rw [bubble_zero], same_links_refl h, fun _ _ => rfl⟩
      simp only [sort_sweep, hcn, hnext, if_true, bubble_zero, Bool.or_false]
  | succ m ih =>
    intro fuel h c rest sw hc hm hf
    match rest, hm with
    | nx :: rest', hm =>
      simp only [List.length_cons, Nat.add_le_add_iff_right] at hm
      have hnd := is_chain_nodup h _ _ hc
      obtain ⟨hc_nm, hnd'⟩ := List.nodup_cons.mp hnd
      obtain ⟨hnx_nm, _⟩ := List.nodup_cons.mp hnd'
      have hcnx : c ≠ nx := fun hh => hc_nm (hh ▸ List.mem_cons_self _ _)
      have hc_rest : c ∉ rest' := fun hh => hc_nm (List.mem_cons_of_mem _ hh)
      have hc' := hc
      rw [is_chain_cons] at hc'
      obtain ⟨_, cn, hcn, hrest⟩ := hc'
      have hrest' := hrest
      rw [is_chain_cons] at hrest'
      obtain ⟨hnext, nn, hnn, hrest2⟩ := hrest'
      obtain ⟨cpos, cdata, cnext⟩ := cn
      simp only at hnext
      subst hnext
      have hlast : (c :: nx :: rest')[m + 1 + 1]? = rest'[m]? := by simp
      have hlast' : (nx :: rest')[m + 1]? = rest'[m]? := by simp
      have hne : ¬ (some nx = rest'[m]?) := by
        intro heq
        exact hnx_nm (List.getElem?_mem heq.symm)
      have hcd : chain_data h (c :: nx :: rest') = cdata :: nn.data :: chain_data h rest' := by
        simp [chain_data, hcn, hnn]
      cases fuel with
      | zero => omega
      | succ f =>
        simp only [Nat.add_le_add_iff_right] at hf
        rw [hlast, hcd, bubble_succ_cons]
        simp only [sort_sweep, hcn, hne, if_false, hnn]
        by_cases hgt : cdata > nn.data
        · simp only [if_pos hgt, Bool.or_true]
          have hlc : c < h.length := heap_read_lt h c _ hcn
          have hlnx : nx < h.length := heap_read_lt h nx nn hnn
          have hr1c : heap_read (heap_write (heap_write h c ⟨cpos, nn.data, some nx⟩) nx
              { nn with data := cdata }) c = some ⟨cpos, nn.data, some nx⟩ := by
            rw [heap_read_write_ne _ _ _ _ (Ne.symm hcnx), heap_read_write_same _ _ _ hlc]
          have hr1nx : heap_read (heap_write (heap_write h c ⟨cpos, nn.data, some nx⟩) nx
              { nn with data := cdata }) nx = some { nn with data := cdata } := by
            rw [heap_read_write_same _ _ _ (by rw [heap_write_length]; exact hlnx)]
          have hr1o : ∀ a : Nat, a ≠ c → a ≠ nx →
              (heap_write (heap_write h c ⟨cpos, nn.data, some nx⟩) nx
                { nn with data := cdata })[a]? = h[a]? := by
            intro a hac hanx
            simp [heap_write, List.getElem?_set, Ne.symm hac, Ne.symm hanx]
          have hsl1 : same_links h (heap_write (heap_write h c ⟨cpos, nn.data, some nx⟩) nx
              { nn with data := cdata }) := by
            apply same_links_trans _ _ _ (same_links_write_data h c ⟨cpos, cdata, some nx⟩ nn.data hcn)
            apply same_links_write_data
            rw [heap_read_write_ne _ _ _ _ hcnx]
            exact hnn
          have hc1 : is_chain (heap_write (heap_write h c ⟨cpos, nn.data, some nx⟩) nx
              { nn with data := cdata }) (some nx) (nx :: rest') = true :=
            same_links_is_chain _ _ hsl1 _ _ hrest
          have hcd1 : chain_data (heap_write (heap_write h c ⟨cpos, nn.data, some nx⟩) nx
              { nn with data := cdata }) (nx :: rest') = cdata :: chain_data h rest' := by
            have hr : chain_data (heap_write (heap_write h c ⟨cpos, nn.data, some nx⟩) nx
                { nn with data := cdata }) rest' = chain_data h rest' := by
              apply chain_data_congr
              intro a ha
              rw [heap_read_congr _ _ a (hr1o a (fun hh => hc_rest (hh ▸ ha))
                (fun hh => hnx_nm (hh ▸ ha)))]
            simp only [chain_data, List.filterMap_cons, hr1nx, Option.map_some'] at hr ⊢
            rw [hr]
          obtain ⟨h', cur, hsw, hcur, hcd', hsl', hfr'⟩ := ih f _ nx rest' true hc1 hm hf
          rw [hlast', hcd1] at hsw
          rw [hcd1] at hcd'
          refine ⟨h', cur, ?_, by simpa using hcur, ?_, same_links_trans _ _ _ hsl1 hsl', ?_⟩
          · rw [hsw]
            simp
          · have hrc : heap_read h' c = some ⟨cpos, nn.data, some nx⟩ := by
              rw [heap_read_congr _ _ c (hfr' c (by
                intro hmem
                rcases List.mem_cons.mp hmem with he | hm'
                · exact hcnx he
                · exact hc_rest hm'))]
              exact hr1c
            have : chain_data h' (c :: nx :: rest') = nn.data :: chain_data h' (nx :: rest') := by
              simp [chain_data, hrc]
            rw [this, hcd']
          · intro a ha
            simp only [List.mem_cons, not_or] at ha
            rw [hfr' a (by simp only [List.mem_cons, not_or]; exact ⟨ha.2.1, ha.2.2⟩)]
            exact hr1o a ha.1 ha.2.1
        · simp only [if_neg hgt]
          have hc1 : is_chain h (some nx) (nx :: rest') = true := hrest
          have hcd1 : chain_data h (nx :: rest') = nn.data :: chain_data h rest' := by
            simp [chain_data, hnn]
          obtain ⟨h', cur, hsw, hcur, hcd', hsl', hfr'⟩ := ih f h nx rest' sw hc1 hm hf
          rw [hlast', hcd1] at hsw
          rw [hcd1] at hcd'
          refine ⟨h', cur, hsw, by simpa using hcur, ?_, hsl', ?_⟩
          · have hrc : heap_read h' c = some ⟨cpos, cdata, some nx⟩ := by
              rw [heap_read_congr _ _ c (hfr' c (by
                intro hmem
                rcases List.mem_cons.mp hmem with he | hm'
                · exact hcnx he
                · exact hc_rest hm'))]
              exact hcn
            have : chain_data h' (c :: nx :: rest') = cdata :: chain_data h' (nx :: rest') := by
              simp [chain_data, hrc]
            rw [this, hcd']
          · intro a ha
            simp only [List.mem_cons, not_or] at ha
            exact hfr' a (by simp only [List.mem_cons, not_or]; exact ⟨ha.2.1, ha.2.2⟩)

/-! ## Theorems: emptiness check of the list, stack -/

/-- C13: `list_emptycheck` returns `SUCCESS`, the zero status, on every
present list whatever its size, in particular on the empty list `list_new`
returns and on a list of one node. -/
theorem list_emptycheck_ignores_size (l : list_t) :
    list_emptycheck (some l) = status_t.SUCCESS ∧
    list_emptycheck (list_new true none none) = status_t.SUCCESS ∧
    (list_push_tail true [] (list_new true none none) 10).map
      (fun r => (r.1, list_emptycheck r.2.2)) =
      some (status_t.SUCCESS, status_t.SUCCESS) := by
  refine ⟨rfl, ?_, ?_⟩ <;> decide

/-- C20: with both allocations succeeding, `stack_init` returns no stack
exactly when the capacity is 0 or no release function is supplied; with a
capacity `n + 1` and a release function `f` it returns the stack of that
capacity with `currentsz = 0` and `f` stored; `queue_init` and `queue_p_init`
with a capacity `n + 1` and no release function return a queue (with the C
library `free` stored). -/
theorem stack_init_requires_release (capacity n : Nat) (customfree : Option fn_ptr)
    (f : fn_ptr) (uninit : Nat → Option queue_p_node_t) :
    (stack_init true true capacity customfree = none ↔ capacity = 0 ∨ customfree = none) ∧
    stack_init true true (n + 1) (some f) =
      some ⟨n + 1, 0, List.replicate (n + 1) none, f⟩ ∧
    queue_init true true (n + 1) none =
      some ⟨n + 1, 0, some (List.replicate (n + 1) none), fn_ptr.libc_free⟩ ∧
    queue_p_init true true uninit (n + 1) none =
      some ⟨n + 1, 0, some ((List.range (n + 1)).map uninit), fn_ptr.libc_free⟩ := by
  refine ⟨?_, ?_, ?_, ?_⟩
  · cases customfree with
    | none => simp [stack_init]
    | some g =>
      by_cases hc : capacity = 0
      · simp [stack_init, hc]
      · simp [stack_init, hc]
  · simp [stack_init]
  · simp [queue_init]
  · simp [queue_p_init]

/-- C19: on a stack that is not full (and whose array has `capacity` slots)
`stack_push(S, d)` succeeds and the following `stack_pop` returns the node
holding `d`, with `currentsz`, `capacity` and the resident slots as before the
push; when there is room for two, `push(a); push(b); pop()` returns the node
of `b` and the next `pop()` the node of `a`, again restoring the stack; and
`stack_pop` on an empty stack returns `NULL` and leaves the stack as it is. -/
theorem stack_push_pop (s : stack_t) (d a b : Nat)
    (hnf : s.currentsz < s.capacity) (hcap : s.arr.length = s.capacity) :
    (∃ s1 s2 : stack_t,
      stack_push true (some s) (some d) = some (status_t.SUCCESS, some s1) ∧
      stack_pop (some s1) = some (some ⟨d⟩, some s2) ∧
      s2.currentsz = s.currentsz ∧ s2.capacity = s.capacity ∧
      s2.customfree = s.customfree ∧
      s2.arr.take s2.currentsz = s.arr.take s.currentsz) ∧
    (s.currentsz + 1 < s.capacity →
      ∃ s1 s2 s3 s4 : stack_t,
        stack_push true (some s) (some a) = some (status_t.SUCCESS, some s1) ∧
        stack_push true (some s1) (some b) = some (status_t.SUCCESS, some s2) ∧
        stack_pop (some s2) = some (some ⟨b⟩, some s3) ∧
        stack_pop (some s3) = some (some ⟨a⟩, some s4) ∧
        s4.currentsz = s.currentsz ∧ s4.capacity = s.capacity ∧
        s4.arr.take s4.currentsz = s.arr.take s.currentsz) ∧
    (∀ e : stack_t, e.currentsz = 0 → stack_pop (some e) = some (none, some e)) := by
  have hlt : s.currentsz < s.arr.length := by omega
  have hfull : ¬ (s.currentsz ≥ s.capacity) := by omega
  refine ⟨?_, ?_, ?_⟩
  · refine ⟨{ s with arr := s.arr.set s.currentsz (some ⟨d⟩), currentsz := s.currentsz + 1 },
      { s with arr := s.arr.set s.currentsz (some ⟨d⟩) }, ?_, ?_, rfl, rfl, rfl, ?_⟩
    · simp [stack_push, stack_fullcheck, check_t.nonzero, hfull, hlt]
    · simp [stack_pop, stack_emptycheck, check_t.nonzero, hlt]
    · exact take_set_of_le _ _ _ _ (Nat.le_refl _)
  · intro h2
    have hlt2 : s.currentsz + 1 < s.arr.length := by omega
    have hfull2 : ¬ (s.currentsz + 1 ≥ s.capacity) := by omega
    refine ⟨{ s with arr := s.arr.set s.currentsz (some ⟨a⟩), currentsz := s.currentsz + 1 },
      { s with arr := (s.arr.set s.currentsz (some ⟨a⟩)).set (s.currentsz + 1) (some ⟨b⟩),
               currentsz := s.currentsz + 1 + 1 },
      { s with arr := (s.arr.set s.currentsz (some ⟨a⟩)).set (s.currentsz + 1) (some ⟨b⟩),
               currentsz := s.currentsz + 1 },
      { s with arr := (s.arr.set s.currentsz (some ⟨a⟩)).set (s.currentsz + 1) (some ⟨b⟩) },
      ?_, ?_, ?_, ?_, rfl, rfl, ?_⟩
    · simp [stack_push, stack_fullcheck, check_t.nonzero, hfull, hlt]
    · simp [stack_push, stack_fullcheck, check_t.nonzero, hfull2, hlt2]
    · simp [stack_pop, stack_emptycheck, check_t.nonzero, hlt2]
    · simp [stack_pop, stack_emptycheck, check_t.nonzero, hlt, List.getElem?_set]
    · show List.take s.currentsz _ = _
      rw [take_set_of_le _ _ _ _ (by omega), take_set_of_le _ _ _ _ (Nat.le_refl _)]
  · intro e he
    simp [stack_pop, stack_emptycheck, check_t.nonzero, he]

theorem stack_push_pop_witness :
    (∃ s1 s2 : stack_t,
      stack_push true (some ⟨2, 0, [none, none], fn_ptr.user 1⟩) (some 5) =
        some (status_t.SUCCESS, some s1) ∧
      stack_pop (some s1) = some (some ⟨5⟩, some s2) ∧
      s2.currentsz = (stack_t.mk 2 0 [none, none] (fn_ptr.user 1)).currentsz ∧
      s2.capacity = (stack_t.mk 2 0 [none, none] (fn_ptr.user 1)).capacity ∧
      s2.customfree = (stack_t.mk 2 0 [none, none] (fn_ptr.user 1)).customfree ∧
      s2.arr.take s2.currentsz =
        (stack_t.mk 2 0 [none, none] (fn_ptr.user 1)).arr.take
          (stack_t.mk 2 0 [none, none] (fn_ptr.user 1)).currentsz) ∧
    ((stack_t.mk 2 0 [none, none] (fn_ptr.user 1)).currentsz + 1 <
        (stack_t.mk 2 0 [none, none] (fn_ptr.user 1)).capacity →
      ∃ s1 s2 s3 s4 : stack_t,
        stack_push true (some ⟨2, 0, [none, none], fn_ptr.user 1⟩) (some 6) =
          some (status_t.SUCCESS, some s1) ∧
        stack_push true (some s1) (some 7) = some (status_t.SUCCESS, some s2) ∧
        stack_pop (some s2) = some (some ⟨7⟩, some s3) ∧
        stack_pop (some s3) = some (some ⟨6⟩, some s4) ∧
        s4.currentsz = (stack_t.mk 2 0 [none, none] (fn_ptr.user 1)).currentsz ∧
        s4.capacity = (stack_t.mk 2 0 [none, none] (fn_ptr.user 1)).capacity ∧
        s4.arr.take s4.currentsz =
          (stack_t.mk 2 0 [none, none] (fn_ptr.user 1)).arr.take
            (stack_t.mk 2 0 [none, none] (fn_ptr.user 1)).currentsz) ∧
    (∀ e : stack_t, e.currentsz = 0 → stack_pop (some e) = some (none, some e)) :=
  stack_push_pop ⟨2, 0, [none, none], fn_ptr.user 1⟩ 5 6 7 (by decide) (by decide)

/-! ## Theorems: queue -/

/-- C14, as stated, is false: on the queue of capacity 2 that holds the
payload 1, `queue_enqueue(q, 2)` followed by `queue_dequeue(q)` returns the
node holding 1, the front of the queue, not the node holding 2. -/
theorem queue_enqueue_dequeue_returns_front :
    queue_init true true 2 none = some ⟨2, 0, some [none, none], fn_ptr.libc_free⟩ ∧
    queue_enqueue true (some ⟨2, 0, some [none, none], fn_ptr.libc_free⟩) (some 1) =
      some (status_t.SUCCESS, some ⟨2, 1, some [some ⟨1⟩, none], fn_ptr.libc_free⟩) ∧
    queue_enqueue true (some ⟨2, 1, some [some ⟨1⟩, none], fn_ptr.libc_free⟩) (some 2) =
      some (status_t.SUCCESS, some ⟨2, 2, some [some ⟨1⟩, some ⟨2⟩], fn_ptr.libc_free⟩) ∧
    queue_dequeue (some ⟨2, 2, some [some ⟨1⟩, some ⟨2⟩], fn_ptr.libc_free⟩) =
      some (some ⟨1⟩, some ⟨2, 1, some [some ⟨2⟩, none], fn_ptr.libc_free⟩) ∧
    (some ⟨1⟩ : Option queue_node_t) ≠ some ⟨2⟩ := by
  refine ⟨?_, ?_, ?_, ?_, ?_⟩ <;> decide

/-- C14 (amended): on a queue that is not full, with resident payloads `xs`
front to back, `queue_enqueue(q, d)` succeeds and the following
`queue_dequeue(q)` returns the node at the front: the node holding `d` when the
queue was empty, the node that was at the front otherwise; `currentsz` is back
to its value before the enqueue and the resident payloads are those of
`xs ++ [d]` without the first. -/
theorem queue_enqueue_dequeue (q : queue_t) (slots : List (Option queue_node_t))
    (xs : List Nat) (d : Nat)
    (hq : q.arr = some slots) (hlen : slots.length = q.capacity)
    (hnf : q.currentsz < q.capacity)
    (hres : slots.take q.currentsz = xs.map (fun p => some ⟨p⟩)) :
    ∃ (q1 q2 : queue_t) (slots2 : List (Option queue_node_t)),
      queue_enqueue true (some q) (some d) = some (status_t.SUCCESS, some q1) ∧
      queue_dequeue (some q1) = some (some ⟨xs.head?.getD d⟩, some q2) ∧
      (xs = [] → queue_dequeue (some q1) = some (some ⟨d⟩, some q2)) ∧
      q2.currentsz = q.currentsz ∧ q2.capacity = q.capacity ∧
      q2.arr = some slots2 ∧ slots2.length = slots.length ∧
      slots2.take q2.currentsz = (xs ++ [d]).tail.map (fun p => some ⟨p⟩) := by
  obtain ⟨he, htake⟩ := queue_enqueue_eq q slots d hq hlen hnf
  have hres1 : (slots.set q.currentsz (some ⟨d⟩)).take (q.currentsz + 1) =
      (some ⟨xs.head?.getD d⟩ : Option queue_node_t) ::
        (xs ++ [d]).tail.map (fun p => some ⟨p⟩) := by
    rw [htake, hres]
    cases xs <;> simp
  have hd := queue_dequeue_eq
    { q with arr := some (slots.set q.currentsz (some ⟨d⟩)), currentsz := q.currentsz + 1 }
    (slots.set q.currentsz (some ⟨d⟩)) _ _ rfl (by simp; omega) hres1
  have hxs : xs.length = q.currentsz := by
    have := congrArg List.length hres
    simp only [List.length_take, List.length_map] at this
    omega
  refine ⟨_, _, _, he, hd, ?_, rfl, rfl, rfl, ?_, ?_⟩
  · intro hnil
    rw [hd, hnil]
    rfl
  · simp
    omega
  · simp only [Nat.add_sub_cancel]
    rw [List.take_append_eq_append_take]
    simp [hxs]

theorem queue_enqueue_dequeue_witness :
    ∃ (q1 q2 : queue_t) (slots2 : List (Option queue_node_t)),
      queue_enqueue true (some ⟨2, 1, some [some ⟨1⟩, none], fn_ptr.libc_free⟩) (some 2) =
        some (status_t.SUCCESS, some q1) ∧
      queue_dequeue (some q1) = some (some ⟨[1].head?.getD 2⟩, some q2) ∧
      (([1] : List Nat) = [] → queue_dequeue (some q1) = some (some ⟨2⟩, some q2)) ∧
      q2.currentsz = (queue_t.mk 2 1 (some [some ⟨1⟩, none]) fn_ptr.libc_free).currentsz ∧
      q2.capacity = (queue_t.mk 2 1 (some [some ⟨1⟩, none]) fn_ptr.libc_free).capacity ∧
      q2.arr = some slots2 ∧
      slots2.length = [some (queue_node_t.mk 1), none].length ∧
      slots2.take q2.currentsz = ([1] ++ [2]).tail.map (fun p => some ⟨p⟩) :=
  queue_enqueue_dequeue ⟨2, 1, some [some ⟨1⟩, none], fn_ptr.libc_free⟩ [some ⟨1⟩, none] [1] 2
    rfl (by decide) (by decide) (by decide)

/-- C15: for a capacity `c > 0`, on the queue `queue_init` returns, `c`
consecutive `queue_enqueue` calls with the payloads `ps` all return `SUCCESS`
(the run reaches its end, with `currentsz = c`), and the next `queue_enqueue`
returns `OVERFLOW` and leaves the queue as it is, whatever the allocator would
answer. -/
theorem queue_fills_to_capacity (c : Nat) (customfree : Option fn_ptr) (ps : List Nat)
    (d : Nat) (malloc_ok : Bool) (hc : 0 < c) (hps : ps.length = c) :
    ∃ q0 q1 : queue_t,
      queue_init true true c customfree = some q0 ∧
      queue_enqueue_all q0 ps = some q1 ∧ q1.currentsz = c ∧ q1.capacity = c ∧
      queue_enqueue malloc_ok (some q1) (some d) = some (status_t.OVERFLOW, some q1) := by
  have hc0 : c ≠ 0 := by omega
  obtain ⟨slots', hall, _, _⟩ := queue_enqueue_all_eq ps
    ⟨c, 0, some (List.replicate c none), customfree.getD fn_ptr.libc_free⟩
    (List.replicate c none) rfl (by simp) (by simp; omega)
  refine ⟨_, _, by simp [queue_init, hc0], hall, by simp [hps], rfl, ?_⟩
  simp [queue_enqueue, queue_fullcheck, check_t.nonzero, hps]

theorem queue_fills_to_capacity_witness :
    ∃ q0 q1 : queue_t,
      queue_init true true 2 none = some q0 ∧
      queue_enqueue_all q0 [7, 8] = some q1 ∧ q1.currentsz = 2 ∧ q1.capacity = 2 ∧
      queue_enqueue true (some q1) (some 9) = some (status_t.OVERFLOW, some q1) :=
  queue_fills_to_capacity 2 none [7, 8] 9 true (by decide) (by decide)

/-- C16: on a queue whose resident payloads front to back are `xs`:
`queue_dequeue` returns the node holding the first of them and leaves the
others in the slots `0 .. n - 2` in the same order, with `currentsz = n - 1`;
`queue_enqueue` of `y` on the queue when it is not full leaves `xs` in place
and puts the node of `y` into slot `n`; and on the queue `queue_init` returns,
enqueuing the payloads `ps` and dequeuing as many times returns the nodes
holding `ps` in the order of the enqueues. -/
theorem queue_fifo (q : queue_t) (slots : List (Option queue_node_t)) (xs : List Nat)
    (hq : q.arr = some slots) (hlen : slots.length = q.capacity)
    (hle : q.currentsz ≤ q.capacity)
    (hres : slots.take q.currentsz = xs.map (fun p => some ⟨p⟩)) :
    (∀ (x1 : Nat) (rest : List Nat), xs = x1 :: rest →
      ∃ (q' : queue_t) (slots' : List (Option queue_node_t)),
        queue_dequeue (some q) = some (some ⟨x1⟩, some q') ∧
        q'.arr = some slots' ∧ slots'.length = slots.length ∧
        q'.currentsz = q.currentsz - 1 ∧ q'.capacity = q.capacity ∧
        slots'.take q'.currentsz = rest.map (fun p => some ⟨p⟩)) ∧
    (∀ y : Nat, q.currentsz < q.capacity →
      ∃ (q' : queue_t) (slots' : List (Option queue_node_t)),
        queue_enqueue true (some q) (some y) = some (status_t.SUCCESS, some q') ∧
        q'.arr = some slots' ∧ slots'.length = slots.length ∧
        q'.currentsz = q.currentsz + 1 ∧ q'.capacity = q.capacity ∧
        slots'[q.currentsz]? = some (some ⟨y⟩) ∧
        slots'.take q'.currentsz = (xs ++ [y]).map (fun p => some ⟨p⟩)) ∧
    (∀ (c : Nat) (customfree : Option fn_ptr) (ps : List Nat), 0 < c → ps.length ≤ c →
      ∃ q0 q1 q2 : queue_t,
        queue_init true true c customfree = some q0 ∧
        queue_enqueue_all q0 ps = some q1 ∧
        queue_dequeue_n ps.length q1 = some (ps.map (fun p => some ⟨p⟩), q2) ∧
        q2.currentsz = 0) := by
  have hxs : xs.length = q.currentsz := by
    have := congrArg List.length hres
    simp only [List.length_take, List.length_map] at this
    omega
  refine ⟨?_, ?_, ?_⟩
  · intro x1 rest hx
    subst hx
    have hd := queue_dequeue_eq q slots (some ⟨x1⟩) (rest.map (fun p => some ⟨p⟩)) hq
      (by omega) (by simpa using hres)
    simp only [List.length_cons] at hxs
    refine ⟨_, _, hd, rfl, ?_, rfl, rfl, ?_⟩
    · simp
      omega
    · simp [← hxs]
  · intro y hnf
    obtain ⟨he, htake⟩ := queue_enqueue_eq q slots y hq hlen hnf
    refine ⟨_, _, he, rfl, by simp, rfl, rfl, ?_, ?_⟩
    · rw [List.getElem?_set_self (by omega)]
    · simp only
      rw [htake, hres]
      simp
  · intro c customfree ps hc hps
    have hc0 : c ≠ 0 := by omega
    obtain ⟨slots', hall, hlen', htake'⟩ := queue_enqueue_all_eq ps
      ⟨c, 0, some (List.replicate c none), customfree.getD fn_ptr.libc_free⟩
      (List.replicate c none) rfl (by simp) (by simp; omega)
    simp only [Nat.zero_add, List.take_zero, List.nil_append] at hall htake'
    obtain ⟨slots'', hdq, _⟩ := queue_dequeue_n_eq ps
      ⟨c, ps.length, some slots', customfree.getD fn_ptr.libc_free⟩ slots' rfl
      (by simp at hlen'; simp; omega) htake'
    exact ⟨_, _, _, by simp [queue_init, hc0], hall, hdq, rfl⟩

theorem queue_fifo_witness :
    (∀ (x1 : Nat) (rest : List Nat), [1, 2] = x1 :: rest →
      ∃ (q' : queue_t) (slots' : List (Option queue_node_t)),
        queue_dequeue (some ⟨3, 2, some [some ⟨1⟩, some ⟨2⟩, none], fn_ptr.libc_free⟩) =
          some (some ⟨x1⟩, some q') ∧
        q'.arr = some slots' ∧
        slots'.length = [some (queue_node_t.mk 1), some ⟨2⟩, none].length ∧
        q'.currentsz =
          (queue_t.mk 3 2 (some [some ⟨1⟩, some ⟨2⟩, none]) fn_ptr.libc_free).currentsz - 1 ∧
        q'.capacity =
          (queue_t.mk 3 2 (some [some ⟨1⟩, some ⟨2⟩, none]) fn_ptr.libc_free).capacity ∧
        slots'.take q'.currentsz = rest.map (fun p => some ⟨p⟩)) ∧
    (∀ y : Nat,
      (queue_t.mk 3 2 (some [some ⟨1⟩, some ⟨2⟩, none]) fn_ptr.libc_free).currentsz <
        (queue_t.mk 3 2 (some [some ⟨1⟩, some ⟨2⟩, none]) fn_ptr.libc_free).capacity →
      ∃ (q' : queue_t) (slots' : List (Option queue_node_t)),
        queue_enqueue true (some ⟨3, 2, some [some ⟨1⟩, some ⟨2⟩, none], fn_ptr.libc_free⟩)
          (some y) = some (status_t.SUCCESS, some q') ∧
        q'.arr = some slots' ∧
        slots'.length = [some (queue_node_t.mk 1), some ⟨2⟩, none].length ∧
        q'.currentsz =
          (queue_t.mk 3 2 (some [some ⟨1⟩, some ⟨2⟩, none]) fn_ptr.libc_free).currentsz + 1 ∧
        q'.capacity =
          (queue_t.mk 3 2 (some [some ⟨1⟩, some ⟨2⟩, none]) fn_ptr.libc_free).capacity ∧
        slots'[(queue_t.mk 3 2 (some [some ⟨1⟩, some ⟨2⟩, none])
          fn_ptr.libc_free).currentsz]? = some (some ⟨y⟩) ∧
        slots'.take q'.currentsz = ([1, 2] ++ [y]).map (fun p => some ⟨p⟩)) ∧
    (∀ (c : Nat) (customfree : Option fn_ptr) (ps : List Nat), 0 < c → ps.length ≤ c →
      ∃ q0 q1 q2 : queue_t,
        queue_init true true c customfree = some q0 ∧
        queue_enqueue_all q0 ps = some q1 ∧
        queue_dequeue_n ps.length q1 = some (ps.map (fun p => some ⟨p⟩), q2) ∧
        q2.currentsz = 0) :=
  queue_fifo ⟨3, 2, some [some ⟨1⟩, some ⟨2⟩, none], fn_ptr.libc_free⟩
    [some ⟨1⟩, some ⟨2⟩, none] [1, 2] rfl (by decide) (by decide) (by decide)

theorem pq_insert_length (x : queue_p_node_t) (l : List queue_p_node_t) :
    (pq_insert x l).length = l.length + 1 := by
  induction l with
  | nil => rfl
  | cons y ys ih =>
    rw [pq_insert_cons]
    split
    · simp [ih]
    · simp

/-- One `queue_p_enqueue` on a queue that is not full and whose resident nodes
`res` are in non-increasing priority order. -/
theorem queue_p_enqueue_eq (q : queue_p_t) (slots : List (Option queue_p_node_t))
    (res : List queue_p_node_t) (d : Nat) (p : Int)
    (hq : q.arr = some slots) (hlen : slots.length = q.capacity)
    (hnf : q.currentsz < q.capacity)
    (hres : slots.take q.currentsz = res.map some)
    (hs : res.Pairwise (fun a b => a.priority ≥ b.priority)) :
    queue_p_enqueue true (some q) (some d) p =
      some (status_t.SUCCESS,
        some { q with arr := some ((pq_insert ⟨d, p⟩ res).map some ++
                               slots.drop (q.currentsz + 1)),
                      currentsz := q.currentsz + 1 }) := by
  have hnf' : ¬ (q.currentsz ≥ q.capacity) := by omega
  have hlt : q.currentsz < slots.length := by omega
  have hrl : res.length = q.currentsz := by
    have := congrArg List.length hres
    simp only [List.length_take, List.length_map] at this
    omega
  have hset : slots.set q.currentsz (some ⟨d, p⟩) =
      (res ++ [queue_p_node_t.mk d p]).map some ++ slots.drop (q.currentsz + 1) := by
    rw [List.set_eq_take_append_cons_drop, if_pos hlt, hres]
    simp
  have hsp := sort_pass_insert res ⟨d, p⟩ (slots.drop (q.currentsz + 1)) hs
  rw [hrl, ← hset] at hsp
  simp [queue_p_enqueue, queue_p_fullcheck, check_t.nonzero, hnf', hq, hlt, hsp]

theorem queue_p_enqueue_all_eq (items : List (Nat × Int)) :
    ∀ (q : queue_p_t) (slots : List (Option queue_p_node_t)) (res : List queue_p_node_t),
      q.arr = some slots → slots.length = q.capacity →
      q.currentsz + items.length ≤ q.capacity →
      slots.take q.currentsz = res.map some →
      res.Pairwise (fun a b => a.priority ≥ b.priority) →
      ∃ (slots' : List (Option queue_p_node_t)) (res' : List queue_p_node_t),
        queue_p_enqueue_all q items =
          some { q with arr := some slots', currentsz := q.currentsz + items.length } ∧
        slots'.length = q.capacity ∧
        slots'.take (q.currentsz + items.length) = res'.map some ∧
        res'.Pairwise (fun a b => a.priority ≥ b.priority) ∧
        ∀ p : Int, res'.filter (fun a => decide (a.priority = p)) =
          res.filter (fun a => decide (a.priority = p)) ++
            (items.map (fun it => queue_p_node_t.mk it.1 it.2)).filter
              (fun a => decide (a.priority = p)) := by
  induction items with
  | nil =>
    intro q slots res hq hlen _ hres hs
    refine ⟨slots, res, ?_, hlen, by simpa using hres, hs, by simp⟩
    simp only [queue_p_enqueue_all, List.length_nil, Nat.add_zero]
    rw [← hq]
  | cons it rest ih =>
    intro q slots res hq hlen hroom hres hs
    obtain ⟨d, p⟩ := it
    simp only [List.length_cons] at hroom
    have hrl : res.length = q.currentsz := by
      have := congrArg List.length hres
      simp only [List.length_take, List.length_map] at this
      omega
    have he := queue_p_enqueue_eq q slots res d p hq hlen (by omega) hres hs
    obtain ⟨hs1, _⟩ := pq_insert_descending ⟨d, p⟩ res hs
    have hl1 : ((pq_insert ⟨d, p⟩ res).map some ++ slots.drop (q.currentsz + 1)).length =
        q.capacity := by
      simp [pq_insert_length, hrl]
      omega
    have ht1 : ((pq_insert ⟨d, p⟩ res).map some ++ slots.drop (q.currentsz + 1)).take
        (q.currentsz + 1) = (pq_insert ⟨d, p⟩ res).map some := by
      rw [List.take_append_eq_append_take]
      simp [pq_insert_length, hrl]
    obtain ⟨slots', res', hall, hlen', htake', hs', hf'⟩ := ih
      { q with arr := some ((pq_insert ⟨d, p⟩ res).map some ++ slots.drop (q.currentsz + 1)),
               currentsz := q.currentsz + 1 }
      _ (pq_insert ⟨d, p⟩ res) rfl hl1 (by simp; omega) ht1 hs1
    refine ⟨slots', res', ?_, hlen', ?_, hs', ?_⟩
    · simp only [queue_p_enqueue_all, he, hall, List.length_cons]
      simp only [Nat.add_assoc, Nat.add_comm 1]
    · simp only at htake'
      simp only [List.length_cons]
      rw [show q.currentsz + (rest.length + 1) = q.currentsz + 1 + rest.length by omega]
      exact htake'
    · intro p'
      rw [hf' p', pq_insert_filter ⟨d, p⟩ res p' hs]
      simp [List.filter_cons]
      split <;> rfl

theorem queue_p_dequeue_eq (q : queue_p_t) (slots : List (Option queue_p_node_t))
    (x : Option queue_p_node_t) (rest : List (Option queue_p_node_t))
    (hq : q.arr = some slots) (hle : q.currentsz ≤ slots.length)
    (hres : slots.take q.currentsz = x :: rest) :
    queue_p_dequeue (some q) =
      some (x, some { q with arr := some (rest ++ none :: slots.drop q.currentsz),
                             currentsz := q.currentsz - 1 }) := by
  obtain ⟨h0, arr1, he, hlt, hset⟩ := dequeue_slots q.currentsz slots x rest hle hres
  have hne : ¬ (0 = q.currentsz) := by
    intro hz
    rw [← hz] at hres
    simp at hres
  simp [queue_p_dequeue, queue_p_emptycheck, check_t.nonzero, hne, hq, h0, he, hlt, hset]

theorem queue_p_dequeue_n_eq (res : List queue_p_node_t) :
    ∀ (q : queue_p_t) (slots : List (Option queue_p_node_t)),
      q.arr = some slots → q.currentsz ≤ slots.length →
      slots.take q.currentsz = res.map some →
      ∃ slots' : List (Option queue_p_node_t),
        queue_p_dequeue_n res.length q =
          some (res.map some, { q with arr := some slots', currentsz := 0 }) ∧
        slots'.length = slots.length := by
  induction res with
  | nil =>
    intro q slots hq hle hres
    have hz : q.currentsz = 0 := by
      have := congrArg List.length hres
      simp only [List.length_take, List.map_nil, List.length_nil] at this
      omega
    refine ⟨slots, ?_, rfl⟩
    simp only [queue_p_dequeue_n, List.length_nil, List.map_nil]
    rw [← hq, ← hz]
  | cons x rest ih =>
    intro q slots hq hle hres
    have hn : q.currentsz = rest.length + 1 := by
      have := congrArg List.length hres
      simp only [List.length_take, List.map_cons, List.length_cons, List.length_map] at this
      omega
    have hd := queue_p_dequeue_eq q slots (some x) (rest.map some) hq hle
      (by simpa using hres)
    obtain ⟨slots', hall, hlen'⟩ := ih
      { q with arr := some (rest.map some ++ none :: slots.drop q.currentsz),
               currentsz := q.currentsz - 1 }
      (rest.map some ++ none :: slots.drop q.currentsz) rfl
      (by simp; omega) (by simp [hn])
    refine ⟨slots', ?_, ?_⟩
    · simp only [queue_p_dequeue_n, List.length_cons, hd, hall, List.map_cons]
    · rw [hlen']
      simp
      omega

/-! ## Theorems: priority queue -/

/-- C17: the payloads and priorities `items` (no more than the capacity)
enqueued into the queue `queue_p_init` returns are all accepted; the resident
nodes `res` front to back are in non-increasing priority order and, for every
priority, the nodes of that priority are in the order of their insertion
(the stable sort of `items` by descending priority); repeated
`queue_p_dequeue` returns the nodes in this order.  The priorities 3, 1, 5, 1
are dequeued as 5, 3, 1, 1 with the first-inserted priority-1 payload first. -/
theorem queue_p_stable_descending (c : Nat) (customfree : Option fn_ptr)
    (uninit : Nat → Option queue_p_node_t) (items : List (Nat × Int))
    (hc : 0 < c) (hlen : items.length ≤ c) :
    (∃ (q0 q1 q2 : queue_p_t) (slots : List (Option queue_p_node_t))
        (res : List queue_p_node_t),
      queue_p_init true true uninit c customfree = some q0 ∧
      queue_p_enqueue_all q0 items = some q1 ∧
      q1.arr = some slots ∧ q1.currentsz = items.length ∧
      slots.take q1.currentsz = res.map some ∧
      res.Pairwise (fun a b => a.priority ≥ b.priority) ∧
      (∀ p : Int, res.filter (fun a => decide (a.priority = p)) =
        (items.map (fun it => queue_p_node_t.mk it.1 it.2)).filter
          (fun a => decide (a.priority = p))) ∧
      queue_p_dequeue_n items.length q1 = some (res.map some, q2) ∧ q2.currentsz = 0) ∧
    ((queue_p_init true true (fun _ => none) 4 none).bind (fun q0 =>
      (queue_p_enqueue_all q0 [(100, 3), (101, 1), (102, 5), (103, 1)]).bind (fun q1 =>
        (queue_p_dequeue_n 4 q1).map (fun r => r.1))) =
      some [some ⟨102, 5⟩, some ⟨100, 3⟩, some ⟨101, 1⟩, some ⟨103, 1⟩]) := by
  refine ⟨?_, by decide⟩
  have hc0 : c ≠ 0 := by omega
  obtain ⟨slots', res', hall, hlen', htake', hs', hf'⟩ := queue_p_enqueue_all_eq items
    ⟨c, 0, some ((List.range c).map uninit), customfree.getD fn_ptr.libc_free⟩
    ((List.range c).map uninit) [] rfl (by simp) (by simp; omega) (by simp)
    List.Pairwise.nil
  simp only [Nat.zero_add, List.filter_nil, List.nil_append] at hall htake' hf'
  have hrl : res'.length = items.length := by
    have := congrArg List.length htake'
    simp only [List.length_take, List.length_map] at this
    simp only at hlen'
    omega
  obtain ⟨slots'', hdq, _⟩ := queue_p_dequeue_n_eq res'
    ⟨c, items.length, some slots', customfree.getD fn_ptr.libc_free⟩ slots' rfl
    (by simp at hlen'; simp; omega) htake'
  rw [hrl] at hdq
  exact ⟨_, _, _, slots', res', by simp [queue_p_init, hc0], hall, rfl, rfl, htake', hs',
    hf', hdq, rfl⟩

theorem queue_p_stable_descending_witness :
    (∃ (q0 q1 q2 : queue_p_t) (slots : List (Option queue_p_node_t))
        (res : List queue_p_node_t),
      queue_p_init true true (fun _ => none) 2 none = some q0 ∧
      queue_p_enqueue_all q0 [(7, 1), (8, 2)] = some q1 ∧
      q1.arr = some slots ∧ q1.currentsz = [((7 : Nat), (1 : Int)), (8, 2)].length ∧
      slots.take q1.currentsz = res.map some ∧
      res.Pairwise (fun a b => a.priority ≥ b.priority) ∧
      (∀ p : Int, res.filter (fun a => decide (a.priority = p)) =
        ([((7 : Nat), (1 : Int)), (8, 2)].map (fun it => queue_p_node_t.mk it.1 it.2)).filter
          (fun a => decide (a.priority = p))) ∧
      queue_p_dequeue_n [((7 : Nat), (1 : Int)), (8, 2)].length q1 = some (res.map some, q2) ∧
      q2.currentsz = 0) ∧
    ((queue_p_init true true (fun _ => none) 4 none).bind (fun q0 =>
      (queue_p_enqueue_all q0 [(100, 3), (101, 1), (102, 5), (103, 1)]).bind (fun q1 =>
        (queue_p_dequeue_n 4 q1).map (fun r => r.1))) =
      some [some ⟨102, 5⟩, some ⟨100, 3⟩, some ⟨101, 1⟩, some ⟨103, 1⟩]) :=
  queue_p_stable_descending 2 none (fun _ => none) [(7, 1), (8, 2)] (by decide) (by decide)

theorem chain_data_length (h : heap_t) (xs : List Nat)
    (hv : ∀ a ∈ xs, ∃ n, heap_read h a = some n) : (chain_data h xs).length = xs.length := by
  induction xs with
  | nil => rfl
  | cons a rest ih =>
    obtain ⟨n, hn⟩ := hv a (List.mem_cons_self _ _)
    simp only [chain_data, List.filterMap_cons, hn, Option.map_some', List.length_cons]
    have := ih (fun x hx => hv x (List.mem_cons_of_mem _ hx))
    simp only [chain_data] at this
    rw [this]

/-! ## Theorems: search and sort in the list -/

/-- C12: on a well-formed non-empty list whose payloads are readable, with a
non-null search reference and all allocations succeeding,
`list_find_all_occurrences` returns a list that is well-formed over records
allocated by the call, whose payloads are a permutation of the payloads of the
matching source nodes and whose size is their number; every record that
existed before the call is unchanged, so the source list is as it was. -/
theorem list_find_all_collects (deref : Nat → Option Int) (malloc_ok : Nat → Bool)
    (h : heap_t) (l : list_t) (addrs : List Nat) (r : ref_t)
    (wf : list_wf h l addrs) (hne : addrs ≠ []) (hptr : r.as_ptr ≠ none)
    (hderef : ∀ d ∈ chain_data h addrs, ∃ v, deref d = some v)
    (hmem : ∀ k, malloc_ok k = true) :
    ∃ (h' : heap_t) (nl : list_t) (naddrs : List Nat),
      list_find_all_occurrences deref malloc_ok h (some l) (some r) = some (some nl, h') ∧
      list_wf h' nl naddrs ∧
      (∀ a ∈ naddrs, h.length ≤ a) ∧
      (chain_data h' naddrs).Perm
        ((chain_data h addrs).filter (fun d => decide (deref d = some r.as_int))) ∧
      nl.size =
        ((chain_data h addrs).filter (fun d => decide (deref d = some r.as_int))).length ∧
      (∀ a : Nat, a < h.length → h'[a]? = h[a]?) ∧
      list_wf h' l addrs ∧ chain_data h' addrs = chain_data h addrs := by
  have wf' := wf
  obtain ⟨hc, hs, ht, hp⟩ := wf'
  have hsz : l.size ≠ 0 := by
    rw [hs]
    exact fun hz => hne (List.length_eq_zero.mp hz)
  have wf0 : list_wf h ⟨0, none, none, fn_ptr.custom_free, fn_ptr.default_compare⟩ [] :=
    ⟨rfl, rfl, rfl, rfl⟩
  obtain ⟨h', nl, naddrs, hloop, wfn, hcd, hfr, hle, hnew⟩ :=
    find_all_loop_eq deref r.as_int malloc_ok hmem addrs h.length h _ [] l.head 0 hc hderef
      wf0 (fun _ _ hm => by simp at hm) (is_chain_length_le h addrs l.head hc)
  have hframe : ∀ a : Nat, a < h.length → h'[a]? = h[a]? :=
    fun a ha => hfr a (by simp) ha
  have hlt := is_chain_lt h addrs l.head hc
  have hag : ∀ a ∈ addrs, heap_read h' a = heap_read h a :=
    fun a ha => heap_read_congr h h' a (hframe a (hlt a ha))
  simp only [chain_data, List.filterMap_nil, List.append_nil] at hcd
  refine ⟨h', nl, naddrs, ?_, wfn, ?_, ?_, ?_, hframe, ⟨?_, hs, ht, ?_⟩, ?_⟩
  · simp only [list_find_all_occurrences, hptr, hsz, ne_eq, not_false_eq_true, and_self,
      if_true, list_new, hmem, Option.getD_some, hloop, not_true_eq_false, if_false]
  · intro a ha
    rcases hnew a ha with hm | hge
    · simp at hm
    · exact hge
  · simp only [chain_data]
    rw [hcd]
    exact List.reverse_perm _
  · have hvalid := is_chain_valid h' naddrs nl.head wfn.1
    have hlen := chain_data_length h' naddrs hvalid
    simp only [chain_data] at hlen
    rw [wfn.2.1, ← hlen, hcd, List.length_reverse]
    rfl
  · apply is_chain_congr h h' addrs _ _ hc
    intro a ha n hn
    exact ⟨n, by rw [hag a ha]; exact hn, rfl⟩
  · apply has_positions_congr h h' addrs _ _ hp
    intro a ha n hn
    exact ⟨n, by rw [hag a ha]; exact hn, rfl⟩
  · apply chain_data_congr
    intro a ha
    rw [hag a ha]

theorem list_find_all_collects_witness :
    ∃ (h' : heap_t) (nl : list_t) (naddrs : List Nat),
      list_find_all_occurrences (fun d => some (Int.ofNat d)) (fun _ => true)
          [some ⟨0, 5, some 1⟩, some ⟨1, 6, none⟩]
          (some ⟨2, some 0, some 1, fn_ptr.libc_free, fn_ptr.default_compare⟩)
          (some ⟨some 1, 6⟩) = some (some nl, h') ∧
      list_wf h' nl naddrs ∧
      (∀ a ∈ naddrs, [some (list_node_t.mk 0 5 (some 1)), some ⟨1, 6, none⟩].length ≤ a) ∧
      (chain_data h' naddrs).Perm
        ((chain_data [some ⟨0, 5, some 1⟩, some ⟨1, 6, none⟩] [0, 1]).filter
          (fun d => decide ((fun d => some (Int.ofNat d)) d = some (ref_t.mk (some 1) 6).as_int))) ∧
      nl.size =
        ((chain_data [some ⟨0, 5, some 1⟩, some ⟨1, 6, none⟩] [0, 1]).filter
          (fun d => decide ((fun d => some (Int.ofNat d)) d =
            some (ref_t.mk (some 1) 6).as_int))).length ∧
      (∀ a : Nat, a < [some (list_node_t.mk 0 5 (some 1)), some ⟨1, 6, none⟩].length →
        h'[a]? = [some (list_node_t.mk 0 5 (some 1)), some ⟨1, 6, none⟩][a]?) ∧
      list_wf h' ⟨2, some 0, some 1, fn_ptr.libc_free, fn_ptr.default_compare⟩ [0, 1] ∧
      chain_data h' [0, 1] = chain_data [some ⟨0, 5, some 1⟩, some ⟨1, 6, none⟩] [0, 1] :=
  list_find_all_collects (fun d => some (Int.ofNat d)) (fun _ => true)
    [some ⟨0, 5, some 1⟩, some ⟨1, 6, none⟩]
    ⟨2, some 0, some 1, fn_ptr.libc_free, fn_ptr.default_compare⟩ [0, 1] ⟨some 1, 6⟩
    ⟨by decide, by decide, by decide, by decide⟩ (by decide) (by decide)
    (fun d _ => ⟨_, rfl⟩) (fun _ => rfl)

theorem sorted_of_sorted_parts (ds : List Nat) (k : Nat)
    (h1 : (ds.take k).Pairwise (fun a b => a ≤ b))
    (h2 : (ds.drop k).Pairwise (fun a b => a ≤ b))
    (h3 : ∀ x ∈ ds.take k, ∀ y ∈ ds.drop k, x ≤ y) :
    ds.Pairwise (fun a b => a ≤ b) := by
  rw [← List.take_append_drop k ds]
  exact List.pairwise_append.mpr ⟨h1, h2, h3⟩

/-- The sweeps of `list_sort` from the sweep with `m` comparisons on, when the
payloads behind index `m` are in order and not below those up to index `m`. -/
theorem sort_outer_eq (m : Nat) :
    ∀ (fuel : Nat) (h : heap_t) (hd : Nat) (rest : List Nat),
      is_chain h (some hd) (hd :: rest) = true → m ≤ rest.length → m + 1 ≤ fuel →
      ((chain_data h (hd :: rest)).drop (m + 1)).Pairwise (fun a b => a ≤ b) →
      (∀ x ∈ (chain_data h (hd :: rest)).take (m + 1),
        ∀ y ∈ (chain_data h (hd :: rest)).drop (m + 1), x ≤ y) →
      ∃ h' : heap_t,
        sort_outer fuel h hd ((hd :: rest)[m + 1]?) = some h' ∧
        (chain_data h' (hd :: rest)).Pairwise (fun a b => a ≤ b) ∧
        (chain_data h' (hd :: rest)).Perm (chain_data h (hd :: rest)) ∧
        same_links h h' ∧ ∀ a : Nat, a ∉ hd :: rest → h'[a]? = h[a]? := by
  induction m with
  | zero =>
    intro fuel h hd rest hc hm hf hsorted hcross
    have hlen := is_chain_length_le h _ _ hc
    simp only [List.length_cons] at hlen
    obtain ⟨h1, cur, hsw, _, hcd, hsl, hfr⟩ :=
      sort_sweep_eq 0 h.length h hd rest false hc hm (by omega)
    rw [bubble_zero] at hsw hcd
    cases fuel with
    | zero => omega
    | succ f =>
      refine ⟨h1, ?_, ?_, by rw [hcd], hsl, hfr⟩
      · simp only [sort_outer, hsw, Bool.or_false, Bool.false_eq_true, if_false]
      · rw [hcd]
        exact sorted_of_sorted_parts _ (0 + 1) (bubble_no_swap 0 _ (bubble_flag_zero _)).2
          hsorted hcross
  | succ m ih =>
    intro fuel h hd rest hc hm hf hsorted hcross
    have hlen := is_chain_length_le h _ _ hc
    simp only [List.length_cons] at hlen
    have hvalid := is_chain_valid h _ _ hc
    have hdl := chain_data_length h _ hvalid
    simp only [List.length_cons] at hdl
    obtain ⟨h1, cur, hsw, hcur, hcd, hsl, hfr⟩ :=
      sort_sweep_eq (m + 1) h.length h hd rest false hc hm (by omega)
    cases fuel with
    | zero => omega
    | succ f =>
      cases hflag : (bubble (m + 1) (chain_data h (hd :: rest))).2 with
      | false =>
        obtain ⟨he, hp⟩ := bubble_no_swap (m + 1) _ hflag
        rw [hflag] at hsw
        rw [he] at hcd
        refine ⟨h1, ?_, ?_, by rw [hcd], hsl, hfr⟩
        · simp only [sort_outer, hsw, Bool.or_false, Bool.false_eq_true, if_false]
        · rw [hcd]
          exact sorted_of_sorted_parts _ (m + 1 + 1) hp hsorted hcross
      | true =>
        rw [hflag] at hsw
        obtain ⟨pre, mx, hb, hpl, hperm, hle⟩ :=
          bubble_max (m + 1) (chain_data h (hd :: rest)) (by omega)
        rw [hb] at hcd
        have hmx : mx ∈ (chain_data h (hd :: rest)).take (m + 1 + 1) :=
          hperm.subset (by simp)
        have hpre : ∀ x ∈ pre, x ∈ (chain_data h (hd :: rest)).take (m + 1 + 1) :=
          fun x hx => hperm.subset (List.mem_append_left _ hx)
        have hdrop : (chain_data h1 (hd :: rest)).drop (m + 1) =
            mx :: (chain_data h (hd :: rest)).drop (m + 1 + 1) := by
          rw [hcd, ← hpl, List.drop_left]
        have htake : (chain_data h1 (hd :: rest)).take (m + 1) = pre := by
          rw [hcd, ← hpl, List.take_left]
        have hc1 := same_links_is_chain h h1 hsl _ _ hc
        obtain ⟨h', hout, hsort', hperm', hsl', hfr'⟩ := ih f h1 hd rest hc1 (by omega)
          (by omega)
          (by
            rw [hdrop]
            exact List.pairwise_cons.mpr ⟨fun y hy => hcross mx hmx y hy, hsorted⟩)
          (by
            rw [hdrop, htake]
            intro x hx y hy
            rcases List.mem_cons.mp hy with rfl | hm'
            · exact hle x hx
            · exact hcross x (hpre x hx) y hm')
        have hcur' : (hd :: rest)[m + 1]? = some cur := hcur
        rw [hcur'] at hout
        refine ⟨h', ?_, hsort', ?_, same_links_trans _ _ _ hsl hsl', ?_⟩
        · simp only [sort_outer, hsw, Bool.or_true, if_true]
          exact hout
        · refine hperm'.trans ?_
          rw [hcd]
          have e1 : pre ++ mx :: (chain_data h (hd :: rest)).drop (m + 1 + 1) =
              (pre ++ [mx]) ++ (chain_data h (hd :: rest)).drop (m + 1 + 1) := by simp
          rw [e1]
          have e2 := List.take_append_drop (m + 1 + 1) (chain_data h (hd :: rest))
          exact (List.Perm.append_right _ hperm).trans (by rw [e2])
        · intro a ha
          rw [hfr' a ha, hfr a ha]

/-- C11: on a well-formed non-empty list `list_sort` returns `SUCCESS`;
afterwards the payloads from head to tail are in non-decreasing order of the
payload pointers and are a permutation of the payloads before; the list record
(size, head, tail) is unchanged, every record keeps its `position` and `next`
fields, so the list is well-formed over the same nodes, and no record outside
the list changes. -/
theorem list_sort_sorts (h : heap_t) (l : list_t) (addrs : List Nat)
    (wf : list_wf h l addrs) (hne : addrs ≠ []) :
    ∃ h' : heap_t,
      list_sort h (some l) = some (status_t.SUCCESS, h', some l) ∧
      (chain_data h' addrs).Pairwise (fun a b => a ≤ b) ∧
      (chain_data h' addrs).Perm (chain_data h addrs) ∧
      list_wf h' l addrs ∧ same_links h h' ∧
      ∀ a : Nat, a ∉ addrs → h'[a]? = h[a]? := by
  obtain ⟨hc, hs, ht, hp⟩ := wf
  match addrs, hne with
  | hd :: rest, _ =>
    have hhead : l.head = some hd := by
      have := is_chain_head h _ _ hc
      simpa using this
    rw [hhead] at hc
    have hlen := is_chain_length_le h _ _ hc
    simp only [List.length_cons] at hlen
    have hvalid := is_chain_valid h _ _ hc
    have hdl := chain_data_length h _ hvalid
    simp only [List.length_cons] at hdl
    have hnil : (chain_data h (hd :: rest)).drop (rest.length + 1) = [] :=
      List.drop_eq_nil_of_le (by omega)
    obtain ⟨h', hout, hsort, hperm, hsl, hfr⟩ :=
      sort_outer_eq rest.length h.length h hd rest hc (Nat.le_refl _) (by omega)
        (by rw [hnil]; exact List.Pairwise.nil)
        (by rw [hnil]; intro _ _ y hy; simp at hy)
    have hlast : (hd :: rest)[rest.length + 1]? = none :=
      List.getElem?_eq_none (by simp)
    rw [hlast] at hout
    refine ⟨h', ?_, hsort, hperm, ⟨?_, hs, ht, ?_⟩, hsl, hfr⟩
    · simp only [list_sort, hhead, hout]
    · rw [hhead]
      exact same_links_is_chain h h' hsl _ _ hc
    · exact same_links_has_positions h h' hsl _ _ hp

theorem list_sort_sorts_witness :
    ∃ h' : heap_t,
      list_sort [some ⟨0, 30, some 1⟩, some ⟨1, 10, none⟩]
          (some ⟨2, some 0, some 1, fn_ptr.libc_free, fn_ptr.default_compare⟩) =
        some (status_t.SUCCESS, h',
          some ⟨2, some 0, some 1, fn_ptr.libc_free, fn_ptr.default_compare⟩) ∧
      (chain_data h' [0, 1]).Pairwise (fun a b => a ≤ b) ∧
      (chain_data h' [0, 1]).Perm
        (chain_data [some ⟨0, 30, some 1⟩, some ⟨1, 10, none⟩] [0, 1]) ∧
      list_wf h' ⟨2, some 0, some 1, fn_ptr.libc_free, fn_ptr.default_compare⟩ [0, 1] ∧
      same_links [some ⟨0, 30, some 1⟩, some ⟨1, 10, none⟩] h' ∧
      ∀ a : Nat, a ∉ [0, 1] →
        h'[a]? = [some (list_node_t.mk 0 30 (some 1)), some ⟨1, 10, none⟩][a]? :=
  list_sort_sorts [some ⟨0, 30, some 1⟩, some ⟨1, 10, none⟩]
    ⟨2, some 0, some 1, fn_ptr.libc_free, fn_ptr.default_compare⟩ [0, 1]
    ⟨by decide, by decide, by decide, by decide⟩ (by decide)

/-! ## Lemmas: the ordering invariant of the priority queue -/

theorem pq_insert_perm (x : queue_p_node_t) (l : List queue_p_node_t) :
    (pq_insert x l).Perm (l ++ [x]) := by
  induction l with
  | nil => exact List.Perm.refl _
  | cons y ys ih =>
    rw [pq_insert_cons]
    split
    · exact List.Perm.cons y ih
    · have h1 : (x :: y :: ys).Perm (x :: (y :: ys)) := List.Perm.refl _
      exact (List.perm_append_singleton x (y :: ys)).symm

theorem pq_ordered_length (q : queue_p_t) (slots : List (Option queue_p_node_t))
    (res : List queue_p_node_t) (inv : pq_ordered q slots res) : res.length = q.currentsz := by
  obtain ⟨_, hlen, hle, hres, _⟩ := inv
  have := congrArg List.length hres
  simp only [List.length_take, List.length_map] at this
  omega

theorem queue_p_drain_eq (res : List queue_p_node_t) :
    ∀ (fuel : Nat) (q : queue_p_t) (slots : List (Option queue_p_node_t)),
      q.arr = some slots → q.currentsz ≤ slots.length →
      slots.take q.currentsz = res.map some → res.length ≤ fuel →
      ∃ (slots' : List (Option queue_p_node_t)) (calls : List dealloc_t),
        queue_p_drain fuel q = some ({ q with arr := some slots', currentsz := 0 }, calls) ∧
        slots'.length = slots.length := by
  induction res with
  | nil =>
    intro fuel q slots hq hle hres _
    have hz : q.currentsz = 0 := by
      have := congrArg List.length hres
      simp only [List.length_take, List.map_nil, List.length_nil] at this
      omega
    refine ⟨slots, [], ?_, rfl⟩
    have hq' : q = { q with arr := some slots, currentsz := 0 } := by
      cases q
      simp only at hq hz
      simp [hq, hz]
    cases fuel <;> simp [queue_p_drain, queue_p_emptycheck, check_t.nonzero, hz] <;> exact hq'
  | cons x rest ih =>
    intro fuel q slots hq hle hres hf
    have hn : q.currentsz = rest.length + 1 := by
      have := congrArg List.length hres
      simp only [List.length_take, List.map_cons, List.length_cons, List.length_map] at this
      omega
    cases fuel with
    | zero => simp at hf
    | succ f =>
      simp only [List.length_cons, Nat.add_le_add_iff_right] at hf
      have hd := queue_p_dequeue_eq q slots (some x) (rest.map some) hq hle
        (by simpa using hres)
      obtain ⟨slots', calls, hdr, hlen'⟩ := ih f
        { q with arr := some (rest.map some ++ none :: slots.drop q.currentsz),
                 currentsz := q.currentsz - 1 }
        (rest.map some ++ none :: slots.drop q.currentsz) rfl
        (by simp; omega) (by simp [hn]) hf
      have hne : ¬ (0 = q.currentsz) := by omega
      refine ⟨slots', dealloc_t.free_node x.data :: calls, ?_, ?_⟩
      · simp only [queue_p_drain, queue_p_emptycheck, check_t.nonzero, hne, decide_False,
          Bool.false_eq_true, if_false, hd, hdr]
      · rw [hlen']
        simp
        omega

/-- Every call on a priority queue that satisfies the ordering invariant
returns and leaves a queue that satisfies it. -/
theorem pq_step_ordered (q : queue_p_t) (slots : List (Option queue_p_node_t))
    (res : List queue_p_node_t) (inv : pq_ordered q slots res) (call : pq_call) :
    ∃ (q' : queue_p_t) (slots' : List (Option queue_p_node_t)) (res' : List queue_p_node_t),
      pq_step q call = some q' ∧ pq_ordered q' slots' res' ∧ q'.capacity = q.capacity := by
  have hrl := pq_ordered_length q slots res inv
  obtain ⟨hq, hlen, hle, hres, hs⟩ := inv
  cases call with
  | enqueue malloc_ok data priority =>
    by_cases hfull : q.currentsz ≥ q.capacity
    · exact ⟨q, slots, res,
        by simp [pq_step, queue_p_enqueue, queue_p_fullcheck, check_t.nonzero, hfull],
        ⟨hq, hlen, hle, hres, hs⟩, rfl⟩
    · cases data with
      | none =>
        exact ⟨q, slots, res,
          by simp [pq_step, queue_p_enqueue, queue_p_fullcheck, check_t.nonzero, hfull],
          ⟨hq, hlen, hle, hres, hs⟩, rfl⟩
      | some d =>
        cases malloc_ok with
        | false =>
          exact ⟨q, slots, res,
            by simp [pq_step, queue_p_enqueue, queue_p_fullcheck, check_t.nonzero, hfull, hq],
            ⟨hq, hlen, hle, hres, hs⟩, rfl⟩
        | true =>
          have he := queue_p_enqueue_eq q slots res d priority hq hlen (by omega) hres hs
          refine ⟨{ q with arr := some ((pq_insert ⟨d, priority⟩ res).map some ++
                slots.drop (q.currentsz + 1)), currentsz := q.currentsz + 1 },
            (pq_insert ⟨d, priority⟩ res).map some ++ slots.drop (q.currentsz + 1),
            pq_insert ⟨d, priority⟩ res, by simp only [pq_step, he],
            ⟨rfl, ?_, ?_, ?_, (pq_insert_descending _ res hs).1⟩, rfl⟩
          · simp [pq_insert_length, hrl]
            omega
          · simp only
            omega
          · simp only
            rw [List.take_append_eq_append_take]
            simp [pq_insert_length, hrl]
  | dequeue =>
    cases res with
    | nil =>
      simp only [List.length_nil] at hrl
      exact ⟨q, slots, [],
        by simp [pq_step, queue_p_dequeue, queue_p_emptycheck, check_t.nonzero, ← hrl],
        ⟨hq, hlen, hle, hres, hs⟩, rfl⟩
    | cons x rest =>
      simp only [List.length_cons] at hrl
      have hd := queue_p_dequeue_eq q slots (some x) (rest.map some) hq (by omega)
        (by simpa using hres)
      refine ⟨{ q with arr := some (rest.map some ++ none :: slots.drop q.currentsz),
                       currentsz := q.currentsz - 1 },
        rest.map some ++ none :: slots.drop q.currentsz, rest, by simp only [pq_step, hd],
        ⟨rfl, ?_, ?_, ?_, (List.pairwise_cons.mp hs).2⟩, rfl⟩
      · simp
        omega
      · simp only
        omega
      · simp [← hrl]
  | clear =>
    by_cases hz : 0 = q.currentsz
    · exact ⟨q, slots, res,
        by simp [pq_step, queue_p_clear, queue_p_emptycheck, check_t.nonzero, hz],
        ⟨hq, hlen, hle, hres, hs⟩, rfl⟩
    · obtain ⟨slots', calls, hdr, hlen'⟩ := queue_p_drain_eq res q.currentsz q slots hq
        (by omega) hres (by omega)
      refine ⟨{ q with arr := some slots', currentsz := 0 }, slots', [],
        by simp [pq_step, queue_p_clear, queue_p_emptycheck, check_t.nonzero, hz, hdr],
        ⟨rfl, by simpa [hlen'] using hlen, by simp, by simp, List.Pairwise.nil⟩, rfl⟩

theorem pq_run_ordered (calls : List pq_call) :
    ∀ (q : queue_p_t) (slots : List (Option queue_p_node_t)) (res : List queue_p_node_t),
      pq_ordered q slots res →
      ∃ (q' : queue_p_t) (slots' : List (Option queue_p_node_t)) (res' : List queue_p_node_t),
        pq_run q calls = some q' ∧ pq_ordered q' slots' res' ∧ q'.capacity = q.capacity := by
  induction calls with
  | nil =>
    intro q slots res inv
    exact ⟨q, slots, res, rfl, inv, rfl⟩
  | cons call rest ih =>
    intro q slots res inv
    obtain ⟨q1, slots1, res1, hstep, inv1, hcap1⟩ := pq_step_ordered q slots res inv call
    obtain ⟨q', slots', res', hrun, inv', hcap'⟩ := ih q1 slots1 res1 inv1
    exact ⟨q', slots', res', by simp only [pq_run, hstep, hrun], inv', hcap'.trans hcap1⟩

theorem pq_ordered_index (q : queue_p_t) (slots : List (Option queue_p_node_t))
    (res : List queue_p_node_t) (inv : pq_ordered q slots res) (i j : Nat)
    (hij : i < j) (hj : j < q.currentsz) :
    ∃ a b : queue_p_node_t, slots[i]? = some (some a) ∧ slots[j]? = some (some b) ∧
      a.priority ≥ b.priority := by
  have hrl := pq_ordered_length q slots res inv
  obtain ⟨_, _, _, hres, hs⟩ := inv
  have hget : ∀ k : Nat, (hk : k < res.length) → slots[k]? = some (some res[k]) := by
    intro k hk
    have := congrArg (fun l => l[k]?) hres
    simp only [List.getElem?_take, List.getElem?_map] at this
    rw [if_pos (by omega), List.getElem?_eq_getElem hk] at this
    exact this
  have hi : i < res.length := by omega
  have hj' : j < res.length := by omega
  exact ⟨res[i], res[j], hget i hi, hget j hj',
    List.pairwise_iff_getElem.mp hs i j hi hj' hij⟩

/-- C18: in the state reached from the queue `queue_p_init` returns by any run
of `queue_p_enqueue`, `queue_p_dequeue` and `queue_p_clear` calls (every call
of the run returns), the slots `0 .. currentsz - 1` hold nodes and for all
`i < j < currentsz` the priority in slot `i` is at least the priority in slot
`j`; and the single right-to-left pass of `queue_p_enqueue` over resident
nodes `pre` in non-increasing order followed by the new node `x` yields the
same nodes in non-increasing order. -/
theorem queue_p_order_invariant (c : Nat) (customfree : Option fn_ptr)
    (uninit : Nat → Option queue_p_node_t) (calls : List pq_call) (hc : 0 < c) :
    (∃ (q0 q : queue_p_t) (slots : List (Option queue_p_node_t)) (res : List queue_p_node_t),
      queue_p_init true true uninit c customfree = some q0 ∧
      pq_run q0 calls = some q ∧ q.capacity = c ∧ pq_ordered q slots res ∧
      ∀ i j : Nat, i < j → j < q.currentsz →
        ∃ a b : queue_p_node_t, slots[i]? = some (some a) ∧ slots[j]? = some (some b) ∧
          a.priority ≥ b.priority) ∧
    (∀ (pre : List queue_p_node_t) (x : queue_p_node_t) (rest : List (Option queue_p_node_t)),
      pre.Pairwise (fun a b => a.priority ≥ b.priority) →
      ∃ res' : List queue_p_node_t,
        sort_pass pre.length ((pre ++ [x]).map some ++ rest) = some (res'.map some ++ rest) ∧
        res'.Pairwise (fun a b => a.priority ≥ b.priority) ∧ res'.Perm (pre ++ [x])) := by
  have hc0 : c ≠ 0 := by omega
  refine ⟨?_, ?_⟩
  · have inv0 : pq_ordered
        ⟨c, 0, some ((List.range c).map uninit), customfree.getD fn_ptr.libc_free⟩
        ((List.range c).map uninit) [] :=
      ⟨rfl, by simp, Nat.zero_le _, by simp, List.Pairwise.nil⟩
    obtain ⟨q, slots, res, hrun, inv, hcap⟩ := pq_run_ordered calls _ _ _ inv0
    exact ⟨_, q, slots, res, by simp [queue_p_init, hc0], hrun, hcap, inv,
      fun i j hij hj => pq_ordered_index q slots res inv i j hij hj⟩
  · intro pre x rest hs
    exact ⟨pq_insert x pre, sort_pass_insert pre x rest hs, (pq_insert_descending x pre hs).1,
      pq_insert_perm x pre⟩

theorem queue_p_order_invariant_witness :
    (∃ (q0 q : queue_p_t) (slots : List (Option queue_p_node_t)) (res : List queue_p_node_t),
      queue_p_init true true (fun _ => none) 2 none = some q0 ∧
      pq_run q0 [pq_call.enqueue true (some 7) 1, pq_call.enqueue true (some 8) 2,
        pq_call.dequeue] = some q ∧ q.capacity = 2 ∧ pq_ordered q slots res ∧
      ∀ i j : Nat, i < j → j < q.currentsz →
        ∃ a b : queue_p_node_t, slots[i]? = some (some a) ∧ slots[j]? = some (some b) ∧
          a.priority ≥ b.priority) ∧
    (∀ (pre : List queue_p_node_t) (x : queue_p_node_t) (rest : List (Option queue_p_node_t)),
      pre.Pairwise (fun a b => a.priority ≥ b.priority) →
      ∃ res' : List queue_p_node_t,
        sort_pass pre.length ((pre ++ [x]).map some ++ rest) = some (res'.map some ++ rest) ∧
        res'.Pairwise (fun a b => a.priority ≥ b.priority) ∧ res'.Perm (pre ++ [x])) :=
  queue_p_order_invariant 2 none (fun _ => none)
    [pq_call.enqueue true (some 7) 1, pq_call.enqueue true (some 8) 2, pq_call.dequeue]
    (by decide)

/-! ## Theorems: capacity errors -/

/-- C21, as stated, is false for the stack: `stack_push` with a `NULL` payload
on a full stack (capacity 1, one resident node) returns `NULL_DATA`, not
`OVERFLOW`, because the payload is tested before fullness. -/
theorem stack_push_full_null_payload :
    stack_init true true 1 (some fn_ptr.custom_free) =
      some ⟨1, 0, [none], fn_ptr.custom_free⟩ ∧
    stack_push true (some ⟨1, 0, [none], fn_ptr.custom_free⟩) (some 5) =
      some (status_t.SUCCESS, some ⟨1, 1, [some ⟨5⟩], fn_ptr.custom_free⟩) ∧
    (stack_fullcheck (some ⟨1, 1, [some ⟨5⟩], fn_ptr.custom_free⟩)).nonzero = true ∧
    stack_push true (some ⟨1, 1, [some ⟨5⟩], fn_ptr.custom_free⟩) none =
      some (status_t.NULL_DATA, some ⟨1, 1, [some ⟨5⟩], fn_ptr.custom_free⟩) ∧
    stack_push true (some ⟨1, 1, [some ⟨5⟩], fn_ptr.custom_free⟩) none ≠
      some (status_t.OVERFLOW, some ⟨1, 1, [some ⟨5⟩], fn_ptr.custom_free⟩) := by
  refine ⟨?_, ?_, ?_, ?_, ?_⟩ <;> decide

/-- C21, amended: on a full container `queue_enqueue` and `queue_p_enqueue`
(any payload, any allocator outcome) and `stack_push` with a non-`NULL` payload
return `OVERFLOW`; on an empty container `queue_clear`, `queue_p_clear` and
`stack_clear` return `UNDERFLOW` and make no deallocation call; in all six
cases the container record afterwards (capacity, `currentsz`, the slot array)
is the one before the call. -/
theorem capacity_errors_atomic (malloc_ok : Bool) (data : Option Nat) (d : Nat)
    (priority : Int) (qf qe : queue_t) (pf pe : queue_p_t) (sf se : stack_t)
    (hqf : qf.currentsz ≥ qf.capacity) (hpf : pf.currentsz ≥ pf.capacity)
    (hsf : sf.currentsz ≥ sf.capacity)
    (hqe : qe.currentsz = 0) (hpe : pe.currentsz = 0) (hse : se.currentsz = 0) :
    queue_enqueue malloc_ok (some qf) data = some (status_t.OVERFLOW, some qf) ∧
    queue_p_enqueue malloc_ok (some pf) data priority = some (status_t.OVERFLOW, some pf) ∧
    stack_push malloc_ok (some sf) (some d) = some (status_t.OVERFLOW, some sf) ∧
    queue_clear (some qe) = some (status_t.UNDERFLOW, some qe, []) ∧
    queue_p_clear (some pe) = some (status_t.UNDERFLOW, some pe, []) ∧
    stack_clear (some se) = some (status_t.UNDERFLOW, some se, []) := by
  refine ⟨?_, ?_, ?_, ?_, ?_, ?_⟩
  · simp [queue_enqueue, queue_fullcheck, check_t.nonzero, hqf]
  · simp [queue_p_enqueue, queue_p_fullcheck, check_t.nonzero, hpf]
  · simp [stack_push, stack_fullcheck, check_t.nonzero, hsf]
  · simp [queue_clear, queue_emptycheck, check_t.nonzero, hqe]
  · simp [queue_p_clear, queue_p_emptycheck, check_t.nonzero, hpe]
  · simp [stack_clear, stack_emptycheck, check_t.nonzero, hse]

theorem capacity_errors_atomic_witness :
    queue_enqueue true (some ⟨1, 1, some [some ⟨5⟩], fn_ptr.libc_free⟩) (some 6) =
      some (status_t.OVERFLOW, some ⟨1, 1, some [some ⟨5⟩], fn_ptr.libc_free⟩) ∧
    queue_p_enqueue true (some ⟨1, 1, some [some ⟨5, 2⟩], fn_ptr.libc_free⟩) (some 6) 3 =
      some (status_t.OVERFLOW, some ⟨1, 1, some [some ⟨5, 2⟩], fn_ptr.libc_free⟩) ∧
    stack_push true (some ⟨1, 1, [some ⟨5⟩], fn_ptr.custom_free⟩) (some 6) =
      some (status_t.OVERFLOW, some ⟨1, 1, [some ⟨5⟩], fn_ptr.custom_free⟩) ∧
    queue_clear (some ⟨1, 0, some [none], fn_ptr.libc_free⟩) =
      some (status_t.UNDERFLOW, some ⟨1, 0, some [none], fn_ptr.libc_free⟩, []) ∧
    queue_p_clear (some ⟨1, 0, some [none], fn_ptr.libc_free⟩) =
      some (status_t.UNDERFLOW, some ⟨1, 0, some [none], fn_ptr.libc_free⟩, []) ∧
    stack_clear (some ⟨1, 0, [none], fn_ptr.custom_free⟩) =
      some (status_t.UNDERFLOW, some ⟨1, 0, [none], fn_ptr.custom_free⟩, []) :=
  capacity_errors_atomic true (some 6) 6 3
    ⟨1, 1, some [some ⟨5⟩], fn_ptr.libc_free⟩ ⟨1, 0, some [none], fn_ptr.libc_free⟩
    ⟨1, 1, some [some ⟨5, 2⟩], fn_ptr.libc_free⟩ ⟨1, 0, some [none], fn_ptr.libc_free⟩
    ⟨1, 1, [some ⟨5⟩], fn_ptr.custom_free⟩ ⟨1, 0, [none], fn_ptr.custom_free⟩
    (by decide) (by decide) (by decide) rfl rfl rfl

/-- C30: when the container is full and the payload is `NULL`, `queue_enqueue` and
`queue_p_enqueue` return `OVERFLOW` (fullness is tested before the payload)
whereas `stack_push` returns `NULL_DATA` (the payload is tested before
fullness: with a non-`NULL` payload the same stack gives `OVERFLOW`); in all
three cases the container record afterwards is the one before the call. -/
theorem full_and_null_payload (malloc_ok : Bool) (priority : Int) (d : Nat)
    (q : queue_t) (p : queue_p_t) (s : stack_t)
    (hq : q.currentsz ≥ q.capacity) (hp : p.currentsz ≥ p.capacity)
    (hs : s.currentsz ≥ s.capacity) :
    queue_enqueue malloc_ok (some q) none = some (status_t.OVERFLOW, some q) ∧
    queue_p_enqueue malloc_ok (some p) none priority = some (status_t.OVERFLOW, some p) ∧
    stack_push malloc_ok (some s) none = some (status_t.NULL_DATA, some s) ∧
    stack_push malloc_ok (some s) (some d) = some (status_t.OVERFLOW, some s) := by
  refine ⟨?_, ?_, ?_, ?_⟩
  · simp [queue_enqueue, queue_fullcheck, check_t.nonzero, hq]
  · simp [queue_p_enqueue, queue_p_fullcheck, check_t.nonzero, hp]
  · simp [stack_push]
  · simp [stack_push, stack_fullcheck, check_t.nonzero, hs]

theorem full_and_null_payload_witness :
    queue_enqueue true (some ⟨2, 2, some [some ⟨5⟩, some ⟨6⟩], fn_ptr.libc_free⟩) none =
      some (status_t.OVERFLOW, some ⟨2, 2, some [some ⟨5⟩, some ⟨6⟩], fn_ptr.libc_free⟩) ∧
    queue_p_enqueue true (some ⟨2, 2, some [some ⟨5, 9⟩, some ⟨6, 1⟩], fn_ptr.libc_free⟩)
        none 4 =
      some (status_t.OVERFLOW,
        some ⟨2, 2, some [some ⟨5, 9⟩, some ⟨6, 1⟩], fn_ptr.libc_free⟩) ∧
    stack_push true (some ⟨2, 2, [some ⟨5⟩, some ⟨6⟩], fn_ptr.custom_free⟩) none =
      some (status_t.NULL_DATA, some ⟨2, 2, [some ⟨5⟩, some ⟨6⟩], fn_ptr.custom_free⟩) ∧
    stack_push true (some ⟨2, 2, [some ⟨5⟩, some ⟨6⟩], fn_ptr.custom_free⟩) (some 7) =
      some (status_t.OVERFLOW, some ⟨2, 2, [some ⟨5⟩, some ⟨6⟩], fn_ptr.custom_free⟩) :=
  full_and_null_payload true 4 7 ⟨2, 2, some [some ⟨5⟩, some ⟨6⟩], fn_ptr.libc_free⟩
    ⟨2, 2, some [some ⟨5, 9⟩, some ⟨6, 1⟩], fn_ptr.libc_free⟩
    ⟨2, 2, [some ⟨5⟩, some ⟨6⟩], fn_ptr.custom_free⟩ (by decide) (by decide) (by decide)

/-! ## Lemmas: runs of calls on the bounded containers -/

theorem queue_bounded_length (q : queue_t) (slots : List (Option queue_node_t))
    (res : List queue_node_t) (inv : queue_bounded q slots res) : res.length = q.currentsz := by
  obtain ⟨_, hlen, hle, hres⟩ := inv
  have := congrArg List.length hres
  simp only [List.length_take, List.length_map] at this
  omega

theorem queue_drain_count (res : List queue_node_t) :
    ∀ (fuel : Nat) (q : queue_t) (slots : List (Option queue_node_t)),
      q.arr = some slots → q.currentsz ≤ slots.length →
      slots.take q.currentsz = res.map some → res.length ≤ fuel →
      ∃ (slots' : List (Option queue_node_t)) (calls : List dealloc_t),
        queue_drain fuel q = some ({ q with arr := some slots', currentsz := 0 }, calls) ∧
        slots'.length = slots.length ∧ calls.length = res.length := by
  induction res with
  | nil =>
    intro fuel q slots hq hle hres _
    have hz : q.currentsz = 0 := by
      have := congrArg List.length hres
      simp only [List.length_take, List.map_nil, List.length_nil] at this
      omega
    refine ⟨slots, [], ?_, rfl, rfl⟩
    have hq' : q = { q with arr := some slots, currentsz := 0 } := by
      cases q
      simp only at hq hz
      simp [hq, hz]
    cases fuel <;> simp [queue_drain, queue_emptycheck, check_t.nonzero, hz] <;> exact hq'
  | cons x rest ih =>
    intro fuel q slots hq hle hres hf
    have hn : q.currentsz = rest.length + 1 := by
      have := congrArg List.length hres
      simp only [List.length_take, List.map_cons, List.length_cons, List.length_map] at this
      omega
    cases fuel with
    | zero => simp at hf
    | succ f =>
      simp only [List.length_cons, Nat.add_le_add_iff_right] at hf
      have hd := queue_dequeue_eq q slots (some x) (rest.map some) hq hle
        (by simpa using hres)
      obtain ⟨slots', calls, hdr, hlen', hcl⟩ := ih f
        { q with arr := some (rest.map some ++ none :: slots.drop q.currentsz),
                 currentsz := q.currentsz - 1 }
        (rest.map some ++ none :: slots.drop q.currentsz) rfl
        (by simp; omega) (by simp [hn]) hf
      have hne : ¬ (0 = q.currentsz) := by omega
      refine ⟨slots', dealloc_t.free_node x.data :: calls, ?_, ?_, by simp [hcl]⟩
      · simp only [queue_drain, queue_emptycheck, check_t.nonzero, hne, decide_False,
          Bool.false_eq_true, if_false, hd, hdr]
      · rw [hlen']
        simp
        omega

/-- Every call on a queue that satisfies the bound invariant returns, leaves a
queue that satisfies it, keeps the capacity, and changes `currentsz` by the
number of nodes stored minus the number taken out. -/
theorem queue_step_bounded (q : queue_t) (slots : List (Option queue_node_t))
    (res : List queue_node_t) (inv : queue_bounded q slots res) (call : bounded_call) :
    ∃ (q' : queue_t) (slots' : List (Option queue_node_t)) (res' : List queue_node_t)
      (stored removed : Nat),
      queue_step q call = some (q', stored, removed) ∧ queue_bounded q' slots' res' ∧
      q'.capacity = q.capacity ∧ q'.currentsz + removed = q.currentsz + stored := by
  have hrl := queue_bounded_length q slots res inv
  obtain ⟨hq, hlen, hle, hres⟩ := inv
  cases call with
  | insert malloc_ok data priority =>
    by_cases hfull : q.currentsz ≥ q.capacity
    · exact ⟨q, slots, res, 0, 0,
        by simp [queue_step, queue_enqueue, queue_fullcheck, check_t.nonzero, hfull],
        ⟨hq, hlen, hle, hres⟩, rfl, rfl⟩
    · cases data with
      | none =>
        exact ⟨q, slots, res, 0, 0,
          by simp [queue_step, queue_enqueue, queue_fullcheck, check_t.nonzero, hfull],
          ⟨hq, hlen, hle, hres⟩, rfl, rfl⟩
      | some d =>
        cases malloc_ok with
        | false =>
          exact ⟨q, slots, res, 0, 0,
            by simp [queue_step, queue_enqueue, queue_fullcheck, check_t.nonzero, hfull, hq],
            ⟨hq, hlen, hle, hres⟩, rfl, rfl⟩
        | true =>
          obtain ⟨he, htake⟩ := queue_enqueue_eq q slots d hq hlen (by omega)
          refine ⟨{ q with arr := some (slots.set q.currentsz (some ⟨d⟩)),
                           currentsz := q.currentsz + 1 },
            slots.set q.currentsz (some ⟨d⟩), res ++ [⟨d⟩], 1, 0,
            by simp [queue_step, he], ⟨rfl, by simpa using hlen, ?_, ?_⟩, rfl, rfl⟩
          · simp only
            omega
          · simp only
            rw [htake, hres]
            simp
  | remove =>
    cases res with
    | nil =>
      simp only [List.length_nil] at hrl
      exact ⟨q, slots, [], 0, 0,
        by simp [queue_step, queue_dequeue, queue_emptycheck, check_t.nonzero, ← hrl],
        ⟨hq, hlen, hle, hres⟩, rfl, rfl⟩
    | cons x rest =>
      simp only [List.length_cons] at hrl
      have hd := queue_dequeue_eq q slots (some x) (rest.map some) hq (by omega)
        (by simpa using hres)
      refine ⟨{ q with arr := some (rest.map some ++ none :: slots.drop q.currentsz),
                       currentsz := q.currentsz - 1 },
        rest.map some ++ none :: slots.drop q.currentsz, rest, 0, 1,
        by simp [queue_step, hd], ⟨rfl, ?_, ?_, ?_⟩, rfl, ?_⟩
      · simp
        omega
      · simp only
        omega
      · simp [← hrl]
      · simp only
        omega
  | peek =>
    by_cases hz : 0 = q.currentsz
    · exact ⟨q, slots, res, 0, 0,
        by simp [queue_step, queue_peek, queue_emptycheck, check_t.nonzero, hz],
        ⟨hq, hlen, hle, hres⟩, rfl, rfl⟩
    · have h0 : 0 < slots.length := by omega
      exact ⟨q, slots, res, 0, 0,
        by simp [queue_step, queue_peek, queue_emptycheck, check_t.nonzero, hz, hq,
          List.getElem?_eq_getElem h0],
        ⟨hq, hlen, hle, hres⟩, rfl, rfl⟩
  | clear =>
    by_cases hz : 0 = q.currentsz
    · exact ⟨q, slots, res, 0, 0,
        by simp [queue_step, queue_clear, queue_emptycheck, check_t.nonzero, hz],
        ⟨hq, hlen, hle, hres⟩, rfl, by simp⟩
    · obtain ⟨slots', calls, hdr, hlen', hcl⟩ := queue_drain_count res q.currentsz q slots hq
        (by omega) hres (by omega)
      refine ⟨{ q with arr := some slots', currentsz := 0 }, slots', [], 0, calls.length,
        by simp [queue_step, queue_clear, queue_emptycheck, check_t.nonzero, hz, hdr],
        ⟨rfl, by simpa [hlen'] using hlen, by simp, by simp⟩, rfl, ?_⟩
      simp only
      omega

theorem queue_run_bounded (calls : List bounded_call) :
    ∀ (q : queue_t) (slots : List (Option queue_node_t)) (res : List queue_node_t),
      queue_bounded q slots res →
      ∃ (q' : queue_t) (slots' : List (Option queue_node_t)) (res' : List queue_node_t)
        (stored removed : Nat),
        queue_run q calls = some (q', stored, removed) ∧ queue_bounded q' slots' res' ∧
        q'.capacity = q.capacity ∧ q'.currentsz + removed = q.currentsz + stored := by
  induction calls with
  | nil =>
    intro q slots res inv
    exact ⟨q, slots, res, 0, 0, rfl, inv, rfl, rfl⟩
  | cons call rest ih =>
    intro q slots res inv
    obtain ⟨q1, slots1, res1, s1, r1, hstep, inv1, hcap1, hsz1⟩ :=
      queue_step_bounded q slots res inv call
    obtain ⟨q', slots', res', s2, r2, hrun, inv', hcap', hsz'⟩ := ih q1 slots1 res1 inv1
    exact ⟨q', slots', res', s1 + s2, r1 + r2, by simp only [queue_run, hstep, hrun], inv',
      hcap'.trans hcap1, by omega⟩

theorem queue_p_drain_count (res : List queue_p_node_t) :
    ∀ (fuel : Nat) (q : queue_p_t) (slots : List (Option queue_p_node_t)),
      q.arr = some slots → q.currentsz ≤ slots.length →
      slots.take q.currentsz = res.map some → res.length ≤ fuel →
      ∃ (slots' : List (Option queue_p_node_t)) (calls : List dealloc_t),
        queue_p_drain fuel q = some ({ q with arr := some slots', currentsz := 0 }, calls) ∧
        slots'.length = slots.length ∧ calls.length = res.length := by
  induction res with
  | nil =>
    intro fuel q slots hq hle hres _
    have hz : q.currentsz = 0 := by
      have := congrArg List.length hres
      simp only [List.length_take, List.map_nil, List.length_nil] at this
      omega
    refine ⟨slots, [], ?_, rfl, rfl⟩
    have hq' : q = { q with arr := some slots, currentsz := 0 } := by
      cases q
      simp only at hq hz
      simp [hq, hz]
    cases fuel <;> simp [queue_p_drain, queue_p_emptycheck, check_t.nonzero, hz] <;> exact hq'
  | cons x rest ih =>
    intro fuel q slots hq hle hres hf
    have hn : q.currentsz = rest.length + 1 := by
      have := congrArg List.length hres
      simp only [List.length_take, List.map_cons, List.length_cons, List.length_map] at this
      omega
    cases fuel with
    | zero => simp at hf
    | succ f =>
      simp only [List.length_cons, Nat.add_le_add_iff_right] at hf
      have hd := queue_p_dequeue_eq q slots (some x) (rest.map some) hq hle
        (by simpa using hres)
      obtain ⟨slots', calls, hdr, hlen', hcl⟩ := ih f
        { q with arr := some (rest.map some ++ none :: slots.drop q.currentsz),
                 currentsz := q.currentsz - 1 }
        (rest.map some ++ none :: slots.drop q.currentsz) rfl
        (by simp; omega) (by simp [hn]) hf
      have hne : ¬ (0 = q.currentsz) := by omega
      refine ⟨slots', dealloc_t.free_node x.data :: calls, ?_, ?_, by simp [hcl]⟩
      · simp only [queue_p_drain, queue_p_emptycheck, check_t.nonzero, hne, decide_False,
          Bool.false_eq_true, if_false, hd, hdr]
      · rw [hlen']
        simp
        omega

/-- Every call on a priority queue that satisfies the ordering invariant
returns, leaves a queue that satisfies it, keeps the capacity, and changes
`currentsz` by the number of nodes stored minus the number taken out. -/
theorem queue_p_step_bounded (q : queue_p_t) (slots : List (Option queue_p_node_t))
    (res : List queue_p_node_t) (inv : pq_ordered q slots res) (call : bounded_call) :
    ∃ (q' : queue_p_t) (slots' : List (Option queue_p_node_t)) (res' : List queue_p_node_t)
      (stored removed : Nat),
      queue_p_step q call = some (q', stored, removed) ∧ pq_ordered q' slots' res' ∧
      q'.capacity = q.capacity ∧ q'.currentsz + removed = q.currentsz + stored := by
  have hrl := pq_ordered_length q slots res inv
  obtain ⟨hq, hlen, hle, hres, hs⟩ := inv
  cases call with
  | insert malloc_ok data priority =>
    by_cases hfull : q.currentsz ≥ q.capacity
    · exact ⟨q, slots, res, 0, 0,
        by simp [queue_p_step, queue_p_enqueue, queue_p_fullcheck, check_t.nonzero, hfull],
        ⟨hq, hlen, hle, hres, hs⟩, rfl, rfl⟩
    · cases data with
      | none =>
        exact ⟨q, slots, res, 0, 0,
          by simp [queue_p_step, queue_p_enqueue, queue_p_fullcheck, check_t.nonzero, hfull],
          ⟨hq, hlen, hle, hres, hs⟩, rfl, rfl⟩
      | some d =>
        cases malloc_ok with
        | false =>
          exact ⟨q, slots, res, 0, 0,
            by simp [queue_p_step, queue_p_enqueue, queue_p_fullcheck, check_t.nonzero,
              hfull, hq],
            ⟨hq, hlen, hle, hres, hs⟩, rfl, rfl⟩
        | true =>
          have he := queue_p_enqueue_eq q slots res d priority hq hlen (by omega) hres hs
          refine ⟨{ q with arr := some ((pq_insert ⟨d, priority⟩ res).map some ++
                slots.drop (q.currentsz + 1)), currentsz := q.currentsz + 1 },
            (pq_insert ⟨d, priority⟩ res).map some ++ slots.drop (q.currentsz + 1),
            pq_insert ⟨d, priority⟩ res, 1, 0, by simp [queue_p_step, he],
            ⟨rfl, ?_, ?_, ?_, (pq_insert_descending _ res hs).1⟩, rfl, rfl⟩
          · simp [pq_insert_length, hrl]
            omega
          · simp only
            omega
          · simp only
            rw [List.take_append_eq_append_take]
            simp [pq_insert_length, hrl]
  | remove =>
    cases res with
    | nil =>
      simp only [List.length_nil] at hrl
      exact ⟨q, slots, [], 0, 0,
        by simp [queue_p_step, queue_p_dequeue, queue_p_emptycheck, check_t.nonzero, ← hrl],
        ⟨hq, hlen, hle, hres, hs⟩, rfl, rfl⟩
    | cons x rest =>
      simp only [List.length_cons] at hrl
      have hd := queue_p_dequeue_eq q slots (some x) (rest.map some) hq (by omega)
        (by simpa using hres)
      refine ⟨{ q with arr := some (rest.map some ++ none :: slots.drop q.currentsz),
                       currentsz := q.currentsz - 1 },
        rest.map some ++ none :: slots.drop q.currentsz, rest, 0, 1,
        by simp [queue_p_step, hd],
        ⟨rfl, ?_, ?_, ?_, (List.pairwise_cons.mp hs).2⟩, rfl, ?_⟩
      · simp
        omega
      · simp only
        omega
      · simp [← hrl]
      · simp only
        omega
  | peek =>
    by_cases hz : 0 = q.currentsz
    · exact ⟨q, slots, res, 0, 0,
        by simp [queue_p_step, queue_p_peek, queue_p_emptycheck, check_t.nonzero, hz],
        ⟨hq, hlen, hle, hres, hs⟩, rfl, rfl⟩
    · have h0 : 0 < slots.length := by omega
      exact ⟨q, slots, res, 0, 0,
        by simp [queue_p_step, queue_p_peek, queue_p_emptycheck, check_t.nonzero, hz, hq,
          List.getElem?_eq_getElem h0],
        ⟨hq, hlen, hle, hres, hs⟩, rfl, rfl⟩
  | clear =>
    by_cases hz : 0 = q.currentsz
    · exact ⟨q, slots, res, 0, 0,
        by simp [queue_p_step, queue_p_clear, queue_p_emptycheck, check_t.nonzero, hz],
        ⟨hq, hlen, hle, hres, hs⟩, rfl, by simp⟩
    · obtain ⟨slots', calls, hdr, hlen', hcl⟩ := queue_p_drain_count res q.currentsz q slots hq
        (by omega) hres (by omega)
      refine ⟨{ q with arr := some slots', currentsz := 0 }, slots', [], 0, calls.length,
        by simp [queue_p_step, queue_p_clear, queue_p_emptycheck, check_t.nonzero, hz, hdr],
        ⟨rfl, by simpa [hlen'] using hlen, by simp, by simp, List.Pairwise.nil⟩, rfl, ?_⟩
      simp only
      omega

theorem queue_p_run_bounded (calls : List bounded_call) :
    ∀ (q : queue_p_t) (slots : List (Option queue_p_node_t)) (res : List queue_p_node_t),
      pq_ordered q slots res →
      ∃ (q' : queue_p_t) (slots' : List (Option queue_p_node_t)) (res' : List queue_p_node_t)
        (stored removed : Nat),
        queue_p_run q calls = some (q', stored, removed) ∧ pq_ordered q' slots' res' ∧
        q'.capacity = q.capacity ∧ q'.currentsz + removed = q.currentsz + stored := by
  induction calls with
  | nil =>
    intro q slots res inv
    exact ⟨q, slots, res, 0, 0, rfl, inv, rfl, rfl⟩
  | cons call rest ih =>
    intro q slots res inv
    obtain ⟨q1, slots1, res1, s1, r1, hstep, inv1, hcap1, hsz1⟩ :=
      queue_p_step_bounded q slots res inv call
    obtain ⟨q', slots', res', s2, r2, hrun, inv', hcap', hsz'⟩ := ih q1 slots1 res1 inv1
    exact ⟨q', slots', res', s1 + s2, r1 + r2, by simp only [queue_p_run, hstep, hrun], inv',
      hcap'.trans hcap1, by omega⟩

theorem stack_bounded_length (s : stack_t) (res : List stack_node_t)
    (inv : stack_bounded s res) : res.length = s.currentsz := by
  obtain ⟨hlen, hle, hres⟩ := inv
  have := congrArg List.length hres
  simp only [List.length_take, List.length_map] at this
  omega

theorem resident_slot {α : Type} (arr : List (Option α)) (res : List α) (n i : Nat)
    (hres : arr.take n = res.map some) (hi : i < n) (hn : n ≤ arr.length) :
    ∃ x : α, arr[i]? = some (some x) ∧ res[i]? = some x := by
  have hl : res.length = n := by
    have := congrArg List.length hres
    simp only [List.length_take, List.length_map] at this
    omega
  have hlt : i < res.length := by omega
  have := congrArg (fun l => l[i]?) hres
  simp only [List.getElem?_take, List.getElem?_map] at this
  rw [if_pos hi, List.getElem?_eq_getElem hlt] at this
  exact ⟨res[i], this, List.getElem?_eq_getElem hlt⟩

theorem resident_take {α : Type} (arr : List (Option α)) (res : List α) (n m : Nat)
    (hres : arr.take n = res.map some) (hm : m ≤ n) :
    arr.take m = (res.take m).map some := by
  have := congrArg (fun l => l.take m) hres
  simp only [List.take_take, Nat.min_eq_left hm] at this
  rw [this, List.map_take]

theorem stack_drain_count (n : Nat) :
    ∀ (fuel : Nat) (s : stack_t) (res : List stack_node_t), s.currentsz = n → n ≤ fuel →
      n ≤ s.arr.length → s.arr.take n = res.map some →
      ∃ calls : List dealloc_t,
        stack_drain fuel s = some ({ s with currentsz := 0 }, calls) ∧ calls.length = n := by
  induction n with
  | zero =>
    intro fuel s res hz _ _ _
    refine ⟨[], ?_, rfl⟩
    have hs : s = { s with currentsz := 0 } := by
      cases s
      simp only at hz
      simp [hz]
    cases fuel <;> simp [stack_drain, stack_emptycheck, check_t.nonzero, hz] <;> exact hs
  | succ n ih =>
    intro fuel s res hsz hf hlen hres
    cases fuel with
    | zero => omega
    | succ f =>
      obtain ⟨x, hx, _⟩ := resident_slot s.arr res (n + 1) n hres (by omega) hlen
      obtain ⟨calls, hd, hcl⟩ := ih f { s with currentsz := n } (res.take n) rfl (by omega)
        (by simp; omega) (resident_take s.arr res (n + 1) n hres (by omega))
      refine ⟨dealloc_t.free_node x.data :: calls, ?_, by simp [hcl]⟩
      simp only at hd
      simp [stack_drain, stack_emptycheck, check_t.nonzero, stack_pop, hsz, hx, hd]

/-- Every call on a stack that satisfies the bound invariant returns, leaves a
stack that satisfies it, keeps the capacity, and changes `currentsz` by the
number of nodes stored minus the number taken out. -/
theorem stack_step_bounded (s : stack_t) (res : List stack_node_t)
    (inv : stack_bounded s res) (call : bounded_call) :
    ∃ (s' : stack_t) (res' : List stack_node_t) (stored removed : Nat),
      stack_step s call = some (s', stored, removed) ∧ stack_bounded s' res' ∧
      s'.capacity = s.capacity ∧ s'.currentsz + removed = s.currentsz + stored := by
  have hrl := stack_bounded_length s res inv
  obtain ⟨hlen, hle, hres⟩ := inv
  cases call with
  | insert malloc_ok data priority =>
    cases data with
    | none =>
      exact ⟨s, res, 0, 0, by simp [stack_step, stack_push], ⟨hlen, hle, hres⟩, rfl, rfl⟩
    | some d =>
      by_cases hfull : s.currentsz ≥ s.capacity
      · exact ⟨s, res, 0, 0,
          by simp [stack_step, stack_push, stack_fullcheck, check_t.nonzero, hfull],
          ⟨hlen, hle, hres⟩, rfl, rfl⟩
      · cases malloc_ok with
        | false =>
          exact ⟨s, res, 0, 0,
            by simp [stack_step, stack_push, stack_fullcheck, check_t.nonzero, hfull],
            ⟨hlen, hle, hres⟩, rfl, rfl⟩
        | true =>
          have hlt : s.currentsz < s.arr.length := by omega
          refine ⟨{ s with arr := s.arr.set s.currentsz (some ⟨d⟩),
                           currentsz := s.currentsz + 1 }, res ++ [⟨d⟩], 1, 0,
            by simp [stack_step, stack_push, stack_fullcheck, check_t.nonzero, hfull, hlt],
            ⟨by simpa using hlen, ?_, ?_⟩, rfl, rfl⟩
          · simp only
            omega
          · simp only
            rw [List.take_succ, take_set_of_le _ _ _ _ (Nat.le_refl _),
              List.getElem?_set_self hlt, hres]
            simp
  | remove =>
    by_cases hz : 0 = s.currentsz
    · exact ⟨s, res, 0, 0,
        by simp [stack_step, stack_pop, stack_emptycheck, check_t.nonzero, hz],
        ⟨hlen, hle, hres⟩, rfl, rfl⟩
    · obtain ⟨x, hx, _⟩ := resident_slot s.arr res s.currentsz (s.currentsz - 1) hres
        (by omega) (by omega)
      refine ⟨{ s with currentsz := s.currentsz - 1 }, res.take (s.currentsz - 1), 0, 1,
        by simp [stack_step, stack_pop, stack_emptycheck, check_t.nonzero, hz, hx],
        ⟨hlen, ?_, resident_take s.arr res s.currentsz (s.currentsz - 1) hres (by omega)⟩,
        rfl, ?_⟩
      · simp only
        omega
      · simp only
        omega
  | peek =>
    by_cases hz : 0 = s.currentsz
    · exact ⟨s, res, 0, 0,
        by simp [stack_step, stack_peek, stack_emptycheck, check_t.nonzero, hz],
        ⟨hlen, hle, hres⟩, rfl, rfl⟩
    · obtain ⟨x, hx, _⟩ := resident_slot s.arr res s.currentsz (s.currentsz - 1) hres
        (by omega) (by omega)
      exact ⟨s, res, 0, 0,
        by simp [stack_step, stack_peek, stack_emptycheck, check_t.nonzero, hz, hx],
        ⟨hlen, hle, hres⟩, rfl, rfl⟩
  | clear =>
    by_cases hz : 0 = s.currentsz
    · exact ⟨s, res, 0, 0,
        by simp [stack_step, stack_clear, stack_emptycheck, check_t.nonzero, hz],
        ⟨hlen, hle, hres⟩, rfl, by simp⟩
    · obtain ⟨calls, hdr, hcl⟩ := stack_drain_count s.currentsz s.currentsz s res rfl
        (Nat.le_refl _) (by omega) hres
      refine ⟨{ s with currentsz := 0 }, [], 0, calls.length,
        by simp [stack_step, stack_clear, stack_emptycheck, check_t.nonzero, hz, hdr],
        ⟨hlen, by simp, by simp⟩, rfl, ?_⟩
      simp only
      omega

theorem stack_run_bounded (calls : List bounded_call) :
    ∀ (s : stack_t) (res : List stack_node_t), stack_bounded s res →
      ∃ (s' : stack_t) (res' : List stack_node_t) (stored removed : Nat),
        stack_run s calls = some (s', stored, removed) ∧ stack_bounded s' res' ∧
        s'.capacity = s.capacity ∧ s'.currentsz + removed = s.currentsz + stored := by
  induction calls with
  | nil =>
    intro s res inv
    exact ⟨s, res, 0, 0, rfl, inv, rfl, rfl⟩
  | cons call rest ih =>
    intro s res inv
    obtain ⟨s1, res1, i1, r1, hstep, inv1, hcap1, hsz1⟩ := stack_step_bounded s res inv call
    obtain ⟨s', res', i2, r2, hrun, inv', hcap', hsz'⟩ := ih s1 res1 inv1
    exact ⟨s', res', i1 + i2, r1 + r2, by simp only [stack_run, hstep, hrun], inv',
      hcap'.trans hcap1, by omega⟩

/-! ## Theorems: runs of calls on the bounded containers -/

/-- C22: for the queue, the priority queue and the stack, `emptycheck` returns 1
on the container a successful `init` returns, and after any run of insert
(`enqueue`/`push`), removal (`dequeue`/`pop`), `peek` and `clear` calls from
there (every call of the run returns) it returns 1 when the number of nodes
stored by successful inserts equals the number of nodes taken out by removals
and clears, and 0 otherwise. -/
theorem emptycheck_counts (c : Nat) (customfree : Option fn_ptr) (hook : fn_ptr)
    (uninit : Nat → Option queue_p_node_t) (calls : List bounded_call) (hc : 0 < c) :
    (∃ (q0 q : queue_t) (stored removed : Nat),
      queue_init true true c customfree = some q0 ∧
      queue_emptycheck (some q0) = check_t.truth true ∧
      queue_run q0 calls = some (q, stored, removed) ∧
      queue_emptycheck (some q) = check_t.truth (decide (stored = removed))) ∧
    (∃ (q0 q : queue_p_t) (stored removed : Nat),
      queue_p_init true true uninit c customfree = some q0 ∧
      queue_p_emptycheck (some q0) = check_t.truth true ∧
      queue_p_run q0 calls = some (q, stored, removed) ∧
      queue_p_emptycheck (some q) = check_t.truth (decide (stored = removed))) ∧
    (∃ (s0 s : stack_t) (stored removed : Nat),
      stack_init true true c (some hook) = some s0 ∧
      stack_emptycheck (some s0) = check_t.truth true ∧
      stack_run s0 calls = some (s, stored, removed) ∧
      stack_emptycheck (some s) = check_t.truth (decide (stored = removed))) := by
  have hc0 : c ≠ 0 := by omega
  refine ⟨?_, ?_, ?_⟩
  · have inv0 : queue_bounded
        ⟨c, 0, some (List.replicate c none), customfree.getD fn_ptr.libc_free⟩
        (List.replicate c none) [] :=
      ⟨rfl, by simp, Nat.zero_le _, by simp⟩
    obtain ⟨q, _, _, stored, removed, hrun, _, _, hsz⟩ := queue_run_bounded calls _ _ _ inv0
    simp only at hsz
    exact ⟨⟨c, 0, some (List.replicate c none), customfree.getD fn_ptr.libc_free⟩, q, stored,
      removed, by simp [queue_init, hc0], rfl, hrun,
      congrArg check_t.truth (decide_eq_decide.mpr (by omega))⟩
  · have inv0 : pq_ordered
        ⟨c, 0, some ((List.range c).map uninit), customfree.getD fn_ptr.libc_free⟩
        ((List.range c).map uninit) [] :=
      ⟨rfl, by simp, Nat.zero_le _, by simp, List.Pairwise.nil⟩
    obtain ⟨q, _, _, stored, removed, hrun, _, _, hsz⟩ := queue_p_run_bounded calls _ _ _ inv0
    simp only at hsz
    exact ⟨⟨c, 0, some ((List.range c).map uninit), customfree.getD fn_ptr.libc_free⟩, q,
      stored, removed, by simp [queue_p_init, hc0], rfl, hrun,
      congrArg check_t.truth (decide_eq_decide.mpr (by omega))⟩
  · have inv0 : stack_bounded ⟨c, 0, List.replicate c none, hook⟩ [] :=
      ⟨by simp, Nat.zero_le _, by simp⟩
    obtain ⟨s, _, stored, removed, hrun, _, _, hsz⟩ := stack_run_bounded calls _ _ inv0
    simp only at hsz
    exact ⟨⟨c, 0, List.replicate c none, hook⟩, s, stored, removed,
      by simp [stack_init, hc0], rfl, hrun,
      congrArg check_t.truth (decide_eq_decide.mpr (by omega))⟩

theorem emptycheck_counts_witness :
    (∃ (q0 q : queue_t) (stored removed : Nat),
      queue_init true true 2 none = some q0 ∧
      queue_emptycheck (some q0) = check_t.truth true ∧
      queue_run q0 [bounded_call.insert true (some 7) 1, bounded_call.peek,
        bounded_call.insert true (some 8) 2, bounded_call.insert true (some 9) 3,
        bounded_call.remove, bounded_call.clear, bounded_call.remove] =
          some (q, stored, removed) ∧
      queue_emptycheck (some q) = check_t.truth (decide (stored = removed))) ∧
    (∃ (q0 q : queue_p_t) (stored removed : Nat),
      queue_p_init true true (fun _ => none) 2 none = some q0 ∧
      queue_p_emptycheck (some q0) = check_t.truth true ∧
      queue_p_run q0 [bounded_call.insert true (some 7) 1, bounded_call.peek,
        bounded_call.insert true (some 8) 2, bounded_call.insert true (some 9) 3,
        bounded_call.remove, bounded_call.clear, bounded_call.remove] =
          some (q, stored, removed) ∧
      queue_p_emptycheck (some q) = check_t.truth (decide (stored = removed))) ∧
    (∃ (s0 s : stack_t) (stored removed : Nat),
      stack_init true true 2 (some fn_ptr.custom_free) = some s0 ∧
      stack_emptycheck (some s0) = check_t.truth true ∧
      stack_run s0 [bounded_call.insert true (some 7) 1, bounded_call.peek,
        bounded_call.insert true (some 8) 2, bounded_call.insert true (some 9) 3,
        bounded_call.remove, bounded_call.clear, bounded_call.remove] =
          some (s, stored, removed) ∧
      stack_emptycheck (some s) = check_t.truth (decide (stored = removed))) :=
  emptycheck_counts 2 none fn_ptr.custom_free (fun _ => none)
    [bounded_call.insert true (some 7) 1, bounded_call.peek,
      bounded_call.insert true (some 8) 2, bounded_call.insert true (some 9) 3,
      bounded_call.remove, bounded_call.clear, bounded_call.remove] (by decide)

/-- C23: for the queue, the priority queue and the stack, any run of insert
(`enqueue`/`push`), removal (`dequeue`/`pop`), `peek` and `clear` calls from
the container a successful `init` with capacity `c` returns is a run in which
every call returns, that is, no call reads or writes a slot outside the slot
array; in the state reached the capacity is still `c`, the slot array has `c`
slots, and `currentsz` (an unsigned number) is at most the capacity. -/
theorem bound_invariant (c : Nat) (customfree : Option fn_ptr) (hook : fn_ptr)
    (uninit : Nat → Option queue_p_node_t) (calls : List bounded_call) (hc : 0 < c) :
    (∃ (q0 q : queue_t) (slots : List (Option queue_node_t)) (stored removed : Nat),
      queue_init true true c customfree = some q0 ∧
      queue_run q0 calls = some (q, stored, removed) ∧
      q.capacity = c ∧ q.currentsz ≤ q.capacity ∧ q.arr = some slots ∧ slots.length = c) ∧
    (∃ (q0 q : queue_p_t) (slots : List (Option queue_p_node_t)) (stored removed : Nat),
      queue_p_init true true uninit c customfree = some q0 ∧
      queue_p_run q0 calls = some (q, stored, removed) ∧
      q.capacity = c ∧ q.currentsz ≤ q.capacity ∧ q.arr = some slots ∧ slots.length = c) ∧
    (∃ (s0 s : stack_t) (stored removed : Nat),
      stack_init true true c (some hook) = some s0 ∧
      stack_run s0 calls = some (s, stored, removed) ∧
      s.capacity = c ∧ s.currentsz ≤ s.capacity ∧ s.arr.length = c) := by
  have hc0 : c ≠ 0 := by omega
  refine ⟨?_, ?_, ?_⟩
  · have inv0 : queue_bounded
        ⟨c, 0, some (List.replicate c none), customfree.getD fn_ptr.libc_free⟩
        (List.replicate c none) [] :=
      ⟨rfl, by simp, Nat.zero_le _, by simp⟩
    obtain ⟨q, slots, _, stored, removed, hrun, ⟨hq, hlen, hle, _⟩, hcap, _⟩ :=
      queue_run_bounded calls _ _ _ inv0
    exact ⟨_, q, slots, stored, removed, by simp [queue_init, hc0], hrun, hcap, hle, hq,
      hlen.trans hcap⟩
  · have inv0 : pq_ordered
        ⟨c, 0, some ((List.range c).map uninit), customfree.getD fn_ptr.libc_free⟩
        ((List.range c).map uninit) [] :=
      ⟨rfl, by simp, Nat.zero_le _, by simp, List.Pairwise.nil⟩
    obtain ⟨q, slots, _, stored, removed, hrun, ⟨hq, hlen, hle, _, _⟩, hcap, _⟩ :=
      queue_p_run_bounded calls _ _ _ inv0
    exact ⟨_, q, slots, stored, removed, by simp [queue_p_init, hc0], hrun, hcap, hle, hq,
      hlen.trans hcap⟩
  · have inv0 : stack_bounded ⟨c, 0, List.replicate c none, hook⟩ [] :=
      ⟨by simp, Nat.zero_le _, by simp⟩
    obtain ⟨s, _, stored, removed, hrun, ⟨hlen, hle, _⟩, hcap, _⟩ :=
      stack_run_bounded calls _ _ inv0
    exact ⟨_, s, stored, removed, by simp [stack_init, hc0], hrun, hcap, hle,
      hlen.trans hcap⟩

theorem bound_invariant_witness :
    (∃ (q0 q : queue_t) (slots : List (Option queue_node_t)) (stored removed : Nat),
      queue_init true true 2 none = some q0 ∧
      queue_run q0 [bounded_call.insert true (some 7) 1, bounded_call.insert true (some 8) 2,
        bounded_call.insert true (some 9) 3, bounded_call.remove, bounded_call.peek,
        bounded_call.clear] = some (q, stored, removed) ∧
      q.capacity = 2 ∧ q.currentsz ≤ q.capacity ∧ q.arr = some slots ∧ slots.length = 2) ∧
    (∃ (q0 q : queue_p_t) (slots : List (Option queue_p_node_t)) (stored removed : Nat),
      queue_p_init true true (fun _ => none) 2 none = some q0 ∧
      queue_p_run q0 [bounded_call.insert true (some 7) 1,
        bounded_call.insert true (some 8) 2, bounded_call.insert true (some 9) 3,
        bounded_call.remove, bounded_call.peek, bounded_call.clear] =
          some (q, stored, removed) ∧
      q.capacity = 2 ∧ q.currentsz ≤ q.capacity ∧ q.arr = some slots ∧ slots.length = 2) ∧
    (∃ (s0 s : stack_t) (stored removed : Nat),
      stack_init true true 2 (some fn_ptr.custom_free) = some s0 ∧
      stack_run s0 [bounded_call.insert true (some 7) 1, bounded_call.insert true (some 8) 2,
        bounded_call.insert true (some 9) 3, bounded_call.remove, bounded_call.peek,
        bounded_call.clear] = some (s, stored, removed) ∧
      s.capacity = 2 ∧ s.currentsz ≤ s.capacity ∧ s.arr.length = 2) :=
  bound_invariant 2 none fn_ptr.custom_free (fun _ => none)
    [bounded_call.insert true (some 7) 1, bounded_call.insert true (some 8) 2,
      bounded_call.insert true (some 9) 3, bounded_call.remove, bounded_call.peek,
      bounded_call.clear] (by decide)

/-! ## Lemmas: clearing the hash table -/

theorem clear_loop_table (r : Nat) :
    ∀ (x : Nat) (table : List (List node_t)), x + r ≤ table.length →
      ∃ calls : List dealloc_t, clear_loop r x table =
        some (table.take x ++ List.replicate r [] ++ table.drop (x + r), calls) := by
  induction r with
  | zero =>
    intro x table _
    exact ⟨[], by simp [clear_loop]⟩
  | succ r ih =>
    intro x table hle
    have hx : x < table.length := by omega
    obtain ⟨calls, hc⟩ := ih (x + 1) (table.set x []) (by simp; omega)
    refine ⟨clear_chain table[x] ++ calls, ?_⟩
    simp only [clear_loop, List.getElem?_eq_getElem hx, hc]
    have h1 : (table.set x []).take (x + 1) = table.take x ++ [[]] := by
      rw [List.take_succ, take_set_of_le _ _ _ _ (Nat.le_refl _), List.getElem?_set_self hx]
      rfl
    have h2 : (table.set x []).drop (x + 1 + r) = table.drop (x + (r + 1)) := by
      rw [List.drop_set_of_lt _ _ (by omega)]
      congr 1
      omega
    rw [h1, h2]
    simp [List.replicate_succ]

/-- On a table whose bucket array has `size` entries `hash_table_clear` returns
`SUCCESS` and leaves `size` empty chains. -/
theorem hash_table_clear_eq (t : hash_table_t) (hwf : t.table.length = t.size) :
    ∃ calls : List dealloc_t, hash_table_clear (some t) =
      some (SUCCESS, some { t with table := List.replicate t.size [] }, calls) := by
  obtain ⟨calls, hc⟩ := clear_loop_table t.size 0 t.table (by omega)
  refine ⟨calls, ?_⟩
  simp only [hash_table_clear, hc]
  simp [← hwf]

theorem lookup_after_clear (size : Nat) (k : Key) (hs : 0 < size) :
    hash_table_lookup (some ⟨size, List.replicate size []⟩) (some k) = some none := by
  have hne : size ≠ 0 := by omega
  have hlt : hash_loop k 0 % size < size := Nat.mod_lt _ hs
  simp [hash_table_lookup, hash_function, hne, hlt, lookup_scan]

/-- C24: on a table with bucket array `chains` `hash_table_clear` returns
`SUCCESS` and leaves as many buckets, all with an empty chain; `hash_table_lookup`
on the cleared table returns `NULL` for every key when there is at least one
bucket, and has no defined result on a table with no bucket, such as the one
`hash_table_init(0, NULL)` returns (remainder by zero in `hash_function`);
`hash_table_clear(NULL)` returns `FAILURE`. -/
theorem hash_table_clear_then_lookup (chains : List (List node_t)) (k : Key) :
    (∃ calls : List dealloc_t, hash_table_clear (some ⟨chains.length, chains⟩) =
      some (SUCCESS, some ⟨chains.length, List.replicate chains.length []⟩, calls)) ∧
    hash_table_lookup (some ⟨chains.length, List.replicate chains.length []⟩) (some k) =
      (if chains.length = 0 then none else some none) ∧
    hash_table_clear none = some (FAILURE, none, []) ∧
    hash_table_init true true 0 none = some ⟨0, []⟩ ∧
    hash_table_clear (some ⟨0, []⟩) = some (SUCCESS, some ⟨0, []⟩, []) ∧
    hash_table_lookup (some ⟨0, []⟩) (some [97]) = none := by
  refine ⟨?_, ?_, rfl, by decide, by decide, by decide⟩
  · obtain ⟨calls, hc⟩ := hash_table_clear_eq ⟨chains.length, chains⟩ rfl
    exact ⟨calls, hc⟩
  · by_cases hz : chains.length = 0
    · rw [if_pos hz, hz]
      simp [hash_table_lookup, hash_function]
    · rw [if_neg hz]
      exact lookup_after_clear chains.length k (by omega)

/-! ## Lemmas: adds in different buckets -/

theorem hash_table_add_eq (t : hash_table_t) (d : Nat) (k : Key) (i : Nat)
    (chain : List node_t) (hi : hash_function k t.size = some i)
    (hc : t.table[i]? = some chain) :
    hash_table_add true true (some t) (some d) (some k) =
      some (SUCCESS, some { t with table := t.table.set i (chain ++ [⟨k, d⟩]) }) := by
  simp [hash_table_add, hi, hc, link_at_end_eq]

theorem bucket_of_index (t : hash_table_t) (k : Key) (i : Nat)
    (hwf : t.table.length = t.size) (hi : hash_function k t.size = some i) :
    ∃ chain : List node_t, t.table[i]? = some chain := by
  have hlt : i < t.table.length := by
    rw [hwf]
    exact hash_function_lt k t.size i hi
  exact ⟨t.table[i], List.getElem?_eq_getElem hlt⟩

/-- C25: on a table whose bucket array has `size` entries, for keys `k1`, `k2`
whose bucket indices differ: a successful add under `k1` leaves the result of
`hash_table_lookup` for `k2` as it was, and a successful add under `k2` leaves
the result for `k1` as it was; when the lookups of both keys return `NULL`
before, then after `add(t, d1, k1)` and `add(t, d2, k2)`, in either order, the
lookup of `k1` returns `d1` and the lookup of `k2` returns `d2`. -/
theorem hash_table_add_other_bucket (t : hash_table_t) (k1 k2 : Key) (d1 d2 i1 i2 : Nat)
    (hwf : t.table.length = t.size)
    (h1 : hash_function k1 t.size = some i1) (h2 : hash_function k2 t.size = some i2)
    (hne : i1 ≠ i2) :
    ∃ t1 t2 t12 t21 : hash_table_t,
      hash_table_add true true (some t) (some d1) (some k1) = some (SUCCESS, some t1) ∧
      hash_table_lookup (some t1) (some k2) = hash_table_lookup (some t) (some k2) ∧
      hash_table_add true true (some t) (some d2) (some k2) = some (SUCCESS, some t2) ∧
      hash_table_lookup (some t2) (some k1) = hash_table_lookup (some t) (some k1) ∧
      hash_table_add true true (some t1) (some d2) (some k2) = some (SUCCESS, some t12) ∧
      hash_table_add true true (some t2) (some d1) (some k1) = some (SUCCESS, some t21) ∧
      (hash_table_lookup (some t) (some k1) = some none →
        hash_table_lookup (some t) (some k2) = some none →
        hash_table_lookup (some t12) (some k1) = some (some d1) ∧
        hash_table_lookup (some t12) (some k2) = some (some d2) ∧
        hash_table_lookup (some t21) (some k1) = some (some d1) ∧
        hash_table_lookup (some t21) (some k2) = some (some d2)) := by
  obtain ⟨c1, hc1⟩ := bucket_of_index t k1 i1 hwf h1
  obtain ⟨c2, hc2⟩ := bucket_of_index t k2 i2 hwf h2
  have hl1 : i1 < t.table.length := by
    rw [hwf]
    exact hash_function_lt k1 t.size i1 h1
  have hl2 : i2 < t.table.length := by
    rw [hwf]
    exact hash_function_lt k2 t.size i2 h2
  have hne' : i2 ≠ i1 := fun h => hne h.symm
  -- the four tables
  have e1 := hash_table_add_eq t d1 k1 i1 c1 h1 hc1
  have e2 := hash_table_add_eq t d2 k2 i2 c2 h2 hc2
  have hc12 : (t.table.set i1 (c1 ++ [⟨k1, d1⟩]))[i2]? = some c2 := by
    rw [List.getElem?_set_ne hne, hc2]
  have hc21 : (t.table.set i2 (c2 ++ [⟨k2, d2⟩]))[i1]? = some c1 := by
    rw [List.getElem?_set_ne hne', hc1]
  have e12 := hash_table_add_eq { t with table := t.table.set i1 (c1 ++ [⟨k1, d1⟩]) }
    d2 k2 i2 c2 h2 hc12
  have e21 := hash_table_add_eq { t with table := t.table.set i2 (c2 ++ [⟨k2, d2⟩]) }
    d1 k1 i1 c1 h1 hc21
  -- the lookups
  have l0k1 := hash_table_lookup_eq t k1 i1 c1 h1 hc1
  have l0k2 := hash_table_lookup_eq t k2 i2 c2 h2 hc2
  have l1k2 := hash_table_lookup_eq { t with table := t.table.set i1 (c1 ++ [⟨k1, d1⟩]) }
    k2 i2 c2 h2 hc12
  have l2k1 := hash_table_lookup_eq { t with table := t.table.set i2 (c2 ++ [⟨k2, d2⟩]) }
    k1 i1 c1 h1 hc21
  refine ⟨_, _, _, _, e1, l1k2.trans l0k2.symm, e2, l2k1.trans l0k1.symm, e12, e21, ?_⟩
  intro hn1 hn2
  rw [l0k1] at hn1
  rw [l0k2] at hn2
  have hs1 : lookup_scan k1 c1 = none := Option.some.inj hn1
  have hs2 : lookup_scan k2 c2 = none := Option.some.inj hn2
  have hn1' : lookup_scan k1 (c1 ++ [⟨k1, d1⟩]) = some d1 := by
    rw [lookup_scan_append, hs1]
    simp [lookup_scan]
  have hn2' : lookup_scan k2 (c2 ++ [⟨k2, d2⟩]) = some d2 := by
    rw [lookup_scan_append, hs2]
    simp [lookup_scan]
  have l12k1 := hash_table_lookup_eq
    { size := t.size,
      table := (t.table.set i1 (c1 ++ [⟨k1, d1⟩])).set i2 (c2 ++ [⟨k2, d2⟩]) }
    k1 i1 (c1 ++ [⟨k1, d1⟩]) h1 (by simp [List.getElem?_set_ne hne', hl1])
  have l12k2 := hash_table_lookup_eq
    { size := t.size,
      table := (t.table.set i1 (c1 ++ [⟨k1, d1⟩])).set i2 (c2 ++ [⟨k2, d2⟩]) }
    k2 i2 (c2 ++ [⟨k2, d2⟩]) h2 (by simp [hl2])
  have l21k1 := hash_table_lookup_eq
    { size := t.size,
      table := (t.table.set i2 (c2 ++ [⟨k2, d2⟩])).set i1 (c1 ++ [⟨k1, d1⟩]) }
    k1 i1 (c1 ++ [⟨k1, d1⟩]) h1 (by simp [hl1])
  have l21k2 := hash_table_lookup_eq
    { size := t.size,
      table := (t.table.set i2 (c2 ++ [⟨k2, d2⟩])).set i1 (c1 ++ [⟨k1, d1⟩]) }
    k2 i2 (c2 ++ [⟨k2, d2⟩]) h2 (by simp [List.getElem?_set_ne hne, hl2])
  rw [hn1'] at l12k1 l21k1
  rw [hn2'] at l12k2 l21k2
  exact ⟨l12k1, l12k2, l21k1, l21k2⟩

theorem hash_table_add_other_bucket_witness :
    ∃ t1 t2 t12 t21 : hash_table_t,
      hash_table_add true true (some ⟨2, [[], []]⟩) (some 5) (some [97]) =
        some (SUCCESS, some t1) ∧
      hash_table_lookup (some t1) (some [98]) =
        hash_table_lookup (some ⟨2, [[], []]⟩) (some [98]) ∧
      hash_table_add true true (some ⟨2, [[], []]⟩) (some 6) (some [98]) =
        some (SUCCESS, some t2) ∧
      hash_table_lookup (some t2) (some [97]) =
        hash_table_lookup (some ⟨2, [[], []]⟩) (some [97]) ∧
      hash_table_add true true (some t1) (some 6) (some [98]) = some (SUCCESS, some t12) ∧
      hash_table_add true true (some t2) (some 5) (some [97]) = some (SUCCESS, some t21) ∧
      (hash_table_lookup (some ⟨2, [[], []]⟩) (some [97]) = some none →
        hash_table_lookup (some ⟨2, [[], []]⟩) (some [98]) = some none →
        hash_table_lookup (some t12) (some [97]) = some (some 5) ∧
        hash_table_lookup (some t12) (some [98]) = some (some 6) ∧
        hash_table_lookup (some t21) (some [97]) = some (some 5) ∧
        hash_table_lookup (some t21) (some [98]) = some (some 6)) :=
  hash_table_add_other_bucket ⟨2, [[], []]⟩ [97] [98] 5 6 1 0 rfl (by decide) (by decide)
    (by decide)

/-! ## Lemmas: removal of the last node -/

theorem pop_tail_scan_eq (h : heap_t) (sl last : Nat) (ys : List Nat) :
    ∀ (c fuel : Nat), is_chain h (some c) (ys ++ [sl, last]) = true → ys.length + 1 ≤ fuel →
      pop_tail_scan fuel h c (some last) = some sl := by
  induction ys with
  | nil =>
    intro c fuel hc hf
    have hnd := is_chain_nodup h _ _ hc
    simp only [List.nil_append] at hc
    rw [is_chain_cons] at hc
    obtain ⟨hp, n, hn, hrest⟩ := hc
    rw [is_chain_cons] at hrest
    obtain ⟨hnx, _⟩ := hrest
    cases Option.some.inj hp
    cases fuel with
    | zero => simp at hf
    | succ f => simp [pop_tail_scan, hn, hnx]
  | cons y ys ih =>
    intro c fuel hc hf
    have hnd := is_chain_nodup h _ _ hc
    simp only [List.cons_append] at hc
    rw [is_chain_cons] at hc
    obtain ⟨hp, n, hn, hrest⟩ := hc
    cases Option.some.inj hp
    have hhead := is_chain_head h _ _ hrest
    cases fuel with
    | zero => simp at hf
    | succ f =>
      simp only [List.length_cons, Nat.add_le_add_iff_right] at hf
      cases ys with
      | nil =>
        simp only [List.nil_append, List.getElem?_cons_zero] at hhead
        rw [hhead] at hrest
        have hne : sl ≠ last := by
          intro he
          subst he
          simp at hnd
        have := ih sl f hrest hf
        simp [pop_tail_scan, hn, hhead, hne, this]
      | cons z zs =>
        simp only [List.cons_append, List.getElem?_cons_zero] at hhead
        rw [hhead] at hrest
        have hne : z ≠ last := by
          intro he
          subst he
          simp at hnd
        have := ih z f hrest hf
        simp [pop_tail_scan, hn, hhead, hne, this]

theorem is_chain_cut (h : heap_t) (sl last : Nat) (sn : list_node_t) (ys : List Nat) :
    ∀ (p : Option Nat), is_chain h p (ys ++ [sl, last]) = true → heap_read h sl = some sn →
      is_chain (heap_write h sl { sn with next := none }) p (ys ++ [sl]) = true := by
  induction ys with
  | nil =>
    intro p hc hsn
    simp only [List.nil_append] at hc ⊢
    rw [is_chain_cons] at hc ⊢
    obtain ⟨hp, n, hn, _⟩ := hc
    exact ⟨hp, _, heap_read_write_same h sl _ (heap_read_lt h sl n hn), by simp [is_chain]⟩
  | cons y ys ih =>
    intro p hc hsn
    have hnd := is_chain_nodup h _ _ hc
    simp only [List.cons_append] at hc ⊢
    rw [is_chain_cons] at hc ⊢
    obtain ⟨hp, n, hn, hrest⟩ := hc
    have hne : sl ≠ y := by
      intro he
      subst he
      simp at hnd
    exact ⟨hp, n, by rw [heap_read_write_ne h sl y _ hne, hn], ih n.next hrest hsn⟩

theorem heap_write_next_fields (h : heap_t) (sl : Nat) (sn : list_node_t) (v : Option Nat)
    (hsn : heap_read h sl = some sn) (a : Nat) :
    (heap_read (heap_write h sl { sn with next := v }) a).map
        (fun n => (n.position, n.data)) =
      (heap_read h a).map (fun n => (n.position, n.data)) := by
  by_cases he : sl = a
  · subst he
    rw [heap_read_write_same h sl _ (heap_read_lt h sl sn hsn), hsn]
    rfl
  · rw [heap_read_write_ne h sl a _ he]

theorem fields_read (h h' : heap_t)
    (hf : ∀ a : Nat, (heap_read h' a).map (fun n => (n.position, n.data)) =
      (heap_read h a).map (fun n => (n.position, n.data)))
    (a : Nat) (n : list_node_t) (hn : heap_read h a = some n) :
    ∃ n', heap_read h' a = some n' ∧ n'.position = n.position ∧ n'.data = n.data := by
  have := hf a
  rw [hn] at this
  cases hr : heap_read h' a with
  | none => rw [hr] at this; simp at this
  | some n' =>
    rw [hr] at this
    simp only [Option.map_some', Option.some.injEq, Prod.mk.injEq] at this
    exact ⟨n', rfl, this.1, this.2⟩

theorem fields_chain_data (h h' : heap_t)
    (hf : ∀ a : Nat, (heap_read h' a).map (fun n => (n.position, n.data)) =
      (heap_read h a).map (fun n => (n.position, n.data)))
    (xs : List Nat) : chain_data h' xs = chain_data h xs := by
  apply chain_data_congr
  intro a _
  have := congrArg (fun o => o.map Prod.snd) (hf a)
  simpa [Option.map_map, Function.comp_def] using this

theorem fields_has_positions (h h' : heap_t)
    (hf : ∀ a : Nat, (heap_read h' a).map (fun n => (n.position, n.data)) =
      (heap_read h a).map (fun n => (n.position, n.data)))
    (xs : List Nat) (pos : Nat) (hp : has_positions h xs pos = true) :
    has_positions h' xs pos = true := by
  apply has_positions_congr h h' xs pos _ hp
  intro a _ n hn
  obtain ⟨n', hn', hpos, _⟩ := fields_read h h' hf a n hn
  exact ⟨n', hn', hpos⟩
/-- C26: on a well-formed list whose nodes are `init` followed by `last`
(`n ≥ 1` nodes) `list_pop_tail` returns the last node, whose `next` field is
`NULL` afterwards; the list is then well-formed over the nodes `init` (so the
positions still equal the indices and the new tail, the former second-to-last
node, has no successor), its payloads are the earlier ones without the last,
its size is one less, and no record has a changed `position` or `data` field;
on a list with a `NULL` head and on a `NULL` list the function returns `NULL`
and changes nothing. -/
theorem list_pop_tail_last (h : heap_t) (l : list_t) (init : List Nat) (last : Nat)
    (wf : list_wf h l (init ++ [last])) :
    (∃ (h' : heap_t) (l' : list_t),
      list_pop_tail h (some l) = some (some last, h', some l') ∧
      list_wf h' l' init ∧
      chain_data h' init = (chain_data h (init ++ [last])).dropLast ∧
      l'.size = l.size - 1 ∧ l'.tail = init.getLast? ∧
      (heap_read h' last).map (fun n => n.next) = some none ∧
      (∀ a : Nat, (heap_read h' a).map (fun n => (n.position, n.data)) =
        (heap_read h a).map (fun n => (n.position, n.data)))) ∧
    (∀ l0 : list_t, l0.head = none → list_pop_tail h (some l0) = some (none, h, some l0)) ∧
    list_pop_tail h none = some (none, h, none) := by
  refine ⟨?_, fun l0 h0 => by simp [list_pop_tail, h0], rfl⟩
  obtain ⟨hch, hsz, htl, hpos⟩ := wf
  have hnd := is_chain_nodup h _ _ hch
  have htl' : l.tail = some last := by simpa using htl
  have hsz' : l.size = init.length + 1 := by simpa using hsz
  have hlast := is_chain_suffix h init l.head last [] hch
  rw [is_chain_cons] at hlast
  obtain ⟨_, ln, hln, hnx⟩ := hlast
  rw [is_chain_nil] at hnx
  have hself : ({ ln with next := none } : list_node_t) = ln := by
    cases ln
    simp only at hnx
    simp [hnx]
  have hposi : has_positions h init 0 = true := by
    rw [has_positions_concat] at hpos
    simp only [Bool.and_eq_true] at hpos
    exact hpos.1
  have hdata : (chain_data h (init ++ [last])).dropLast = chain_data h init := by
    rw [chain_data_concat]
    simp [chain_data, hln]
  rcases List.eq_nil_or_concat init with hnil | ⟨ys, sl, hcat⟩
  · subst hnil
    simp only [List.nil_append] at hch
    rw [is_chain_cons] at hch
    obtain ⟨hhead, _⟩ := hch
    simp only [List.length_nil, Nat.zero_add] at hsz'
    refine ⟨h, { l with head := none, tail := none, size := 0 }, ?_, ?_, ?_, ?_, ?_, ?_, ?_⟩
    · simp [list_pop_tail, hhead, hsz', htl', hln, hself, heap_write_read_self h last ln hln,
        dec32]
    · exact ⟨by simp [is_chain], rfl, rfl, by simp [has_positions]⟩
    · simp [chain_data, hln]
    · simp [hsz']
    · rfl
    · rw [hln]
      simp [hnx]
    · intro a
      rfl
  · rw [List.concat_eq_append] at hcat
    subst hcat
    rw [List.append_assoc] at hch hnd
    simp only [List.singleton_append] at hch hnd
    obtain ⟨c, hc⟩ : ∃ c, l.head = some c := by
      have := is_chain_head h _ _ hch
      cases ys with
      | nil => exact ⟨sl, by simpa using this⟩
      | cons y ys' => exact ⟨y, by simpa using this⟩
    obtain ⟨sn, hsn⟩ := is_chain_valid h _ _ hch sl (by simp)
    have hfuel : ys.length + 1 ≤ h.length := by
      have := is_chain_length_le h _ _ hch
      simp only [List.length_append, List.length_cons, List.length_nil] at this
      omega
    have hscan := pop_tail_scan_eq h sl last ys c h.length (hc ▸ hch) hfuel
    have hne : sl ≠ last := by
      intro he
      subst he
      have := (List.nodup_append.mp hnd).2.1
      simp at this
    simp only [List.length_append, List.length_cons, List.length_nil] at hsz'
    have hsz1 : ¬ (1 = l.size) := by omega
    have hf := heap_write_next_fields h sl sn none hsn
    have hl1 : heap_read (heap_write h sl { sn with next := none }) last = some ln := by
      rw [heap_read_write_ne h sl last _ hne, hln]
    refine ⟨heap_write h sl { sn with next := none },
      { l with tail := some sl, size := l.size - 1 }, ?_, ?_, ?_, rfl, by simp, ?_, hf⟩
    · have hd : dec32 l.size = l.size - 1 := by
        unfold dec32
        rw [if_neg (by omega)]
      simp [list_pop_tail, hc, hsz1, htl', hscan, hsn, hl1, hself,
        heap_write_read_self _ last ln hl1, hd]
    · refine ⟨is_chain_cut h sl last sn ys l.head hch hsn, ?_, by simp,
        fields_has_positions h _ hf _ 0 hposi⟩
      simp only [List.length_append, List.length_cons, List.length_nil]
      omega
    · rw [fields_chain_data h _ hf, hdata]
    · rw [hl1]
      simp [hnx]

theorem list_pop_tail_last_witness :
    (∃ (h' : heap_t) (l' : list_t),
      list_pop_tail [some ⟨0, 10, some 1⟩, some ⟨1, 11, some 2⟩, some ⟨2, 12, none⟩]
          (some ⟨3, some 0, some 2, fn_ptr.libc_free, fn_ptr.default_compare⟩) =
        some (some 2, h', some l') ∧
      list_wf h' l' [0, 1] ∧
      chain_data h' [0, 1] =
        (chain_data [some ⟨0, 10, some 1⟩, some ⟨1, 11, some 2⟩, some ⟨2, 12, none⟩]
          ([0, 1] ++ [2])).dropLast ∧
      l'.size = (list_t.mk 3 (some 0) (some 2) fn_ptr.libc_free
        fn_ptr.default_compare).size - 1 ∧
      l'.tail = [0, 1].getLast? ∧
      (heap_read h' 2).map (fun n => n.next) = some none ∧
      (∀ a : Nat, (heap_read h' a).map (fun n => (n.position, n.data)) =
        (heap_read [some ⟨0, 10, some 1⟩, some ⟨1, 11, some 2⟩, some ⟨2, 12, none⟩] a).map
          (fun n => (n.position, n.data)))) ∧
    (∀ l0 : list_t, l0.head = none →
      list_pop_tail [some ⟨0, 10, some 1⟩, some ⟨1, 11, some 2⟩, some ⟨2, 12, none⟩]
          (some l0) =
        some (none, [some ⟨0, 10, some 1⟩, some ⟨1, 11, some 2⟩, some ⟨2, 12, none⟩],
          some l0)) ∧
    list_pop_tail [some ⟨0, 10, some 1⟩, some ⟨1, 11, some 2⟩, some ⟨2, 12, none⟩] none =
      some (none, [some ⟨0, 10, some 1⟩, some ⟨1, 11, some 2⟩, some ⟨2, 12, none⟩], none) :=
  list_pop_tail_last [some ⟨0, 10, some 1⟩, some ⟨1, 11, some 2⟩, some ⟨2, 12, none⟩]
    ⟨3, some 0, some 2, fn_ptr.libc_free, fn_ptr.default_compare⟩ [0, 1] 2
    ⟨by decide, by decide, by decide, by decide⟩

/-! ## Lemmas: the bucket invariant of the hash table -/

theorem remove_scan_subset (k : Key) (c : List node_t) :
    ∀ c' : List node_t, remove_scan k c = some c' → ∀ e ∈ c', e ∈ c := by
  induction c with
  | nil =>
    intro c' h
    simp [remove_scan] at h
  | cons x xs ih =>
    intro c' h e he
    unfold remove_scan at h
    split at h
    · cases Option.some.inj h
      exact List.mem_cons_of_mem x he
    · cases hr : remove_scan k xs with
      | none => rw [hr] at h; simp at h
      | some u =>
        rw [hr] at h
        simp only [Option.map_some', Option.some.injEq] at h
        subst h
        rcases List.mem_cons.mp he with h1 | h2
        · exact h1 ▸ List.mem_cons_self x xs
        · exact List.mem_cons_of_mem x (ih u hr e h2)

theorem bucket_inv_set (t : hash_table_t) (i : Nat) (chain' : List node_t)
    (inv : bucket_inv t) (hnew : ∀ e ∈ chain', hash_function e.key t.size = some i) :
    bucket_inv { t with table := t.table.set i chain' } := by
  obtain ⟨hlen, hb⟩ := inv
  refine ⟨by simpa using hlen, ?_⟩
  intro j chain hj e he
  simp only at hj ⊢
  by_cases hij : i = j
  · subst hij
    rw [List.getElem?_set] at hj
    split at hj
    · split at hj
      · cases Option.some.inj hj
        exact hnew e he
      · simp at hj
    · contradiction
  · rw [List.getElem?_set_ne hij] at hj
    exact hb j chain hj e he

/-- Every call that returns on a table satisfying the bucket invariant leaves a
table that satisfies it, with the same bucket count. -/
theorem ht_step_inv (t t' : hash_table_t) (call : ht_call) (inv : bucket_inv t)
    (hstep : ht_step t call = some t') : bucket_inv t' ∧ t'.size = t.size := by
  cases call with
  | add malloc_ok strdup_ok data key =>
    cases data with
    | none =>
      simp [ht_step, hash_table_add] at hstep
      exact hstep ▸ ⟨inv, rfl⟩
    | some d =>
      cases key with
      | none =>
        simp [ht_step, hash_table_add] at hstep
        exact hstep ▸ ⟨inv, rfl⟩
      | some k =>
        cases malloc_ok with
        | false =>
          simp [ht_step, hash_table_add] at hstep
          exact hstep ▸ ⟨inv, rfl⟩
        | true =>
          cases hh : hash_function k t.size with
          | none => simp [ht_step, hash_table_add, hh] at hstep
          | some i =>
            cases strdup_ok with
            | false =>
              simp [ht_step, hash_table_add, hh] at hstep
              exact hstep ▸ ⟨inv, rfl⟩
            | true =>
              cases hc : t.table[i]? with
              | none => simp [ht_step, hash_table_add, hh, hc] at hstep
              | some chain =>
                simp [ht_step, hash_table_add, hh, hc, link_at_end_eq] at hstep
                subst hstep
                refine ⟨bucket_inv_set t i _ inv ?_, rfl⟩
                intro e he
                rcases List.mem_append.mp he with h1 | h2
                · exact inv.2 i chain hc e h1
                · simp only [List.mem_singleton] at h2
                  subst h2
                  exact hh
  | remove key =>
    cases key with
    | none => simp [ht_step, hash_table_remove] at hstep
    | some k =>
      cases hh : hash_function k t.size with
      | none => simp [ht_step, hash_table_remove, hh] at hstep
      | some i =>
        cases hc : t.table[i]? with
        | none => simp [ht_step, hash_table_remove, hh, hc] at hstep
        | some chain =>
          cases chain with
          | nil =>
            simp [ht_step, hash_table_remove, hh, hc] at hstep
            exact hstep ▸ ⟨inv, rfl⟩
          | cons first rest =>
            cases hr : remove_scan k (first :: rest) with
            | none => simp [ht_step, hash_table_remove, hh, hc, hr] at hstep
            | some chain' =>
              simp [ht_step, hash_table_remove, hh, hc, hr] at hstep
              subst hstep
              refine ⟨bucket_inv_set t i _ inv ?_, rfl⟩
              intro e he
              exact inv.2 i _ hc e (remove_scan_subset k _ _ hr e he)
  | clear =>
    obtain ⟨calls, hcl⟩ := hash_table_clear_eq t inv.1
    simp [ht_step, hcl] at hstep
    subst hstep
    refine ⟨⟨by simp, ?_⟩, rfl⟩
    intro j chain hj e he
    simp only [List.getElem?_replicate] at hj
    split at hj
    · cases Option.some.inj hj
      simp at he
    · simp at hj

theorem ht_run_inv (calls : List ht_call) :
    ∀ (t t' : hash_table_t), bucket_inv t → ht_run t calls = some t' →
      bucket_inv t' ∧ t'.size = t.size := by
  induction calls with
  | nil =>
    intro t t' inv h
    cases Option.some.inj h
    exact ⟨inv, rfl⟩
  | cons call rest ih =>
    intro t t' inv h
    cases hs : ht_step t call with
    | none => simp [ht_run, hs] at h
    | some t1 =>
      simp only [ht_run, hs] at h
      obtain ⟨inv1, hsz1⟩ := ht_step_inv t t1 call inv hs
      obtain ⟨inv', hsz'⟩ := ih t1 t' inv1 h
      exact ⟨inv', hsz'.trans hsz1⟩
theorem bucket_exists (t : hash_table_t) (k : Key) (inv : bucket_inv t) (hs : 0 < t.size) :
    ∃ (i : Nat) (chain : List node_t),
      hash_function k t.size = some i ∧ t.table[i]? = some chain := by
  have hne : t.size ≠ 0 := by omega
  have hi : hash_function k t.size = some (hash_loop k 0 % t.size) := by
    simp [hash_function, hne]
  obtain ⟨chain, hc⟩ := bucket_of_index t k _ inv.1 hi
  exact ⟨_, chain, hi, hc⟩

theorem hash_table_add_returns (t : hash_table_t) (inv : bucket_inv t) (hs : 0 < t.size)
    (mo so : Bool) (d : Option Nat) (k : Option Key) :
    ∃ t', ht_step t (ht_call.add mo so d k) = some t' := by
  cases d with
  | none => exact ⟨t, by simp [ht_step, hash_table_add]⟩
  | some d =>
    cases k with
    | none => exact ⟨t, by simp [ht_step, hash_table_add]⟩
    | some k =>
      obtain ⟨i, chain, hi, hc⟩ := bucket_exists t k inv hs
      cases mo with
      | false => exact ⟨t, by simp [ht_step, hash_table_add]⟩
      | true =>
        cases so with
        | false => exact ⟨t, by simp [ht_step, hash_table_add, hi]⟩
        | true => exact ⟨_, by simp only [ht_step, hash_table_add_eq t d k i chain hi hc]; rfl⟩

theorem hash_table_remove_returns (t : hash_table_t) (k : Key) (d : Nat)
    (hl : hash_table_lookup (some t) (some k) = some (some d)) :
    ∃ t', hash_table_remove (some t) (some k) = some (SUCCESS, some t') := by
  cases hh : hash_function k t.size with
  | none => simp [hash_table_lookup, hh] at hl
  | some i =>
    cases hc : t.table[i]? with
    | none => simp [hash_table_lookup, hh, hc] at hl
    | some chain =>
      simp only [hash_table_lookup, hh, hc, Option.some.injEq] at hl
      have hex : ∃ e ∈ chain, e.key = k := by
        by_contra hcon
        have : lookup_scan k chain = none :=
          (lookup_scan_eq_none k chain).mpr (fun e he hk => hcon ⟨e, he, hk⟩)
        rw [this] at hl
        simp at hl
      obtain ⟨pre, e, post, hsplit, _, _, hr⟩ := remove_scan_first k chain hex
      cases chain with
      | nil => simp at hsplit
      | cons first rest =>
        exact ⟨_, by simp only [hash_table_remove, hh, hc, hr]; rfl⟩

/-- C27: in the table reached from the table `hash_table_init` returns for a
bucket count `size > 0` by any run of `hash_table_add`, `hash_table_remove`
and `hash_table_clear` calls in which every call returns, the bucket count is
`size`, the bucket array has `size` entries, and every entry in the chain of
bucket `i` has a key that `hash_function` maps to `i`; from such a table every
`hash_table_add` and `hash_table_clear` returns, and `hash_table_remove`
returns `SUCCESS` for every key whose lookup finds an entry. -/
theorem hash_table_bucket_invariant (size : Nat) (customfree : Option Nat)
    (calls : List ht_call) (t : hash_table_t) (hs : 0 < size)
    (hrun : ht_run ⟨size, List.replicate size []⟩ calls = some t) :
    hash_table_init true true size customfree = some ⟨size, List.replicate size []⟩ ∧
    t.size = size ∧ t.table.length = size ∧
    (∀ (i : Nat) (chain : List node_t), t.table[i]? = some chain →
      ∀ e ∈ chain, hash_function e.key size = some i) ∧
    (∀ (mo so : Bool) (d : Option Nat) (k : Option Key),
      ∃ t', ht_step t (ht_call.add mo so d k) = some t') ∧
    (∃ t', ht_step t ht_call.clear = some t') ∧
    (∀ (k : Key) (d : Nat), hash_table_lookup (some t) (some k) = some (some d) →
      ∃ t', hash_table_remove (some t) (some k) = some (SUCCESS, some t')) := by
  have inv0 : bucket_inv ⟨size, List.replicate size []⟩ := by
    refine ⟨by simp, ?_⟩
    intro j chain hj e he
    simp only [List.getElem?_replicate] at hj
    split at hj
    · cases Option.some.inj hj
      simp at he
    · simp at hj
  obtain ⟨inv, hsz⟩ := ht_run_inv calls _ t inv0 hrun
  simp only at hsz
  have hs' : 0 < t.size := by omega
  refine ⟨by simp [hash_table_init], hsz, by rw [inv.1, hsz], ?_,
    hash_table_add_returns t inv hs', ?_, hash_table_remove_returns t⟩
  · intro i chain hc e he
    rw [← hsz]
    exact inv.2 i chain hc e he
  · obtain ⟨calls', hcl⟩ := hash_table_clear_eq t inv.1
    exact ⟨_, by simp only [ht_step, hcl]; rfl⟩

theorem hash_table_bucket_invariant_witness :
    hash_table_init true true 2 none = some ⟨2, List.replicate 2 []⟩ ∧
    (hash_table_t.mk 2 [[⟨[98], 8⟩], [⟨[99], 6⟩]]).size = 2 ∧
    (hash_table_t.mk 2 [[⟨[98], 8⟩], [⟨[99], 6⟩]]).table.length = 2 ∧
    (∀ (i : Nat) (chain : List node_t),
      (hash_table_t.mk 2 [[⟨[98], 8⟩], [⟨[99], 6⟩]]).table[i]? = some chain →
      ∀ e ∈ chain, hash_function e.key 2 = some i) ∧
    (∀ (mo so : Bool) (d : Option Nat) (k : Option Key),
      ∃ t', ht_step ⟨2, [[⟨[98], 8⟩], [⟨[99], 6⟩]]⟩ (ht_call.add mo so d k) = some t') ∧
    (∃ t', ht_step ⟨2, [[⟨[98], 8⟩], [⟨[99], 6⟩]]⟩ ht_call.clear = some t') ∧
    (∀ (k : Key) (d : Nat),
      hash_table_lookup (some ⟨2, [[⟨[98], 8⟩], [⟨[99], 6⟩]]⟩) (some k) = some (some d) →
      ∃ t', hash_table_remove (some ⟨2, [[⟨[98], 8⟩], [⟨[99], 6⟩]]⟩) (some k) =
        some (SUCCESS, some t')) :=
  hash_table_bucket_invariant 2 none
    [ht_call.add true true (some 7) (some [98]), ht_call.clear,
      ht_call.add true true (some 5) (some [97]), ht_call.add true true (some 6) (some [99]),
      ht_call.add true true (some 8) (some [98]), ht_call.add false true (some 9) (some [100]),
      ht_call.remove (some [97])]
    ⟨2, [[⟨[98], 8⟩], [⟨[99], 6⟩]]⟩ (by decide) (by decide)

/-! ## Theorems: the hash function -/

theorem hash_loop_eq_spec (key : Key) :
    ∀ h : Nat, (∀ b ∈ key, b ≤ 127) → hash_loop key h = spec_hash key h := by
  induction key with
  | nil => intro h _; rfl
  | cons c rest ih =>
    intro h hb
    have hc : c < 128 := by
      have := hb c (List.mem_cons_self c rest)
      omega
    have hstep : ((h * 31) % 2 ^ 32 + char_val c) % 2 ^ 32 = (h * 31 + c) % 2 ^ 32 := by
      simp only [char_val, if_pos hc]
      exact Nat.mod_add_mod _ _ _
    simp only [hash_loop, spec_hash, List.foldl_cons, hstep]
    exact ih _ (fun b hbm => hb b (List.mem_cons_of_mem c hbm))

theorem spec_hash_eq_poly (key : Key) :
    ∀ h : Nat, spec_hash key (h % 2 ^ 32) = spec_poly key h % 2 ^ 32 := by
  induction key with
  | nil => intro h; rfl
  | cons c rest ih =>
    intro h
    have hstep : (h % 2 ^ 32 * 31 + c) % 2 ^ 32 = (h * 31 + c) % 2 ^ 32 := by
      rw [Nat.add_mod, Nat.mul_mod, Nat.mod_mod, ← Nat.mul_mod, ← Nat.add_mod]
    simp only [spec_hash, spec_poly, List.foldl_cons, hstep]
    exact ih (h * 31 + c)

/-- C28: for a key whose bytes are in `1..127` and a `table_size > 0`,
`hash_function` returns `h mod table_size` with `h` obtained from 0 by the step
`h := (h * 31 + byte) mod 2^32` over the key bytes in order; the result is
below `table_size`, so it is the index of a bucket in every bucket array with
`table_size` entries; and when the exact polynomial sum over the key bytes is
below `2^32` the result is that sum modulo `table_size`. -/
theorem hash_function_polynomial (key : Key) (table_size : Nat)
    (hb : ∀ b ∈ key, 1 ≤ b ∧ b ≤ 127) (hts : 0 < table_size) :
    hash_function key table_size = some (spec_hash key 0 % table_size) ∧
    spec_hash key 0 % table_size < table_size ∧
    (∀ t : hash_table_t, t.size = table_size → t.table.length = table_size →
      ∃ chain : List node_t, t.table[spec_hash key 0 % table_size]? = some chain) ∧
    (spec_poly key 0 < 2 ^ 32 →
      hash_function key table_size = some (spec_poly key 0 % table_size)) := by
  have hne : table_size ≠ 0 := by omega
  have hl := hash_loop_eq_spec key 0 (fun b hbm => (hb b hbm).2)
  have hf : hash_function key table_size = some (spec_hash key 0 % table_size) := by
    simp [hash_function, hne, hl]
  have hlt : spec_hash key 0 % table_size < table_size := Nat.mod_lt _ hts
  refine ⟨hf, hlt, ?_, ?_⟩
  · intro t _ hlen
    exact ⟨t.table[spec_hash key 0 % table_size], List.getElem?_eq_getElem (by omega)⟩
  · intro hp
    have := spec_hash_eq_poly key 0
    rw [Nat.zero_mod, Nat.mod_eq_of_lt hp] at this
    rw [hf, this]

theorem hash_function_polynomial_witness :
    hash_function [97, 98] 7 = some (spec_hash [97, 98] 0 % 7) ∧
    spec_hash [97, 98] 0 % 7 < 7 ∧
    (∀ t : hash_table_t, t.size = 7 → t.table.length = 7 →
      ∃ chain : List node_t, t.table[spec_hash [97, 98] 0 % 7]? = some chain) ∧
    (spec_poly [97, 98] 0 < 2 ^ 32 →
      hash_function [97, 98] 7 = some (spec_poly [97, 98] 0 % 7)) :=
  hash_function_polynomial [97, 98] 7 (by decide) (by decide)

/-! ## Theorems: termination of the sort -/

theorem sort_outer_mono (fuel : Nat) :
    ∀ (fuel' : Nat) (h : heap_t) (hd : Nat) (ls : Option Nat) (h' : heap_t),
      sort_outer fuel h hd ls = some h' → fuel ≤ fuel' → sort_outer fuel' h hd ls = some h' := by
  induction fuel with
  | zero =>
    intro fuel' h hd ls h' ho _
    simp [sort_outer] at ho
  | succ f ih =>
    intro fuel' h hd ls h' ho hle
    cases fuel' with
    | zero => omega
    | succ f' =>
      unfold sort_outer at ho ⊢
      cases hs : sort_sweep h.length h hd ls false with
      | none => rw [hs] at ho; simp at ho
      | some r =>
        obtain ⟨h1, cur, sw⟩ := r
        rw [hs] at ho
        simp only at ho ⊢
        cases sw with
        | false => simpa using ho
        | true =>
          simp only [if_true] at ho ⊢
          exact ih f' h1 hd (some cur) h' ho (by omega)

/-- C29: on a well-formed non-empty list of `n` nodes `list_sort` returns, and
`n` sweeps of the outer loop are enough; a sweep that starts with
`last_sorted` at node `m + 1` (`NULL` when `m + 1 = n`) returns after `m`
comparisons with `current` at node `m`, which becomes `last_sorted`, so that
`last_sorted` moves one node toward the head per sweep and no sweep follows a
link past the last node; the sweep that brings `last_sorted` to the head makes
no comparison and no swap, which ends the outer loop. -/
theorem list_sort_terminates (h : heap_t) (l : list_t) (addrs : List Nat)
    (wf : list_wf h l addrs) (hne : addrs ≠ []) :
    ∃ (head : Nat) (h' : heap_t),
      l.head = some head ∧ addrs[0]? = some head ∧
      sort_outer addrs.length h head none = some h' ∧
      list_sort h (some l) = some (status_t.SUCCESS, h', some l) ∧
      (∀ (m : Nat) (h1 : heap_t) (sw : Bool), m < addrs.length → same_links h h1 →
        ∃ (h2 : heap_t) (cur : Nat) (swapped : Bool),
          sort_sweep (m + 1) h1 head (addrs[m + 1]?) sw = some (h2, cur, swapped) ∧
          addrs[m]? = some cur ∧ same_links h1 h2) ∧
      (∀ h1 : heap_t, same_links h h1 →
        sort_sweep 1 h1 head (addrs[1]?) false = some (h1, head, false)) := by
  obtain ⟨hch, hsz, htl, hpos⟩ := wf
  cases addrs with
  | nil => exact absurd rfl hne
  | cons hd rest =>
    rw [is_chain_cons] at hch
    obtain ⟨hhead, n, hn, hrest⟩ := hch
    have hch' : is_chain h (some hd) (hd :: rest) = true := by
      rw [is_chain_cons]
      exact ⟨rfl, n, hn, hrest⟩
    have hlen := is_chain_length_le h _ _ hch'
    simp only [List.length_cons] at hlen
    have hdrop : (chain_data h (hd :: rest)).drop (rest.length + 1) = [] := by
      apply List.drop_eq_nil_of_le
      have := chain_data_length h (hd :: rest) (is_chain_valid h _ _ hch')
      simp only [List.length_cons] at this
      omega
    have hnone : (hd :: rest)[rest.length + 1]? = none := by
      apply List.getElem?_eq_none
      simp
    obtain ⟨h', ho, _, _, _, _⟩ := sort_outer_eq rest.length (rest.length + 1) h hd rest hch'
      (Nat.le_refl _) (Nat.le_refl _) (by rw [hdrop]; exact List.Pairwise.nil)
      (by rw [hdrop]; intro x _ y hy; simp at hy)
    rw [hnone] at ho
    have ho' := sort_outer_mono _ h.length h hd none h' ho hlen
    refine ⟨hd, h', hhead, by simp, ho, ?_, ?_, ?_⟩
    · simp [list_sort, hhead, ho']
    · intro m h1 sw hm hl
      have hc1 := same_links_is_chain h h1 hl _ _ hch'
      obtain ⟨h2, cur, hs, hcur, _, hl2, _⟩ := sort_sweep_eq m (m + 1) h1 hd rest sw hc1
        (by simp only [List.length_cons] at hm; omega) (Nat.le_refl _)
      exact ⟨h2, cur, _, hs, hcur, hl2⟩
    · intro h1 hl
      have hc1 := same_links_is_chain h h1 hl _ _ hch'
      rw [is_chain_cons] at hc1
      obtain ⟨_, n1, hn1, hrest1⟩ := hc1
      have hnx := is_chain_head h1 _ _ hrest1
      simp [sort_sweep, hn1, hnx]

theorem list_sort_terminates_witness :
    ∃ (head : Nat) (h' : heap_t),
      (list_t.mk 3 (some 0) (some 2) fn_ptr.libc_free fn_ptr.default_compare).head =
        some head ∧
      [0, 1, 2][0]? = some head ∧
      sort_outer [0, 1, 2].length
        [some ⟨0, 30, some 1⟩, some ⟨1, 20, some 2⟩, some ⟨2, 10, none⟩] head none =
          some h' ∧
      list_sort [some ⟨0, 30, some 1⟩, some ⟨1, 20, some 2⟩, some ⟨2, 10, none⟩]
          (some ⟨3, some 0, some 2, fn_ptr.libc_free, fn_ptr.default_compare⟩) =
        some (status_t.SUCCESS, h',
          some ⟨3, some 0, some 2, fn_ptr.libc_free, fn_ptr.default_compare⟩) ∧
      (∀ (m : Nat) (h1 : heap_t) (sw : Bool), m < [0, 1, 2].length →
        same_links [some ⟨0, 30, some 1⟩, some ⟨1, 20, some 2⟩, some ⟨2, 10, none⟩] h1 →
        ∃ (h2 : heap_t) (cur : Nat) (swapped : Bool),
          sort_sweep (m + 1) h1 head ([0, 1, 2][m + 1]?) sw = some (h2, cur, swapped) ∧
          [0, 1, 2][m]? = some cur ∧ same_links h1 h2) ∧
      (∀ h1 : heap_t,
        same_links [some ⟨0, 30, some 1⟩, some ⟨1, 20, some 2⟩, some ⟨2, 10, none⟩] h1 →
        sort_sweep 1 h1 head ([0, 1, 2][1]?) false = some (h1, head, false)) :=
  list_sort_terminates [some ⟨0, 30, some 1⟩, some ⟨1, 20, some 2⟩, some ⟨2, 10, none⟩]
    ⟨3, some 0, some 2, fn_ptr.libc_free, fn_ptr.default_compare⟩ [0, 1, 2]
    ⟨by decide, by decide, by decide, by decide⟩ (by decide)

/-! ## Lemmas: the search loop under any allocator -/

theorem find_all_loop_stop (deref : Nat → Option Int) (item : Int) (malloc_ok : Nat → Bool)
    (fuel : Nat) (h : heap_t) (nl : Option list_t) (p : Option Nat) (error : status_t)
    (k : Nat) (he : error ≠ status_t.SUCCESS) :
    find_all_loop deref item malloc_ok fuel h nl p error k = some (h, nl, error) := by
  cases p with
  | none => cases fuel <;> simp [find_all_loop]
  | some c => cases fuel <;> simp [find_all_loop, he]

/-- The loop of `list_find_all_occurrences` when `list_new` has returned `NULL`:
the storage is untouched and no list is built. -/
theorem find_all_loop_null (deref : Nat → Option Int) (item : Int) (malloc_ok : Nat → Bool)
    (src : List Nat) :
    ∀ (fuel : Nat) (h : heap_t) (p : Option Nat) (k : Nat),
      is_chain h p src = true →
      (∀ d ∈ chain_data h src, ∃ v, deref d = some v) → src.length ≤ fuel →
      ∃ error : status_t,
        find_all_loop deref item malloc_ok fuel h none p status_t.SUCCESS k =
          some (h, none, error) := by
  induction src with
  | nil =>
    intro fuel h p k hc _ _
    rw [is_chain_nil] at hc
    subst hc
    exact ⟨status_t.SUCCESS, by cases fuel <;> simp [find_all_loop]⟩
  | cons a rest ih =>
    intro fuel h p k hc hd hf
    rw [is_chain_cons] at hc
    obtain ⟨hp, n, hn, hrest⟩ := hc
    subst hp
    have hcd : chain_data h (a :: rest) = n.data :: chain_data h rest := by
      simp [chain_data, hn]
    rw [hcd] at hd
    obtain ⟨v, hv⟩ := hd n.data (List.mem_cons_self _ _)
    cases fuel with
    | zero => simp at hf
    | succ f =>
      simp only [List.length_cons, Nat.add_le_add_iff_right] at hf
      by_cases hm : v - item = 0
      · refine ⟨status_t.NULL_POINTER, ?_⟩
        simp only [find_all_loop, if_true, hn, hv, hm, list_push_head]
        exact find_all_loop_stop deref item malloc_ok f h none n.next _ (k + 1) (by decide)
      · obtain ⟨error, hloop⟩ := ih f h n.next k hrest
          (fun d hd' => hd d (List.mem_cons_of_mem _ hd')) hf
        refine ⟨error, ?_⟩
        simp only [find_all_loop, if_true, hn, hv, hm, if_false]
        exact hloop
/-- The loop of `list_find_all_occurrences` over the source chain `src` under any
allocator, `k` pushes made so far: when the allocation of every push for a
match succeeds the result list holds the matches in reverse order before its
earlier payloads; when one of them fails the loop ends with an error. -/
theorem find_all_loop_outcome (deref : Nat → Option Int) (item : Int)
    (malloc_ok : Nat → Bool) (src : List Nat) :
    ∀ (fuel : Nat) (h : heap_t) (nl : list_t) (naddrs : List Nat) (p : Option Nat)
      (k : Nat),
      is_chain h p src = true →
      (∀ d ∈ chain_data h src, ∃ v, deref d = some v) →
      list_wf h nl naddrs → (∀ a ∈ src, a ∉ naddrs) → src.length ≤ fuel →
      ((∀ j : Nat, k < j →
          j ≤ k + ((chain_data h src).filter (fun d => decide (deref d = some item))).length →
          malloc_ok j = true) →
        ∃ (h' : heap_t) (nl' : list_t) (naddrs' : List Nat),
          find_all_loop deref item malloc_ok fuel h (some nl) p status_t.SUCCESS k =
            some (h', some nl', status_t.SUCCESS) ∧
          list_wf h' nl' naddrs' ∧
          chain_data h' naddrs' =
            ((chain_data h src).filter (fun d => decide (deref d = some item))).reverse ++
              chain_data h naddrs ∧
          (∀ a : Nat, a ∉ naddrs → a < h.length → h'[a]? = h[a]?) ∧
          h.length ≤ h'.length) ∧
      ((∃ j : Nat, k < j ∧
          j ≤ k + ((chain_data h src).filter (fun d => decide (deref d = some item))).length ∧
          malloc_ok j = false) →
        ∃ (h' : heap_t) (nl' : Option list_t) (error : status_t),
          find_all_loop deref item malloc_ok fuel h (some nl) p status_t.SUCCESS k =
            some (h', nl', error) ∧ error ≠ status_t.SUCCESS ∧
          (∀ a : Nat, a ∉ naddrs → a < h.length → h'[a]? = h[a]?)) := by
  induction src with
  | nil =>
    intro fuel h nl naddrs p k hc _ wf _ _
    rw [is_chain_nil] at hc
    subst hc
    refine ⟨fun _ => ⟨h, nl, naddrs, ?_, wf, by simp [chain_data], fun _ _ _ => rfl,
      Nat.le_refl _⟩, ?_⟩
    · cases fuel <;> simp [find_all_loop]
    · rintro ⟨j, hj1, hj2, _⟩
      simp [chain_data] at hj2
      omega
  | cons a rest ih =>
    intro fuel h nl naddrs p k hc hd wf hdis hf
    have hnd := is_chain_nodup h _ p hc
    have hlt := is_chain_lt h _ p hc
    rw [is_chain_cons] at hc
    obtain ⟨hp, n, hn, hrest⟩ := hc
    subst hp
    have hcd : chain_data h (a :: rest) = n.data :: chain_data h rest := by
      simp [chain_data, hn]
    rw [hcd] at hd ⊢
    obtain ⟨v, hv⟩ := hd n.data (List.mem_cons_self _ _)
    cases fuel with
    | zero => simp at hf
    | succ f =>
      simp only [List.length_cons, Nat.add_le_add_iff_right] at hf
      have hdis' : ∀ x ∈ rest, x ∉ naddrs := fun x hx => hdis x (List.mem_cons_of_mem a hx)
      by_cases hm : v - item = 0
      · have hveq : v = item := by omega
        have hms : (n.data :: chain_data h rest).filter
            (fun d => decide (deref d = some item)) =
            n.data :: (chain_data h rest).filter (fun d => decide (deref d = some item)) := by
          simp [List.filter_cons, hv, hveq]
        rw [hms]
        simp only [List.length_cons]
        cases hmo : malloc_ok (k + 1) with
        | false =>
          refine ⟨fun hall => ?_, fun _ => ⟨h, some nl, status_t.MEM_ALLOCATION_ERROR, ?_,
            by decide, fun _ _ _ => rfl⟩⟩
          · have := hall (k + 1) (by omega) (by omega)
            rw [hmo] at this
            cases this
          · have hpf : list_push_head false h (some nl) n.data =
                some (status_t.MEM_ALLOCATION_ERROR, h, some nl) := by
              simp [list_push_head]
            simp only [find_all_loop, if_true, hn, hv, hm, hmo, hpf]
            exact find_all_loop_stop deref item malloc_ok f h (some nl) n.next
              status_t.MEM_ALLOCATION_ERROR (k + 1) (by decide)
        | true =>
          obtain ⟨h1, nl1, hpush, wf1, hcd1, hlen1, hfr1⟩ :=
            list_push_head_wf h nl naddrs n.data wf
          have ha1 : heap_read h1 a = some n := by
            rw [heap_read_congr h h1 a (hfr1 a (hdis a (List.mem_cons_self _ _))
              (hlt a (List.mem_cons_self _ _)))]
            exact hn
          have hag : ∀ x ∈ rest, heap_read h1 x = heap_read h x := fun x hx =>
            heap_read_congr h h1 x (hfr1 x (hdis' x hx) (hlt x (List.mem_cons_of_mem a hx)))
          have hrest1 : is_chain h1 n.next rest = true := by
            apply is_chain_congr h h1 rest _ _ hrest
            intro x hx m hm'
            exact ⟨m, by rw [hag x hx]; exact hm', rfl⟩
          have hcdr : chain_data h1 rest = chain_data h rest := by
            apply chain_data_congr
            intro x hx
            rw [hag x hx]
          have hdis1 : ∀ x ∈ rest, x ∉ h.length :: naddrs := by
            intro x hx hmem'
            rcases List.mem_cons.mp hmem' with he | hm'
            · have := hlt x (List.mem_cons_of_mem a hx)
              omega
            · exact hdis' x hx hm'
          obtain ⟨ihs, ihf⟩ := ih f h1 nl1 (h.length :: naddrs) n.next (k + 1) hrest1
            (by rw [hcdr]; exact fun d hd' => hd d (List.mem_cons_of_mem _ hd'))
            wf1 hdis1 hf
          rw [hcdr] at ihs ihf
          have hfr_trans : ∀ (h' : heap_t),
              (∀ x : Nat, x ∉ h.length :: naddrs → x < h1.length → h'[x]? = h1[x]?) →
              ∀ x : Nat, x ∉ naddrs → x < h.length → h'[x]? = h[x]? := by
            intro h' hfr' x hx hxl
            rw [hfr' x (by
              intro hmem'
              rcases List.mem_cons.mp hmem' with he | hm'
              · omega
              · exact hx hm') (by omega)]
            exact hfr1 x hx hxl
          refine ⟨fun hall => ?_, fun hex => ?_⟩
          · obtain ⟨h', nl', naddrs', hloop, wf', hcd', hfr', hle'⟩ :=
              ihs (fun j hj1 hj2 => hall j (by omega) (by omega))
            refine ⟨h', nl', naddrs', ?_, wf', ?_, hfr_trans h' hfr', by omega⟩
            · simp only [find_all_loop, if_true, hn, hv, hm, hmo, hpush, ha1]
              exact hloop
            · rw [hcd', hcd1]
              simp
          · obtain ⟨j, hj1, hj2, hjf⟩ := hex
            have hjne : j ≠ k + 1 := by
              intro he
              rw [he, hmo] at hjf
              cases hjf
            obtain ⟨h', nl', error, hloop, herr, hfr'⟩ :=
              ihf ⟨j, by omega, by omega, hjf⟩
            refine ⟨h', nl', error, ?_, herr, hfr_trans h' hfr'⟩
            simp only [find_all_loop, if_true, hn, hv, hm, hmo, hpush, ha1]
            exact hloop
      · have hvne : v ≠ item := by omega
        have hms : (n.data :: chain_data h rest).filter
            (fun d => decide (deref d = some item)) =
            (chain_data h rest).filter (fun d => decide (deref d = some item)) := by
          simp [List.filter_cons, hv, hvne]
        rw [hms]
        obtain ⟨ihs, ihf⟩ := ih f h nl naddrs n.next k hrest
          (fun d hd' => hd d (List.mem_cons_of_mem _ hd')) wf hdis' hf
        refine ⟨fun hall => ?_, fun hex => ?_⟩
        · obtain ⟨h', nl', naddrs', hloop, wf', hcd', hfr', hle'⟩ := ihs hall
          refine ⟨h', nl', naddrs', ?_, wf', hcd', hfr', hle'⟩
          simp only [find_all_loop, if_true, hn, hv, hm, if_false]
          exact hloop
        · obtain ⟨h', nl', error, hloop, herr, hfr'⟩ := ihf hex
          refine ⟨h', nl', error, ?_, herr, hfr'⟩
          simp only [find_all_loop, if_true, hn, hv, hm, if_false]
          exact hloop

/-! ## Theorems: order of the search result -/

/-- C31, as stated, is false: on a well-formed list of one node whose payload
matches the search value, with the allocation of the result list succeeding
and the allocation of the node for the match failing,
`list_find_all_occurrences` returns `NULL` although the list and the search
reference are present and the size is 1; and when `list_new` fails and no node
matches it returns `NULL`, not an empty list. -/
theorem list_find_all_null_on_failed_allocation :
    list_wf [some ⟨0, 5, none⟩]
      ⟨1, some 0, some 0, fn_ptr.libc_free, fn_ptr.default_compare⟩ [0] ∧
    list_find_all_occurrences (fun d => some (Int.ofNat d)) (fun k => decide (k = 0))
        [some ⟨0, 5, none⟩]
        (some ⟨1, some 0, some 0, fn_ptr.libc_free, fn_ptr.default_compare⟩)
        (some ⟨some 1, 5⟩) = some (none, [some ⟨0, 5, none⟩]) ∧
    list_find_all_occurrences (fun d => some (Int.ofNat d)) (fun _ => false)
        [some ⟨0, 5, none⟩]
        (some ⟨1, some 0, some 0, fn_ptr.libc_free, fn_ptr.default_compare⟩)
        (some ⟨some 1, 7⟩) = some (none, [some ⟨0, 5, none⟩]) := by
  refine ⟨⟨by decide, by decide, by decide, by decide⟩, ?_, ?_⟩ <;> decide

/-- C31, amended: on a well-formed non-empty list with readable payloads and a
non-null search reference, when the allocation of the result list and of the
node for every match succeeds, `list_find_all_occurrences` returns a
well-formed list whose payloads from head to tail are the matching payloads in
reverse source order (its head holds the last match of the source), of size
the number of matches, and an empty list (size 0, `NULL` head and tail) when
no node matches; when one of these allocations fails it returns `NULL`; it
also returns `NULL` for a `NULL` list, a `NULL` search reference, a search
reference that holds `NULL`, and a source list of size 0. -/
theorem list_find_all_reverse_order (deref : Nat → Option Int) (malloc_ok : Nat → Bool)
    (h : heap_t) (l : list_t) (addrs : List Nat) (r : ref_t)
    (wf : list_wf h l addrs) (hne : addrs ≠ []) (hptr : r.as_ptr ≠ none)
    (hderef : ∀ d ∈ chain_data h addrs, ∃ v, deref d = some v) :
    ((∀ j : Nat,
        j ≤ ((chain_data h addrs).filter (fun d => decide (deref d = some r.as_int))).length →
        malloc_ok j = true) →
      ∃ (h' : heap_t) (nl : list_t) (naddrs : List Nat),
        list_find_all_occurrences deref malloc_ok h (some l) (some r) = some (some nl, h') ∧
        list_wf h' nl naddrs ∧
        chain_data h' naddrs =
          ((chain_data h addrs).filter (fun d => decide (deref d = some r.as_int))).reverse ∧
        (chain_data h' naddrs).head? =
          ((chain_data h addrs).filter (fun d => decide (deref d = some r.as_int))).getLast? ∧
        nl.size =
          ((chain_data h addrs).filter (fun d => decide (deref d = some r.as_int))).length ∧
        ((chain_data h addrs).filter (fun d => decide (deref d = some r.as_int)) = [] →
          nl.size = 0 ∧ nl.head = none ∧ nl.tail = none)) ∧
    ((∃ j : Nat,
        j ≤ ((chain_data h addrs).filter (fun d => decide (deref d = some r.as_int))).length ∧
        malloc_ok j = false) →
      ∃ h' : heap_t,
        list_find_all_occurrences deref malloc_ok h (some l) (some r) = some (none, h')) ∧
    list_find_all_occurrences deref malloc_ok h none (some r) = some (none, h) ∧
    list_find_all_occurrences deref malloc_ok h (some l) none = some (none, h) ∧
    list_find_all_occurrences deref malloc_ok h (some l) (some ⟨none, r.as_int⟩) =
      some (none, h) ∧
    (∀ l0 : list_t, l0.size = 0 →
      list_find_all_occurrences deref malloc_ok h (some l0) (some r) = some (none, h)) := by
  obtain ⟨hc, hs, ht, hp⟩ := wf
  have hsz : l.size ≠ 0 := by
    rw [hs]
    exact fun hz => hne (List.length_eq_zero.mp hz)
  have wf0 : list_wf h ⟨0, none, none, fn_ptr.custom_free, fn_ptr.default_compare⟩ [] :=
    ⟨rfl, rfl, rfl, rfl⟩
  have hfuel := is_chain_length_le h addrs l.head hc
  obtain ⟨hok, hfail⟩ :=
    find_all_loop_outcome deref r.as_int malloc_ok addrs h.length h _ [] l.head 0 hc hderef
      wf0 (fun _ _ hm => by simp at hm) hfuel
  refine ⟨fun hall => ?_, fun hex => ?_, rfl, ?_, ?_, ?_⟩
  · obtain ⟨h', nl, naddrs, hloop, wfn, hcd, _, _⟩ :=
      hok (fun j _ hj => hall j (by omega))
    have hm0 := hall 0 (Nat.zero_le _)
    simp only [chain_data, List.filterMap_nil, List.append_nil] at hcd
    have hcd' : chain_data h' naddrs =
        ((chain_data h addrs).filter (fun d => decide (deref d = some r.as_int))).reverse := hcd
    have hlen : nl.size =
        ((chain_data h addrs).filter (fun d => decide (deref d = some r.as_int))).length := by
      have hvalid := is_chain_valid h' naddrs nl.head wfn.1
      have hl := chain_data_length h' naddrs hvalid
      rw [wfn.2.1, ← hl, hcd', List.length_reverse]
    refine ⟨h', nl, naddrs, ?_, wfn, hcd', ?_, hlen, ?_⟩
    · simp only [list_find_all_occurrences, hptr, hsz, ne_eq, not_false_eq_true, and_self,
        if_true, list_new, hm0, Option.getD_some, hloop, not_true_eq_false, if_false]
    · rw [hcd', List.head?_reverse]
    · intro hnil
      rw [hnil] at hlen
      have := list_wf_size_zero h' nl naddrs wfn hlen
      exact ⟨hlen, this.2.1, this.2.2⟩
  · obtain ⟨j, hj, hjf⟩ := hex
    cases hm0 : malloc_ok 0 with
    | false =>
      obtain ⟨error, hloop⟩ := find_all_loop_null deref r.as_int malloc_ok addrs h.length h
        l.head 0 hc hderef hfuel
      refine ⟨h, ?_⟩
      have hnew : list_new false (some fn_ptr.custom_free)
          (some fn_ptr.default_compare) = none := rfl
      simp [list_find_all_occurrences, hptr, hsz, hm0, hnew, hloop]
    | true =>
      have hj0 : 0 < j := by
        rcases Nat.eq_zero_or_pos j with hz | hpos
        · rw [hz, hm0] at hjf
          cases hjf
        · exact hpos
      obtain ⟨h', nl', error, hloop, herr, _⟩ := hfail ⟨j, hj0, by omega, hjf⟩
      refine ⟨h', ?_⟩
      simp only [list_find_all_occurrences, hptr, hsz, ne_eq, not_false_eq_true, and_self,
        if_true, list_new, hm0, Option.getD_some, hloop, herr, if_true]
  · simp [list_find_all_occurrences]
  · simp [list_find_all_occurrences]
  · intro l0 h0
    simp [list_find_all_occurrences, h0]

theorem list_find_all_reverse_order_witness :
    ((∀ j : Nat,
        j ≤ ((chain_data [some ⟨0, 15, some 1⟩, some ⟨1, 6, some 2⟩, some ⟨2, 25, none⟩] [0, 1, 2]).filter
          (fun d => decide ((fun d => some (Int.ofNat (d % 10))) d = some (ref_t.mk (some 1) 5).as_int))).length →
        (fun _ => true) j = true) →
      ∃ (h' : heap_t) (nl : list_t) (naddrs : List Nat),
        list_find_all_occurrences (fun d => some (Int.ofNat (d % 10))) (fun _ => true)
          [some ⟨0, 15, some 1⟩, some ⟨1, 6, some 2⟩, some ⟨2, 25, none⟩]
          (some ⟨3, some 0, some 2, fn_ptr.libc_free, fn_ptr.default_compare⟩) (some (ref_t.mk (some 1) 5)) = some (some nl, h') ∧
        list_wf h' nl naddrs ∧
        chain_data h' naddrs =
          ((chain_data [some ⟨0, 15, some 1⟩, some ⟨1, 6, some 2⟩, some ⟨2, 25, none⟩] [0, 1, 2]).filter
          (fun d => decide ((fun d => some (Int.ofNat (d % 10))) d = some (ref_t.mk (some 1) 5).as_int))).reverse ∧
        (chain_data h' naddrs).head? =
          ((chain_data [some ⟨0, 15, some 1⟩, some ⟨1, 6, some 2⟩, some ⟨2, 25, none⟩] [0, 1, 2]).filter
          (fun d => decide ((fun d => some (Int.ofNat (d % 10))) d = some (ref_t.mk (some 1) 5).as_int))).getLast? ∧
        nl.size =
          ((chain_data [some ⟨0, 15, some 1⟩, some ⟨1, 6, some 2⟩, some ⟨2, 25, none⟩] [0, 1, 2]).filter
          (fun d => decide ((fun d => some (Int.ofNat (d % 10))) d = some (ref_t.mk (some 1) 5).as_int))).length ∧
        (((chain_data [some ⟨0, 15, some 1⟩, some ⟨1, 6, some 2⟩, some ⟨2, 25, none⟩] [0, 1, 2]).filter
          (fun d => decide ((fun d => some (Int.ofNat (d % 10))) d = some (ref_t.mk (some 1) 5).as_int))) = [] →
          nl.size = 0 ∧ nl.head = none ∧ nl.tail = none)) ∧
    ((∃ j : Nat,
        j ≤ ((chain_data [some ⟨0, 15, some 1⟩, some ⟨1, 6, some 2⟩, some ⟨2, 25, none⟩] [0, 1, 2]).filter
          (fun d => decide ((fun d => some (Int.ofNat (d % 10))) d = some (ref_t.mk (some 1) 5).as_int))).length ∧
        (fun _ => true) j = false) →
      ∃ h' : heap_t,
        list_find_all_occurrences (fun d => some (Int.ofNat (d % 10))) (fun _ => true)
          [some ⟨0, 15, some 1⟩, some ⟨1, 6, some 2⟩, some ⟨2, 25, none⟩]
          (some ⟨3, some 0, some 2, fn_ptr.libc_free, fn_ptr.default_compare⟩) (some (ref_t.mk (some 1) 5)) = some (none, h')) ∧
    list_find_all_occurrences (fun d => some (Int.ofNat (d % 10))) (fun _ => true)
      [some ⟨0, 15, some 1⟩, some ⟨1, 6, some 2⟩, some ⟨2, 25, none⟩] none (some (ref_t.mk (some 1) 5)) =
        some (none, [some ⟨0, 15, some 1⟩, some ⟨1, 6, some 2⟩, some ⟨2, 25, none⟩]) ∧
    list_find_all_occurrences (fun d => some (Int.ofNat (d % 10))) (fun _ => true)
      [some ⟨0, 15, some 1⟩, some ⟨1, 6, some 2⟩, some ⟨2, 25, none⟩]
      (some ⟨3, some 0, some 2, fn_ptr.libc_free, fn_ptr.default_compare⟩) none =
        some (none, [some ⟨0, 15, some 1⟩, some ⟨1, 6, some 2⟩, some ⟨2, 25, none⟩]) ∧
    list_find_all_occurrences (fun d => some (Int.ofNat (d % 10))) (fun _ => true)
      [some ⟨0, 15, some 1⟩, some ⟨1, 6, some 2⟩, some ⟨2, 25, none⟩]
      (some ⟨3, some 0, some 2, fn_ptr.libc_free, fn_ptr.default_compare⟩)
      (some ⟨none, (ref_t.mk (some 1) 5).as_int⟩) =
        some (none, [some ⟨0, 15, some 1⟩, some ⟨1, 6, some 2⟩, some ⟨2, 25, none⟩]) ∧
    (∀ l0 : list_t, l0.size = 0 →
      list_find_all_occurrences (fun d => some (Int.ofNat (d % 10))) (fun _ => true)
        [some ⟨0, 15, some 1⟩, some ⟨1, 6, some 2⟩, some ⟨2, 25, none⟩] (some l0) (some (ref_t.mk (some 1) 5)) =
          some (none, [some ⟨0, 15, some 1⟩, some ⟨1, 6, some 2⟩, some ⟨2, 25, none⟩])) :=
  list_find_all_reverse_order (fun d => some (Int.ofNat (d % 10))) (fun _ => true)
    [some ⟨0, 15, some 1⟩, some ⟨1, 6, some 2⟩, some ⟨2, 25, none⟩]
    ⟨3, some 0, some 2, fn_ptr.libc_free, fn_ptr.default_compare⟩ [0, 1, 2] (ref_t.mk (some 1) 5)
    ⟨by decide, by decide, by decide, by decide⟩ (by decide) (by decide)
    (fun d _ => ⟨_, rfl⟩)

end DataStructuresC
